import Mathlib

/-!
# Verification of the toske backup/retention/restore subsystem

This file gives a shallow embedding, in Lean 4, of the core of the
`yk-lab/toske` command line tool (Go): the backup archive creation
(`cmd/backup.go`), the metadata ledger update (`updateMetadata`), the
retention resolver (`determineRetention`), the pruning routines
(`pruneOldBackups`, `pruneProjectBackups`, `runPrune`) and the restore
path with its archive extraction (`runRestore`, `extractBackupArchive`).

Conventions of the embedding:
* Go strings are Lean `String`s; Go slices are Lean `List`s.
* Filesystem state is passed explicitly (existence flags, parsed file
  contents, and an oracle describing the outcome of `os.Remove` per
  file name).  I/O primitives that the verified properties do not
  exercise (config loading, YAML marshalling) are assumed to succeed;
  this is recorded in the doc comment of each definition.
* `time.Time` values are modelled by their calendar fields
  (`GoTime`); `time.Time.After` is chronological comparison, i.e.
  lexicographic comparison of the fields.
* Loops are translated to structurally recursive functions on an
  explicit iteration counter that is always chosen at the call site to
  be at least the number of iterations the Go loop performs, so that
  every definition is executable by kernel reduction.
-/

namespace Toske

/-! ## Go `path/filepath` model (Unix rules)

`extractBackupArchive` (cmd/restore.go) sanitizes entry paths with
`filepath.Join`, `filepath.Clean` and `strings.HasPrefix`.  We model
those three functions for Unix paths. -/

/-- Split a character list on `'/'`, like `strings.Split(s, "/")`:
`"a/b" ↦ ["a","b"]`, `"/a" ↦ ["","a"]`, `"" ↦ [""]`. -/
def splitSlashChars : List Char → List (List Char)
  | [] => [[]]
  | c :: rest =>
    if c = '/' then [] :: splitSlashChars rest
    else
      match splitSlashChars rest with
      | [] => [[c]]
      | seg :: segs => (c :: seg) :: segs

/-- The segment-processing loop of Go `path/filepath.Clean` (Unix).
`stack` holds the already-emitted path elements in reverse order.
Empty and `"."` elements are dropped; `".."` pops the previous element
unless the path is rooted and the stack is empty (then it is dropped)
or the previous element is itself a `".."` kept in a relative path
(then it is kept). -/
def cleanLoop (rooted : Bool) : List String → List String → List String
  | stack, [] => stack.reverse
  | stack, s :: rest =>
    if s = "" ∨ s = "." then cleanLoop rooted stack rest
    else if s = ".." then
      match stack with
      | [] => if rooted then cleanLoop rooted [] rest else cleanLoop rooted [".."] rest
      | top :: pop =>
        if top = ".." then cleanLoop rooted (".." :: top :: pop) rest
        else cleanLoop rooted pop rest
    else cleanLoop rooted (s :: stack) rest

/-- Join path elements with `"/"`. -/
def joinSlash : List String → String
  | [] => ""
  | [s] => s
  | s :: rest => s ++ "/" ++ joinSlash rest

/-- Model of Go `path/filepath.Clean` for Unix paths: shortest lexical
equivalent, `"."` for the empty result, `".."` elements that escape a
relative root are kept, `".."` at an absolute root is dropped. -/
def goClean (s : String) : String :=
  if s = "" then "."
  else
    let rooted : Bool := s.data.head? = some '/'
    let segs : List String := (splitSlashChars s.data).map (fun l => String.mk l)
    let cleaned := cleanLoop rooted [] segs
    if rooted then "/" ++ joinSlash cleaned
    else if cleaned = [] then "." else joinSlash cleaned

/-- Model of Go `path/filepath.Join(a, b)`: empty elements are
dropped, the rest are joined with `"/"` and the result is `Clean`ed;
`Join("", "")` is `""`. -/
def goJoin (a b : String) : String :=
  if a = "" ∧ b = "" then ""
  else if a = "" then goClean b
  else if b = "" then goClean a
  else goClean (a ++ "/" ++ b)

/-- Model of Go `strings.HasPrefix(s, p)`. -/
def goHasPrefix (s p : String) : Bool :=
  p.data.isPrefixOf s.data

/-! ## Archive extraction (`extractBackupArchive`, cmd/restore.go)

The Go function streams tar entries; directory entries are skipped;
for every other entry it computes
`targetPath := filepath.Join(currentDir, header.Name)` and skips the
entry when
`!strings.HasPrefix(filepath.Clean(targetPath), filepath.Clean(currentDir))`;
otherwise it creates the parent directories, writes the file and
counts it.  We model an archive as the list of its entries and record,
for a given working directory, the number of files written and the
paths they are written to.  File-write I/O errors are not modelled
(the verified claims are about which entries are accepted). -/

/-- A tar entry as far as extraction is concerned: its `Name` header
field and whether its type flag is `tar.TypeDir`. -/
structure TarEntry where
  name : String
  isDir : Bool
  deriving DecidableEq

/-- Embedding of `extractBackupArchive`'s entry loop: returns
`(fileCount, written paths in order)`. -/
def extractBackupArchive (currentDir : String) (entries : List TarEntry) :
    Nat × List String :=
  entries.foldl
    (fun acc e =>
      if e.isDir then acc
      else
        let targetPath := goJoin currentDir e.name
        if goHasPrefix (goClean targetPath) (goClean currentDir) then
          (acc.1 + 1, acc.2 ++ [targetPath])
        else acc)
    (0, [])

/-- `p` is contained in the directory `root` after normalization:
it is `root` itself or lies strictly below it. -/
def withinRoot (root p : String) : Bool :=
  p = goClean root || goHasPrefix p (goClean root ++ "/")

/-- C1: the claim says `extractBackupArchive` skips every entry whose
path is absolute or escapes the destination root through `..`
segments, creates no file outside the root, and excludes such entries
from the returned count.  The code's check
`strings.HasPrefix(filepath.Clean(filepath.Join(cwd, name)), filepath.Clean(cwd))`
violates this: with working directory `/tmp/work`, the entry
`../work-evil/x.txt` resolves to `/tmp/work-evil/x.txt`, which passes
the prefix test, so the file is written OUTSIDE the destination root
and is counted; and the absolute entry `/etc/passwd` is joined to
`/tmp/work/etc/passwd`, so it is not skipped and is counted, contrary
to the claim (and to the expectations of the repository's own
`TestExtractBackupArchivePathTraversal`). -/
theorem extractBackupArchive_traversal_bug :
    extractBackupArchive "/tmp/work"
        [⟨"../work-evil/x.txt", false⟩, ⟨"/etc/passwd", false⟩] =
      (2, ["/tmp/work-evil/x.txt", "/tmp/work/etc/passwd"]) ∧
    withinRoot "/tmp/work" "/tmp/work-evil/x.txt" = false := by
  constructor <;> rfl

/-! ## Time model

`time.Time` values are modelled by their calendar fields in the local
zone (year, month, day, hour, minute, second, nanosecond).
`time.Time.After` is chronological order, i.e. lexicographic order on
those fields. -/

/-- Calendar-field model of a Go `time.Time`. -/
structure GoTime where
  year : Nat
  month : Nat
  day : Nat
  hour : Nat
  minute : Nat
  second : Nat
  nsec : Nat
  deriving DecidableEq

/-- Strict lexicographic order on lists of naturals. -/
def natListLt : List Nat → List Nat → Bool
  | _, [] => false
  | [], _ :: _ => true
  | a :: as, b :: bs =>
    if a < b then true
    else if b < a then false
    else natListLt as bs

/-- The calendar fields of a `GoTime`, most significant first. -/
def GoTime.fields (t : GoTime) : List Nat :=
  [t.year, t.month, t.day, t.hour, t.minute, t.second, t.nsec]

/-- Model of `time.Time.After`: `t` is chronologically strictly later
than `u`. -/
def GoTime.after (t u : GoTime) : Bool :=
  natListLt u.fields t.fields

/-- Decimal representation of `n` left-padded with zeros to width `w`
(the padding Go's reference-time layouts `2006`, `01`, … perform). -/
def padNat (w n : Nat) : String :=
  let s := toString n
  String.mk (List.replicate (w - s.length) '0') ++ s

/-- Model of `t.Format("20060102_150405")` (Go reference layout:
4-digit year, 2-digit month/day, `_`, 2-digit hour/minute/second; the
layout contains no fractional-second directive, so the nanosecond
field does not appear). -/
def goFormatTimestamp (t : GoTime) : String :=
  padNat 4 t.year ++ padNat 2 t.month ++ padNat 2 t.day ++ "_" ++
    padNat 2 t.hour ++ padNat 2 t.minute ++ padNat 2 t.second

/-- The archive filename computed by `runBackup` (cmd/backup.go,
`fmt.Sprintf("backup_%s.tar.gz", timestamp.Format("20060102_150405"))`). -/
def archiveFilename (t : GoTime) : String :=
  "backup_" ++ goFormatTimestamp t ++ ".tar.gz"

/-- Two instants fall in the same calendar second (they may still be
distinct instants, differing in the nanosecond field). -/
def sameSecond (t u : GoTime) : Prop :=
  t.year = u.year ∧ t.month = u.month ∧ t.day = u.day ∧
    t.hour = u.hour ∧ t.minute = u.minute ∧ t.second = u.second

instance : DecidablePred (fun p : GoTime × GoTime => sameSecond p.1 p.2) :=
  fun _ => by unfold sameSecond; infer_instance

instance (t u : GoTime) : Decidable (sameSecond t u) := by
  unfold sameSecond; infer_instance

/-- C2 counterexample: two distinct backup instants inside the same
second (they differ only in nanoseconds) yield the SAME archive
filename, because `runBackup` formats the timestamp with the layout
`20060102_150405`, which has only second resolution.  This refutes the
claim that two Backup invocations within the same second produce
distinct archive filenames. -/
theorem archiveFilename_sameSecond_collision :
    (⟨2025, 3, 20, 15, 30, 45, 0⟩ : GoTime) ≠ ⟨2025, 3, 20, 15, 30, 45, 500000000⟩ ∧
    sameSecond (⟨2025, 3, 20, 15, 30, 45, 0⟩ : GoTime) ⟨2025, 3, 20, 15, 30, 45, 500000000⟩ ∧
    archiveFilename ⟨2025, 3, 20, 15, 30, 45, 0⟩ =
      archiveFilename ⟨2025, 3, 20, 15, 30, 45, 500000000⟩ ∧
    archiveFilename ⟨2025, 3, 20, 15, 30, 45, 0⟩ = "backup_20250320_153045.tar.gz" := by
  refine ⟨by decide, by decide, rfl, rfl⟩

/-- C2 amended: every archive filename produced by `runBackup` is
derived from the backup timestamp at second resolution
(`backup_<YYYYMMDD_HHMMSS>.tar.gz`), so two Backup invocations within
the same calendar second produce the SAME archive filename, not
distinct ones; distinct filenames are only obtained across different
seconds. -/
theorem archiveFilename_second_resolution (t u : GoTime) (h : sameSecond t u) :
    archiveFilename t = archiveFilename u := by
  obtain ⟨h1, h2, h3, h4, h5, h6⟩ := h
  simp [archiveFilename, goFormatTimestamp, h1, h2, h3, h4, h5, h6]

/-- Witness for `archiveFilename_second_resolution` at a concrete
same-second pair. -/
theorem archiveFilename_second_resolution_witness :
    archiveFilename ⟨2025, 3, 20, 15, 30, 45, 123⟩ =
      archiveFilename ⟨2025, 3, 20, 15, 30, 45, 999⟩ :=
  archiveFilename_second_resolution _ _ (by decide)

/-! ## Data model (cmd/backup.go, cmd/config.go) -/

/-- `BackupRecord` (cmd/backup.go): an individual backup record of the
ledger. -/
structure BackupRecord where
  Filename : String
  Timestamp : GoTime
  Files : List String
  deriving DecidableEq

/-- `BackupMetadata` (cmd/backup.go): the per-project ledger persisted
as `backups.yaml`. -/
structure BackupMetadata where
  Project : String
  Backups : List BackupRecord
  deriving DecidableEq

/-- `Project` (cmd/config.go): one project of the configuration.
`BackupRetention` is a Go `int`, hence `Int`. -/
structure Project where
  Name : String
  Repo : String
  Branch : String
  BackupPaths : List String
  BackupRetention : Int
  deriving DecidableEq

/-- `Config` (cmd/config.go). -/
structure Config where
  Version : String
  Projects : List Project
  deriving DecidableEq

/-! ## Retention resolver (`determineRetention`, cmd/prune.go) -/

/-- The `(int, bool, error)` triple returned by `determineRetention`;
the Go function has no failing path, so `err` is always `none`, but the
field is kept because the bulk caller branches on it. -/
structure RetentionResult where
  retention : Int
  skip : Bool
  err : Option String
  deriving DecidableEq

/-- Embedding of `determineRetention` (cmd/prune.go): an explicitly
passed `--keep` flag wins unconditionally (even `--keep=0`); otherwise
a positive configured `backup_retention` is used; otherwise the
project is skipped. -/
def determineRetention (project : Project) (keepFlag : Int) (keepExplicit : Bool) :
    RetentionResult :=
  if keepExplicit then ⟨keepFlag, false, none⟩
  else if project.BackupRetention > 0 then ⟨project.BackupRetention, false, none⟩
  else ⟨0, true, none⟩

/-! ## Pruning one project (`pruneProjectBackups`, cmd/prune.go) -/

/-- Outcome of one `os.Remove(path)` call in the model: the file
existed and was removed, it did not exist (`os.IsNotExist`, tolerated
by the code), or the call failed with some other error. -/
inductive RemoveOutcome where
  | removed
  | notExist
  | hardError
  deriving DecidableEq

/-- The error values `pruneProjectBackups` can produce, one
constructor per `return`-with-error site of the Go function
(`errNoPruneNeeded` is the sentinel `prune: no prune needed`).
`sliceOutOfRange` stands for the Go runtime panic that
`metadata.Backups[retention:]` would raise for a negative `retention`;
that point is unreachable because `runPrune` rejects a negative
`--keep` up front and `determineRetention` otherwise returns a
positive configured value. -/
inductive PruneError where
  | noBackupDir
  | noMetadata
  | noBackups
  | noPruneNeeded
  | deleteError (filename : String)
  | sliceOutOfRange
  deriving DecidableEq

/-- Filesystem state that `pruneProjectBackups` consults for one
project's backup directory.  `metadata` is the parsed content of
`backups.yaml` when `metadataExists`; reading and YAML-parsing the
file are assumed to succeed (their error paths are straight
propagation and are not exercised by the claims).  `removeOutcome`
tells how `os.Remove` behaves on each archive filename. -/
structure PruneFS where
  backupDirExists : Bool
  metadataExists : Bool
  metadata : BackupMetadata
  removeOutcome : String → RemoveOutcome

/-- The observable effect of one `pruneProjectBackups` call:
which archive files were removed from disk (in order), which ledger
content was written back to `backups.yaml` (`none` = the file was not
touched), and the returned error (`none` = `nil`). -/
structure PruneStep where
  removed : List String
  written : Option BackupMetadata
  error : Option PruneError
  deriving DecidableEq

/-- The deletion loop of `pruneProjectBackups`: removes the archive of
every record in `toDelete`, tolerating `os.IsNotExist`, and stops at
the first hard error, reporting the removals done so far and the
offending filename. -/
def removeArchives (outcome : String → RemoveOutcome) :
    List BackupRecord → List String → List String ⊕ (List String × String)
  | [], removed => Sum.inl removed
  | r :: rest, removed =>
    match outcome r.Filename with
    | .removed => removeArchives outcome rest (removed ++ [r.Filename])
    | .notExist => removeArchives outcome rest removed
    | .hardError => Sum.inr (removed, r.Filename)

/-- Embedding of `pruneProjectBackups` (cmd/prune.go): checks the
backup directory and `backups.yaml` exist, loads the ledger, errors on
an empty ledger, returns the `errNoPruneNeeded` sentinel when the
record count is within `retention`, otherwise deletes the archive of
every record beyond index `retention` and persists the truncated
ledger (the final `os.WriteFile` is assumed to succeed). -/
def pruneProjectBackups (fs : PruneFS) (retention : Int) : PruneStep :=
  if fs.backupDirExists = false then ⟨[], none, some .noBackupDir⟩
  else if fs.metadataExists = false then ⟨[], none, some .noMetadata⟩
  else
    let metadata := fs.metadata
    if metadata.Backups.length = 0 then ⟨[], none, some .noBackups⟩
    else if (metadata.Backups.length : Int) ≤ retention then ⟨[], none, some .noPruneNeeded⟩
    else if retention < 0 then ⟨[], none, some .sliceOutOfRange⟩
    else
      match removeArchives fs.removeOutcome (metadata.Backups.drop retention.toNat) [] with
      | Sum.inr (removedSoFar, filename) =>
        ⟨removedSoFar, none, some (.deleteError filename)⟩
      | Sum.inl removed =>
        ⟨removed, some { metadata with Backups := metadata.Backups.take retention.toNat }, none⟩

/-! ## The `prune` command (`runPrune`, cmd/prune.go)

`runPrune` validates the flag combination, loads the configuration
(assumed to load and parse successfully — config handling is a
collaborator) and then either iterates all projects (`--all`) or
processes the single named project. -/

/-- What happened to one project inside the `--all` loop, mirroring
the four `continue`/fall-through branches of the Go loop body:
`detErr` = `determineRetention` returned an error (counted as a
failure), `skipped` = no retention policy, `noPruneNeeded` = the
sentinel from `pruneProjectBackups` (counted as skipped), `failed` =
any other prune error (counted as a failure), `pruned` = success. -/
inductive ProjectOutcome where
  | detErr
  | skipped
  | noPruneNeeded (step : PruneStep)
  | failed (step : PruneStep)
  | pruned (step : PruneStep)
  deriving DecidableEq

/-- Processing of one project inside the `--all` loop
(cmd/prune.go, the body of `for _, project := range config.Projects`). -/
def processProject (project : Project) (fs : PruneFS) (pruneKeep : Int)
    (keepExplicit : Bool) : ProjectOutcome :=
  let res := determineRetention project pruneKeep keepExplicit
  match res.err with
  | some _ => .detErr
  | none =>
    if res.skip then .skipped
    else
      let step := pruneProjectBackups fs res.retention
      match step.error with
      | some .noPruneNeeded => .noPruneNeeded step
      | some _ => .failed step
      | none => .pruned step

/-- The branch that increments `errorCount` in the Go loop. -/
def ProjectOutcome.isFailed : ProjectOutcome → Bool
  | .detErr => true
  | .failed _ => true
  | _ => false

/-- The branches that increment `skippedCount` in the Go loop. -/
def ProjectOutcome.isSkipped : ProjectOutcome → Bool
  | .skipped => true
  | .noPruneNeeded _ => true
  | _ => false

/-- Filesystem effects carried by an outcome: archive files removed
and ledger content written.  `skipped` and `detErr` perform no
`pruneProjectBackups` call at all, hence no effects. -/
def ProjectOutcome.effects : ProjectOutcome → List String × Option BackupMetadata
  | .detErr => ([], none)
  | .skipped => ([], none)
  | .noPruneNeeded step => (step.removed, step.written)
  | .failed step => (step.removed, step.written)
  | .pruned step => (step.removed, step.written)

/-- The `--all` loop of `runPrune`: processes every configured project
in order, accumulating `successCount`, `skippedCount`, `errorCount`
and the per-project outcomes; it never exits early. -/
def bulkLoop (fsOf : String → PruneFS) (pruneKeep : Int) (keepExplicit : Bool) :
    List Project → Nat → Nat → Nat → List ProjectOutcome →
      Nat × Nat × Nat × List ProjectOutcome
  | [], s, k, e, acc => (s, k, e, acc.reverse)
  | p :: rest, s, k, e, acc =>
    let o := processProject p (fsOf p.Name) pruneKeep keepExplicit
    match o with
    | .detErr => bulkLoop fsOf pruneKeep keepExplicit rest s k (e + 1) (o :: acc)
    | .skipped => bulkLoop fsOf pruneKeep keepExplicit rest s (k + 1) e (o :: acc)
    | .noPruneNeeded _ => bulkLoop fsOf pruneKeep keepExplicit rest s (k + 1) e (o :: acc)
    | .failed _ => bulkLoop fsOf pruneKeep keepExplicit rest s k (e + 1) (o :: acc)
    | .pruned _ => bulkLoop fsOf pruneKeep keepExplicit rest (s + 1) k e (o :: acc)

/-- Errors `runPrune` can return, one constructor per `return`-site:
flag validation errors, project lookup failure, a single-mode error
propagated from `pruneProjectBackups`, and the bulk-mode aggregate
failure carrying `errorCount`. -/
inductive RunPruneError where
  | bothFlags
  | noFlags
  | invalidKeep
  | noProjects
  | projectNotFound (name : String)
  | detError (msg : String)
  | projectError (e : PruneError)
  | partialFailure (count : Nat)
  deriving DecidableEq

/-- Result of a `runPrune` call in the model: the bulk counters and
per-project outcomes (empty in single mode), the single-mode prune
step if one was performed, and the returned error. -/
structure RunPruneReport where
  successCount : Nat
  skippedCount : Nat
  errorCount : Nat
  outcomes : List ProjectOutcome
  singleStep : Option PruneStep
  error : Option RunPruneError
  deriving DecidableEq

/-- The single-project tail of `runPrune` (cmd/prune.go, the `else`
branch): resolve retention, honour the skip signal with a warning and
`nil`, call `pruneProjectBackups`, translate the `errNoPruneNeeded`
sentinel into success, propagate any other error. -/
def runPruneSingleTail (project : Project) (fs : PruneFS) (pruneKeep : Int)
    (keepExplicit : Bool) : Option PruneStep × Option RunPruneError :=
  let res := determineRetention project pruneKeep keepExplicit
  match res.err with
  | some msg => (none, some (.detError msg))
  | none =>
    if res.skip then (none, none)
    else
      let step := pruneProjectBackups fs res.retention
      match step.error with
      | some .noPruneNeeded => (some step, none)
      | some e => (some step, some (.projectError e))
      | none => (some step, none)

/-- The flag/configuration environment of one `runPrune` invocation.
`fsOf` gives the backup-directory state of each project (keyed by
project name, matching `filepath.Join(homeDir, ..., project.Name)`). -/
structure PruneEnv where
  pruneProjectName : String
  pruneAll : Bool
  pruneKeep : Int
  config : Config
  fsOf : String → PruneFS

/-- Embedding of `runPrune` (cmd/prune.go).  Config loading is
assumed to succeed; `keepExplicit` is `cmd.Flags().Changed("keep")`. -/
def runPrune (env : PruneEnv) (keepExplicit : Bool) : RunPruneReport :=
  if env.pruneProjectName ≠ "" ∧ env.pruneAll = true then
    ⟨0, 0, 0, [], none, some .bothFlags⟩
  else if env.pruneProjectName = "" ∧ env.pruneAll = false then
    ⟨0, 0, 0, [], none, some .noFlags⟩
  else if env.pruneKeep < 0 then ⟨0, 0, 0, [], none, some .invalidKeep⟩
  else if env.config.Projects.length = 0 then ⟨0, 0, 0, [], none, some .noProjects⟩
  else if env.pruneAll then
    let r := bulkLoop env.fsOf env.pruneKeep keepExplicit env.config.Projects 0 0 0 []
    ⟨r.1, r.2.1, r.2.2.1, r.2.2.2, none,
      if 0 < r.2.2.1 then some (.partialFailure r.2.2.1) else none⟩
  else
    match env.config.Projects.find? (fun p => p.Name = env.pruneProjectName) with
    | none => ⟨0, 0, 0, [], none, some (.projectNotFound env.pruneProjectName)⟩
    | some project =>
      let t := runPruneSingleTail project (env.fsOf project.Name) env.pruneKeep keepExplicit
      ⟨0, 0, 0, [], t.1, t.2⟩

/-! ## Lemmas about the deletion loop -/

/-- The filenames `removeArchives` actually removes: those of the
records whose archive file exists. -/
def removedNames (outcome : String → RemoveOutcome) (l : List BackupRecord) :
    List String :=
  l.filterMap (fun r => if outcome r.Filename = .removed then some r.Filename else none)

theorem removeArchives_no_hard (outcome : String → RemoveOutcome) :
    ∀ (l : List BackupRecord) (acc : List String),
      (∀ r ∈ l, outcome r.Filename ≠ .hardError) →
      removeArchives outcome l acc = Sum.inl (acc ++ removedNames outcome l) := by
  intro l
  induction l with
  | nil => intro acc _; simp [removeArchives, removedNames]
  | cons r rest ih =>
    intro acc h
    have hr : outcome r.Filename ≠ .hardError := h r (by simp)
    have hrest : ∀ q ∈ rest, outcome q.Filename ≠ .hardError :=
      fun q hq => h q (by simp [hq])
    cases hro : outcome r.Filename with
    | removed =>
      simp only [removeArchives, hro, removedNames, List.filterMap_cons, if_pos rfl]
      rw [ih _ hrest]
      simp [removedNames]
    | notExist =>
      simp only [removeArchives, hro]
      rw [ih _ hrest]
      simp [removedNames, List.filterMap_cons, hro]
    | hardError => exact absurd hro hr

theorem removeArchives_hard (outcome : String → RemoveOutcome) :
    ∀ (pre : List BackupRecord) (r : BackupRecord) (post : List BackupRecord)
      (acc : List String),
      (∀ q ∈ pre, outcome q.Filename ≠ .hardError) →
      outcome r.Filename = .hardError →
      removeArchives outcome (pre ++ r :: post) acc =
        Sum.inr (acc ++ removedNames outcome pre, r.Filename) := by
  intro pre
  induction pre with
  | nil =>
    intro r post acc _ hr
    simp [removeArchives, hr, removedNames]
  | cons q rest ih =>
    intro r post acc h hr
    have hq : outcome q.Filename ≠ .hardError := h q (by simp)
    have hrest : ∀ x ∈ rest, outcome x.Filename ≠ .hardError :=
      fun x hx => h x (by simp [hx])
    cases hqo : outcome q.Filename with
    | removed =>
      simp only [List.cons_append, removeArchives, hqo, List.append_eq]
      rw [ih r post _ hrest hr]
      simp [removedNames, List.filterMap_cons, hqo]
    | notExist =>
      simp only [List.cons_append, removeArchives, hqo, List.append_eq]
      rw [ih r post _ hrest hr]
      simp [removedNames, List.filterMap_cons, hqo]
    | hardError => exact absurd hqo hq

/-! ## C5: retention precedence -/

/-- C5: `determineRetention` follows the precedence "explicit `--keep`
flag (even zero) > positive configured `backup_retention` > skip", and
consequently pruning a project configured with `backup_retention = 3`
under an explicit `--keep=5` leaves exactly 5 surviving ledger
records (whenever at least 5 exist and no deletion hits a hard
filesystem error). -/
theorem determineRetention_precedence (project : Project) (keepFlag : Int)
    (keepExplicit : Bool) :
    (keepExplicit = true →
      determineRetention project keepFlag keepExplicit = ⟨keepFlag, false, none⟩) ∧
    (keepExplicit = false → 0 < project.BackupRetention →
      determineRetention project keepFlag keepExplicit =
        ⟨project.BackupRetention, false, none⟩) ∧
    (keepExplicit = false → project.BackupRetention ≤ 0 →
      determineRetention project keepFlag keepExplicit = ⟨0, true, none⟩) ∧
    (∀ fs : PruneFS, fs.backupDirExists = true → fs.metadataExists = true →
      5 ≤ fs.metadata.Backups.length →
      (∀ f, fs.removeOutcome f ≠ .hardError) →
      project.BackupRetention = 3 →
      ((pruneProjectBackups fs
            (determineRetention project 5 true).retention).written.getD
          fs.metadata).Backups.length = 5) := by
  refine ⟨?_, ?_, ?_, ?_⟩
  · intro h; simp [determineRetention, h]
  · intro h hpos; simp [determineRetention, h, hpos]
  · intro h hnonpos
    have : ¬ project.BackupRetention > 0 := by omega
    simp [determineRetention, h, this]
  · intro fs hd hm hlen hnohard _
    have hret : (determineRetention project 5 true).retention = 5 := rfl
    rw [hret]
    by_cases hle : (fs.metadata.Backups.length : Int) ≤ 5
    · have h5 : fs.metadata.Backups.length = 5 := by omega
      simp [pruneProjectBackups, hd, hm, h5]
    · have hne0 : fs.metadata.Backups.length ≠ 0 := by omega
      have hneg : ¬ ((5 : Int) < 0) := by omega
      simp only [pruneProjectBackups, hd, hm, Bool.true_eq_false, if_false, hne0,
        if_neg hle, if_neg hneg]
      rw [removeArchives_no_hard fs.removeOutcome _ []
        (fun r _ => hnohard r.Filename)]
      simp only [Option.getD_some]
      have : (5 : Int).toNat = 5 := rfl
      rw [this]
      simp [List.length_take]
      omega

/-- A concrete seven-record ledger used by witnesses. -/
def sevenRecords : List BackupRecord :=
  [⟨"b7", ⟨2025, 1, 1, 0, 0, 7, 0⟩, []⟩, ⟨"b6", ⟨2025, 1, 1, 0, 0, 6, 0⟩, []⟩,
   ⟨"b5", ⟨2025, 1, 1, 0, 0, 5, 0⟩, []⟩, ⟨"b4", ⟨2025, 1, 1, 0, 0, 4, 0⟩, []⟩,
   ⟨"b3", ⟨2025, 1, 1, 0, 0, 3, 0⟩, []⟩, ⟨"b2", ⟨2025, 1, 1, 0, 0, 2, 0⟩, []⟩,
   ⟨"b1", ⟨2025, 1, 1, 0, 0, 1, 0⟩, []⟩]

/-- A backup directory holding `sevenRecords`, where every archive
file exists. -/
def sevenFS : PruneFS := ⟨true, true, ⟨"p", sevenRecords⟩, fun _ => .removed⟩

/-- Witness for `determineRetention_precedence`: a concrete project
with `backup_retention = 3`, an explicit `--keep=5`, and a ledger of
7 records is pruned to exactly 5 surviving records. -/
theorem determineRetention_precedence_witness :
    ((pruneProjectBackups sevenFS
        (determineRetention ⟨"p", "r", "main", [".env"], 3⟩ 5 true).retention).written.getD
      sevenFS.metadata).Backups.length = 5 :=
  (determineRetention_precedence ⟨"p", "r", "main", [".env"], 3⟩ 5 true).2.2.2 sevenFS
    rfl rfl (by decide) (fun f h => by simp [sevenFS] at h) rfl

/-! ## C3: the no-prune-needed sentinel -/

/-- C3 counterexample: a loaded ledger with ZERO backup records and
`keepCount = 3` satisfies `len(backups) <= keepCount`, yet
`pruneProjectBackups` returns the hard `noBackups` error (the
`len(metadata.Backups) == 0` check fires before the sentinel check),
not the `errNoPruneNeeded` sentinel, and the single-project caller
propagates it as a command failure rather than success-with-no-op. -/
theorem pruneProjectBackups_emptyLedger_hard_error :
    pruneProjectBackups ⟨true, true, ⟨"p", []⟩, fun _ => .removed⟩ 3 =
      ⟨[], none, some .noBackups⟩ ∧
    PruneError.noBackups ≠ PruneError.noPruneNeeded ∧
    runPruneSingleTail ⟨"p", "r", "main", [".env"], 0⟩
        ⟨true, true, ⟨"p", []⟩, fun _ => .removed⟩ 3 true =
      (some ⟨[], none, some .noBackups⟩, some (.projectError .noBackups)) := by
  refine ⟨rfl, by decide, rfl⟩

/-- C3 amended: for every loaded ledger with at least ONE record and
`len(backups) <= keepCount`, `pruneProjectBackups` returns the
distinguished `errNoPruneNeeded` sentinel, removes no archive file and
does not rewrite the ledger; the single-project caller turns the
sentinel into a `nil` return and the bulk caller counts the project as
skipped, not failed.  (A ledger with zero records instead produces the
hard `noBackups` error, see the counterexample.) -/
theorem pruneProjectBackups_noPruneNeeded (fs : PruneFS) (retention : Int)
    (hd : fs.backupDirExists = true) (hm : fs.metadataExists = true)
    (h1 : 1 ≤ fs.metadata.Backups.length)
    (h2 : (fs.metadata.Backups.length : Int) ≤ retention) :
    pruneProjectBackups fs retention = ⟨[], none, some .noPruneNeeded⟩ ∧
    (∀ project : Project,
      runPruneSingleTail project fs retention true =
        (some ⟨[], none, some .noPruneNeeded⟩, none)) ∧
    (∀ project : Project,
      processProject project fs retention true =
        .noPruneNeeded ⟨[], none, some .noPruneNeeded⟩ ∧
      (ProjectOutcome.noPruneNeeded ⟨[], none, some .noPruneNeeded⟩).isFailed = false ∧
      (ProjectOutcome.noPruneNeeded ⟨[], none, some .noPruneNeeded⟩).isSkipped = true) := by
  have hne0 : fs.metadata.Backups.length ≠ 0 := by omega
  have hstep : pruneProjectBackups fs retention = ⟨[], none, some .noPruneNeeded⟩ := by
    simp [pruneProjectBackups, hd, hm, hne0, h2]
  refine ⟨hstep, ?_, ?_⟩
  · intro project
    simp [runPruneSingleTail, determineRetention, hstep]
  · intro project
    refine ⟨?_, rfl, rfl⟩
    simp [processProject, determineRetention, hstep]

/-- Witness for `pruneProjectBackups_noPruneNeeded`: a ledger with 7
records pruned with `keepCount = 9` is a no-op reporting the
sentinel. -/
theorem pruneProjectBackups_noPruneNeeded_witness :
    pruneProjectBackups sevenFS 9 = ⟨[], none, some .noPruneNeeded⟩ :=
  (pruneProjectBackups_noPruneNeeded sevenFS 9 rfl rfl (by decide) (by decide)).1

/-! ## C6: pruning beyond the keep count -/

/-- C6: for every loaded ledger with `len(backups) > keepCount ≥ 0`,
`pruneProjectBackups` (a) when no deletion hits a hard filesystem
error: deletes the archive file of every record beyond index
`keepCount` (0-indexed; already-missing files are tolerated),
truncates the ledger to its first `keepCount` records and persists it,
returning `nil`; and (b) when some deletion hits a hard error (first
hard error at record `r` after the error-free block `pre`): aborts
with a `deleteError` naming `r`'s archive and leaves the ledger file
unwritten. -/
theorem pruneProjectBackups_prunes (fs : PruneFS) (retention : Int)
    (hd : fs.backupDirExists = true) (hm : fs.metadataExists = true)
    (h0 : 0 ≤ retention)
    (hlt : retention < (fs.metadata.Backups.length : Int)) :
    ((∀ r ∈ fs.metadata.Backups.drop retention.toNat,
        fs.removeOutcome r.Filename ≠ .hardError) →
      pruneProjectBackups fs retention =
        ⟨removedNames fs.removeOutcome (fs.metadata.Backups.drop retention.toNat),
         some { fs.metadata with Backups := fs.metadata.Backups.take retention.toNat },
         none⟩) ∧
    (∀ (pre : List BackupRecord) (r : BackupRecord) (post : List BackupRecord),
      fs.metadata.Backups.drop retention.toNat = pre ++ r :: post →
      (∀ q ∈ pre, fs.removeOutcome q.Filename ≠ .hardError) →
      fs.removeOutcome r.Filename = .hardError →
      pruneProjectBackups fs retention =
        ⟨removedNames fs.removeOutcome pre, none, some (.deleteError r.Filename)⟩) := by
  have hne0 : fs.metadata.Backups.length ≠ 0 := by omega
  have hnle : ¬ ((fs.metadata.Backups.length : Int) ≤ retention) := by omega
  have hneg : ¬ (retention < 0) := by omega
  constructor
  · intro hnohard
    simp only [pruneProjectBackups, hd, hm, Bool.true_eq_false, if_false, hne0,
      if_neg hnle, if_neg hneg]
    rw [removeArchives_no_hard fs.removeOutcome _ [] hnohard]
    simp
  · intro pre r post hsplit hpre hr
    simp only [pruneProjectBackups, hd, hm, Bool.true_eq_false, if_false, hne0,
      if_neg hnle, if_neg hneg]
    rw [hsplit, removeArchives_hard fs.removeOutcome pre r post [] hpre hr]
    simp

/-- Witness for `pruneProjectBackups_prunes`: the seven-record ledger
pruned to 2 removes exactly the five oldest archives and persists the
two newest records. -/
theorem pruneProjectBackups_prunes_witness :
    pruneProjectBackups sevenFS 2 =
      ⟨["b5", "b4", "b3", "b2", "b1"],
       some ⟨"p", [⟨"b7", ⟨2025, 1, 1, 0, 0, 7, 0⟩, []⟩,
                   ⟨"b6", ⟨2025, 1, 1, 0, 0, 6, 0⟩, []⟩]⟩, none⟩ := by
  have h := (pruneProjectBackups_prunes sevenFS 2 rfl rfl (by decide) (by decide)).1
    (fun r _ h => by simp [sevenFS] at h)
  rw [h]
  rfl

/-! ## C7 / C10: bulk mode -/

/-- The branch that increments `successCount` in the Go loop. -/
def ProjectOutcome.isPruned : ProjectOutcome → Bool
  | .pruned _ => true
  | _ => false

theorem bulkLoop_spec (fsOf : String → PruneFS) (pruneKeep : Int)
    (keepExplicit : Bool) :
    ∀ (ps : List Project) (s k e : Nat) (acc : List ProjectOutcome),
      bulkLoop fsOf pruneKeep keepExplicit ps s k e acc =
        (s + (ps.map (fun p =>
            processProject p (fsOf p.Name) pruneKeep keepExplicit)).countP
              (fun o => o.isPruned),
         k + (ps.map (fun p =>
            processProject p (fsOf p.Name) pruneKeep keepExplicit)).countP
              (fun o => o.isSkipped),
         e + (ps.map (fun p =>
            processProject p (fsOf p.Name) pruneKeep keepExplicit)).countP
              (fun o => o.isFailed),
         acc.reverse ++ ps.map (fun p =>
            processProject p (fsOf p.Name) pruneKeep keepExplicit)) := by
  intro ps
  induction ps with
  | nil => intro s k e acc; simp [bulkLoop]
  | cons p rest ih =>
    intro s k e acc
    cases ho : processProject p (fsOf p.Name) pruneKeep keepExplicit with
    | detErr =>
      simp only [bulkLoop, ho, ih, List.map_cons, List.countP_cons,
        ProjectOutcome.isPruned, ProjectOutcome.isSkipped, ProjectOutcome.isFailed,
        List.reverse_cons, List.append_assoc, List.singleton_append]
      simp [ho]
      omega
    | skipped =>
      simp only [bulkLoop, ho, ih, List.map_cons, List.countP_cons,
        ProjectOutcome.isPruned, ProjectOutcome.isSkipped, ProjectOutcome.isFailed,
        List.reverse_cons, List.append_assoc, List.singleton_append]
      simp [ho]
      omega
    | noPruneNeeded step =>
      simp only [bulkLoop, ho, ih, List.map_cons, List.countP_cons,
        ProjectOutcome.isPruned, ProjectOutcome.isSkipped, ProjectOutcome.isFailed,
        List.reverse_cons, List.append_assoc, List.singleton_append]
      simp [ho]
      omega
    | failed step =>
      simp only [bulkLoop, ho, ih, List.map_cons, List.countP_cons,
        ProjectOutcome.isPruned, ProjectOutcome.isSkipped, ProjectOutcome.isFailed,
        List.reverse_cons, List.append_assoc, List.singleton_append]
      simp [ho]
      omega
    | pruned step =>
      simp only [bulkLoop, ho, ih, List.map_cons, List.countP_cons,
        ProjectOutcome.isPruned, ProjectOutcome.isSkipped, ProjectOutcome.isFailed,
        List.reverse_cons, List.append_assoc, List.singleton_append]
      simp [ho]
      omega

theorem ite_partialFailure_none_iff (c : Nat) :
    ((if 0 < c then some (RunPruneError.partialFailure c) else none) = none ↔ c = 0) := by
  by_cases h : 0 < c
  · simp [h]; omega
  · simp [h]; omega

theorem determineRetention_err_none (p : Project) (keepFlag : Int)
    (keepExplicit : Bool) : (determineRetention p keepFlag keepExplicit).err = none := by
  unfold determineRetention
  split <;> [rfl; split <;> rfl]

/-- C7: bulk-mode `runPrune` (`--all`) processes every configured
project sequentially (the outcome list is the pointwise image of the
full project list — no early stop), leaves skipped projects (no
explicit flag, no positive configured retention) entirely untouched,
and returns an error if and only if at least one project failed with a
non-skip error, surfacing `partialFailure errorCount` only after all
projects were attempted. -/
theorem runPrune_bulk_spec (env : PruneEnv) (keepExplicit : Bool)
    (hname : env.pruneProjectName = "") (hall : env.pruneAll = true)
    (hkeep : 0 ≤ env.pruneKeep) (hne : env.config.Projects ≠ []) :
    (runPrune env keepExplicit).outcomes =
      env.config.Projects.map
        (fun p => processProject p (env.fsOf p.Name) env.pruneKeep keepExplicit) ∧
    (∀ p : Project,
      (determineRetention p env.pruneKeep keepExplicit).skip = true →
      processProject p (env.fsOf p.Name) env.pruneKeep keepExplicit = .skipped ∧
      ProjectOutcome.skipped.effects = ([], none)) ∧
    (runPrune env keepExplicit).errorCount =
      (runPrune env keepExplicit).outcomes.countP (fun o => o.isFailed) ∧
    ((runPrune env keepExplicit).error = none ↔
      (runPrune env keepExplicit).errorCount = 0) ∧
    (0 < (runPrune env keepExplicit).errorCount →
      (runPrune env keepExplicit).error =
        some (.partialFailure (runPrune env keepExplicit).errorCount)) := by
  have h1 : ¬ (env.pruneProjectName ≠ "" ∧ env.pruneAll = true) := by
    simp [hname]
  have h2 : ¬ (env.pruneProjectName = "" ∧ env.pruneAll = false) := by
    simp [hall]
  have h3 : ¬ (env.pruneKeep < 0) := by omega
  have h4 : ¬ (env.config.Projects.length = 0) := by
    simpa using hne
  have hrun : runPrune env keepExplicit =
      ⟨(env.config.Projects.map (fun p =>
          processProject p (env.fsOf p.Name) env.pruneKeep keepExplicit)).countP
            (fun o => o.isPruned),
       (env.config.Projects.map (fun p =>
          processProject p (env.fsOf p.Name) env.pruneKeep keepExplicit)).countP
            (fun o => o.isSkipped),
       (env.config.Projects.map (fun p =>
          processProject p (env.fsOf p.Name) env.pruneKeep keepExplicit)).countP
            (fun o => o.isFailed),
       env.config.Projects.map (fun p =>
          processProject p (env.fsOf p.Name) env.pruneKeep keepExplicit),
       none,
       if 0 < (env.config.Projects.map (fun p =>
            processProject p (env.fsOf p.Name) env.pruneKeep keepExplicit)).countP
              (fun o => o.isFailed)
        then some (.partialFailure ((env.config.Projects.map (fun p =>
            processProject p (env.fsOf p.Name) env.pruneKeep keepExplicit)).countP
              (fun o => o.isFailed)))
        else none⟩ := by
    rw [runPrune, if_neg h1, if_neg h2, if_neg h3, if_neg h4, if_pos hall]
    rw [bulkLoop_spec]
    simp
  refine ⟨by rw [hrun], ?_, by rw [hrun], ?_, ?_⟩
  · intro p hskip
    refine ⟨?_, rfl⟩
    rcases hres : determineRetention p env.pruneKeep keepExplicit with ⟨ret, skip, err⟩
    have herr : err = none := by
      have := determineRetention_err_none p env.pruneKeep keepExplicit
      rw [hres] at this
      exact this
    have hskip' : skip = true := by
      rw [hres] at hskip
      exact hskip
    simp [processProject, hres, herr, hskip']
  · rw [hrun]
    exact ite_partialFailure_none_iff _
  · rw [hrun]
    intro hpos
    exact if_pos hpos

/-- The spec's bulk example: projects `A` (retention 3), `B`
(retention 2), `C` (unset). -/
def bulkEnv : PruneEnv :=
  ⟨"", true, 0,
   ⟨"1.0.0", [⟨"A", "rA", "main", [".env"], 3⟩, ⟨"B", "rB", "main", [".env"], 2⟩,
              ⟨"C", "rC", "main", [".env"], 0⟩]⟩,
   fun _ => sevenFS⟩

/-- Witness for `runPrune_bulk_spec`: on the spec's `{A:3, B:2,
C:unset}` example with seven backups each, bulk prune succeeds
(no overall error) and `C` is skipped untouched. -/
theorem runPrune_bulk_spec_witness :
    (runPrune bulkEnv false).error = none ∧
    processProject ⟨"C", "rC", "main", [".env"], 0⟩ sevenFS 0 false = .skipped :=
  ⟨((runPrune_bulk_spec bulkEnv false rfl rfl (by decide) (by decide)).2.2.2.1).mpr
      (by decide),
   ((runPrune_bulk_spec bulkEnv false rfl rfl (by decide) (by decide)).2.1
      ⟨"C", "rC", "main", [".env"], 0⟩ (by decide)).1⟩

/-- C10: `determineRetention` returns a `nil` error on every input;
consequently the `errorCount`-incrementing branch of bulk `runPrune`
that reacts to a `determineRetention` error is unreachable
(`processProject` never yields `detErr`), and every failed outcome
carries the `PruneStep` of a `pruneProjectBackups` call whose error is
a non-sentinel prune error. -/
theorem determineRetention_total (p : Project) (keepFlag : Int) (keepExplicit : Bool) :
    (determineRetention p keepFlag keepExplicit).err = none ∧
    (∀ fs : PruneFS, processProject p fs keepFlag keepExplicit ≠ .detErr) ∧
    (∀ (fs : PruneFS) (step : PruneStep),
      processProject p fs keepFlag keepExplicit = .failed step →
      step = pruneProjectBackups fs (determineRetention p keepFlag keepExplicit).retention ∧
      ∃ e, step.error = some e ∧ e ≠ .noPruneNeeded) := by
  have herr := determineRetention_err_none p keepFlag keepExplicit
  rcases hres : determineRetention p keepFlag keepExplicit with ⟨ret, skip, err⟩
  have herr' : err = none := by rw [hres] at herr; exact herr
  subst herr'
  refine ⟨rfl, ?_, ?_⟩
  · intro fs
    simp only [processProject, hres]
    by_cases hs : skip = true
    · simp [hs]
    · simp only [Bool.not_eq_true] at hs
      simp only [hs, Bool.false_eq_true, if_false]
      rcases he : (pruneProjectBackups fs ret).error with _ | e
      · simp [he]
      · cases e <;> simp [he]
  · intro fs step hfail
    simp only [processProject, hres] at hfail
    by_cases hs : skip = true
    · simp [hs] at hfail
    · simp only [Bool.not_eq_true] at hs
      simp only [hs, Bool.false_eq_true, if_false] at hfail
      rcases he : (pruneProjectBackups fs ret).error with _ | e
      · simp [he] at hfail
      · cases e <;> simp [he] at hfail <;>
          exact ⟨hfail ▸ rfl, by rw [hfail] at he; exact ⟨_, he, by intro hx; cases hx⟩⟩

/-- Witness for `determineRetention_total`: a concrete failing project
(no backup directory) whose bulk failure originates from
`pruneProjectBackups`. -/
theorem determineRetention_total_witness :
    (⟨[], none, some .noBackupDir⟩ : PruneStep) =
      pruneProjectBackups ⟨false, true, ⟨"p", []⟩, fun _ => .removed⟩
        (determineRetention ⟨"p", "r", "m", [], 1⟩ 0 false).retention ∧
    ∃ e, (⟨[], none, some .noBackupDir⟩ : PruneStep).error = some e ∧
      e ≠ .noPruneNeeded :=
  (determineRetention_total ⟨"p", "r", "m", [], 1⟩ 0 false).2.2
    ⟨false, true, ⟨"p", []⟩, fun _ => .removed⟩ _ rfl

/-! ## The `restore` command (`runRestore`, cmd/restore.go)

We model the part of `runRestore` that runs after the configuration
has been loaded and the project resolved (config handling is a
collaborator and its failure paths are plain propagation): the backup
directory and ledger checks, the 1-indexed selector validation, the
archive existence check, the confirmation prompt and the call to
`extractBackupArchive`. -/

/-- Errors `runRestore` can produce after project resolution, one
constructor per `return`-with-error site.  `invalidBackupIndex`
carries both values interpolated into `restore.invalidBackupIndex`:
the offending index and `len(metadata.Backups)`. -/
inductive RestoreError where
  | noBackupDir
  | noMetadata
  | noBackups
  | invalidBackupIndex (given : Int) (count : Nat)
  | backupNotFound (filename : String)
  deriving DecidableEq

/-- Result of a `runRestore` call: an error, a user cancellation at
the confirmation prompt (a normal `nil` return with no extraction), or
a successful restore of the selected record. -/
inductive RestoreOutcome where
  | err (e : RestoreError)
  | cancelled
  | restored (record : BackupRecord)
  deriving DecidableEq

/-- Filesystem state consulted by `runRestore` for one project:
whether the backup directory and `backups.yaml` exist, the parsed
ledger (reading/parsing assumed to succeed), and which archive files
exist on disk. -/
structure RestoreFS where
  backupDirExists : Bool
  metadataExists : Bool
  metadata : BackupMetadata
  archiveExists : String → Bool

/-- Placeholder record for the guarded list lookup (never selected:
the lookup index is validated first). -/
def dummyRecord : BackupRecord := ⟨"", ⟨0, 0, 0, 0, 0, 0, 0⟩, []⟩

/-- Embedding of `runRestore` (cmd/restore.go) after project
resolution.  `backupIndex` is the `--backup` flag (Go `int`),
`forceRestore` the `--force` flag, and `confirmYes` whether the user
answers `y`/`yes` at the prompt. -/
def runRestore (fs : RestoreFS) (backupIndex : Int) (forceRestore : Bool)
    (confirmYes : Bool) : RestoreOutcome :=
  if fs.backupDirExists = false then .err .noBackupDir
  else if fs.metadataExists = false then .err .noMetadata
  else if fs.metadata.Backups.length = 0 then .err .noBackups
  else if backupIndex < 1 ∨ (fs.metadata.Backups.length : Int) < backupIndex then
    .err (.invalidBackupIndex backupIndex fs.metadata.Backups.length)
  else
    let selectedBackup := fs.metadata.Backups.getD (backupIndex - 1).toNat dummyRecord
    if fs.archiveExists selectedBackup.Filename = false then
      .err (.backupNotFound selectedBackup.Filename)
    else if forceRestore = false ∧ confirmYes = false then .cancelled
    else .restored selectedBackup

/-- The ledger invariant: records sorted descending by timestamp (no
record followed by a strictly later one). -/
def sortedDesc (l : List BackupRecord) : Prop :=
  l.Pairwise (fun a b => b.Timestamp.after a.Timestamp = false)

/-- C9: `runRestore` with selector 1 restores the first ledger record
(the most recent one under the descending-order invariant); every
selector outside `[1, len(backups)]` fails with an error carrying both
the invalid index and the valid count; an empty ledger, a missing
backup directory, and an out-of-range selector produce pairwise
distinct errors. -/
theorem runRestore_selector_spec (fs : RestoreFS)
    (hd : fs.backupDirExists = true) (hm : fs.metadataExists = true) :
    (∀ idx force confirm, fs.metadata.Backups = [] →
      runRestore fs idx force confirm = .err .noBackups) ∧
    (∀ (idx : Int) (force confirm : Bool), 0 < fs.metadata.Backups.length →
      (idx < 1 ∨ (fs.metadata.Backups.length : Int) < idx) →
      runRestore fs idx force confirm =
        .err (.invalidBackupIndex idx fs.metadata.Backups.length)) ∧
    (∀ (head : BackupRecord) (tail : List BackupRecord) (confirm : Bool),
      fs.metadata.Backups = head :: tail →
      fs.archiveExists head.Filename = true →
      runRestore fs 1 true confirm = .restored head ∧
      (sortedDesc fs.metadata.Backups →
        ∀ r ∈ tail, r.Timestamp.after head.Timestamp = false)) ∧
    (∀ (fs' : RestoreFS) (i : Int) (f c : Bool),
      fs'.backupDirExists = false →
      runRestore fs' i f c = .err .noBackupDir) ∧
    (∀ (i : Int) (n : Nat),
      RestoreError.noBackups ≠ .noBackupDir ∧
      RestoreError.noBackups ≠ .invalidBackupIndex i n ∧
      RestoreError.noBackupDir ≠ .invalidBackupIndex i n) := by
  refine ⟨?_, ?_, ?_, ?_, ?_⟩
  · intro idx force confirm hempty
    simp [runRestore, hd, hm, hempty]
  · intro idx force confirm hpos hrange
    have hne0 : fs.metadata.Backups.length ≠ 0 := by omega
    simp only [runRestore, hd, hm, Bool.true_eq_false, if_false, hne0, if_pos hrange]
  · intro head tail confirm hcons harch
    have hne0 : fs.metadata.Backups.length ≠ 0 := by rw [hcons]; simp
    have hnrange : ¬ ((1 : Int) < 1 ∨ (fs.metadata.Backups.length : Int) < 1) := by
      rw [hcons]
      simp
    refine ⟨?_, ?_⟩
    · have hsel : fs.metadata.Backups.getD ((1 : Int) - 1).toNat dummyRecord = head := by
        rw [hcons]; rfl
      simp only [runRestore, hd, hm, Bool.true_eq_false, if_false, hne0,
        if_neg hnrange, hsel, harch]
      simp
    · intro hsorted r hr
      rw [hcons] at hsorted
      exact (List.pairwise_cons.mp hsorted).1 r hr
  · intro fs' i f c hnd
    simp [runRestore, hnd]
  · intro i n
    refine ⟨by decide, ?_, ?_⟩ <;> (intro h; cases h)

/-- Witness for `runRestore_selector_spec`: the spec's scenario
(3 records, `Restore(selector=1, force)` restores the newest,
`Restore(selector=4, force)` fails citing count 3, and an empty ledger
and a missing directory give the other two distinct errors). -/
theorem runRestore_selector_spec_witness :
    runRestore
        ⟨true, true, ⟨"p", [⟨"b3", ⟨2025, 1, 1, 0, 0, 3, 0⟩, [".env"]⟩,
                            ⟨"b2", ⟨2025, 1, 1, 0, 0, 2, 0⟩, [".env"]⟩,
                            ⟨"b1", ⟨2025, 1, 1, 0, 0, 1, 0⟩, [".env"]⟩]⟩,
          fun _ => true⟩ 1 true false =
      .restored ⟨"b3", ⟨2025, 1, 1, 0, 0, 3, 0⟩, [".env"]⟩ ∧
    runRestore
        ⟨true, true, ⟨"p", [⟨"b3", ⟨2025, 1, 1, 0, 0, 3, 0⟩, [".env"]⟩,
                            ⟨"b2", ⟨2025, 1, 1, 0, 0, 2, 0⟩, [".env"]⟩,
                            ⟨"b1", ⟨2025, 1, 1, 0, 0, 1, 0⟩, [".env"]⟩]⟩,
          fun _ => true⟩ 4 true false =
      .err (.invalidBackupIndex 4 3) :=
  ⟨((runRestore_selector_spec _ rfl rfl).2.2.1 _ _ false rfl rfl).1,
   (runRestore_selector_spec _ rfl rfl).2.1 4 true false (by decide) (by decide)⟩

/-! ## Go `sort.Slice` (pdqsort)

`updateMetadata` (cmd/backup.go) re-sorts the ledger with
`sort.Slice(metadata.Backups, func(i, j int) bool { return
metadata.Backups[i].Timestamp.After(metadata.Backups[j].Timestamp) })`.
`sort.Slice` is Go's pattern-defeating quicksort
(`sort/zsortfunc.go`, Go ≥ 1.19): insertion sort below 13 elements,
heap sort when the recursion budget `limit` is exhausted, otherwise
quicksort with median pivot selection, a partial-insertion-sort
fast path, an equal-element partition fast path and pattern breaking.
It is documented as NOT stable.  The embedding below transcribes that
algorithm; slices are Lean lists, `data.Swap(i,j)`/`data.Less(i,j)`
are `lswap`/`lless`, and every Go loop is structural recursion on an
iteration counter chosen at least as large as the number of iterations
the loop can perform. -/

/-- `data[i]` with the (never hit) out-of-range default. -/
def lget [Inhabited α] (l : List α) (i : Nat) : α := l.getD i default

/-- `data.Swap(i, j)`.  Go's swap panics on an out-of-range index;
no call in the algorithm is out of range, and the model leaves the
list unchanged there. -/
def lswap [Inhabited α] (l : List α) (i j : Nat) : List α :=
  if i < l.length ∧ j < l.length then
    let xi := lget l i
    let xj := lget l j
    (l.set i xj).set j xi
  else l

/-- `data.Less(i, j)`. -/
def lless [Inhabited α] (less : α → α → Bool) (l : List α) (i j : Nat) : Bool :=
  less (lget l i) (lget l j)

/-- `math/bits.Len` on `Nat`. -/
def bitsLen (n : Nat) : Nat := if n = 0 then 0 else n.log2 + 1

/-- One step of the `xorshift` generator of Go's sort package
(uint64 arithmetic, so modulo `2^64`). -/
def xorshiftNext (r : Nat) : Nat :=
  let r := (r ^^^ (r <<< 13)) % 2 ^ 64
  let r := r ^^^ (r >>> 7)
  (r ^^^ (r <<< 17)) % 2 ^ 64

/-- `nextPowerOfTwo` of Go's sort package: `1 << bits.Len(length)`. -/
def nextPowerOfTwo (length : Nat) : Nat := 2 ^ bitsLen length

/-- Inner loop of `insertionSort_func`:
`for j := i; j > a && data.Less(j, j-1); j-- { data.Swap(j, j-1) }`. -/
def insertionSortInner [Inhabited α] (less : α → α → Bool) (a : Nat) :
    List α → Nat → List α
  | l, 0 => l
  | l, j + 1 =>
    if a < j + 1 ∧ lless less l (j + 1) j then
      insertionSortInner less a (lswap l (j + 1) j) j
    else l

/-- Outer loop of `insertionSort_func`: `for i := a+1; i < b; i++`,
with `cnt` the remaining iteration budget `b - i`. -/
def insertionSortOuter [Inhabited α] (less : α → α → Bool) (a b : Nat) :
    Nat → List α → Nat → List α
  | 0, l, _ => l
  | cnt + 1, l, i =>
    if i < b then
      insertionSortOuter less a b cnt (insertionSortInner less a l i) (i + 1)
    else l

/-- `insertionSort_func(data, a, b)`. -/
def insertionSortGo [Inhabited α] (less : α → α → Bool) (l : List α) (a b : Nat) :
    List α :=
  insertionSortOuter less a b (b - a) l (a + 1)

/-- `siftDown_func(data, lo, hi, first)` with `root` the moving index;
the counter is at least `hi`, enough since the child index at least
doubles each step. -/
def siftDownGo [Inhabited α] (less : α → α → Bool) (first hi : Nat) :
    Nat → List α → Nat → List α
  | 0, l, _ => l
  | fuel + 1, l, root =>
    let child := 2 * root + 1
    if hi ≤ child then l
    else
      let child :=
        if child + 1 < hi ∧ lless less l (first + child) (first + child + 1) then
          child + 1
        else child
      if ¬ lless less l (first + root) (first + child) then l
      else siftDownGo less first hi fuel (lswap l (first + root) (first + child)) child

/-- Heap construction of `heapSort_func`:
`for i := (hi-1)/2; i >= 0; i--`, counter = `i + 1`. -/
def heapBuildLoop [Inhabited α] (less : α → α → Bool) (first hi : Nat) :
    Nat → List α → List α
  | 0, l => l
  | i + 1, l => heapBuildLoop less first hi i (siftDownGo less first hi hi l i)

/-- Pop phase of `heapSort_func`: `for i := hi - 1; i >= 0; i--
{ data.Swap(first, first+i); siftDown(data, lo, i, first) }`,
counter = `i + 1`. -/
def heapPopLoop [Inhabited α] (less : α → α → Bool) (first : Nat) :
    Nat → List α → List α
  | 0, l => l
  | i + 1, l =>
    heapPopLoop less first i (siftDownGo less first i i (lswap l first (first + i)) 0)

/-- `heapSort_func(data, a, b)`. -/
def heapSortGo [Inhabited α] (less : α → α → Bool) (l : List α) (a b : Nat) :
    List α :=
  let first := a
  let hi := b - a
  heapPopLoop less first hi (heapBuildLoop less first hi ((hi - 1) / 2 + 1) l)

/-- `breakPatterns_func(data, a, b)`: swaps three pseudo-random
elements around the middle (xorshift seeded with the length), only for
lengths ≥ 8. -/
def breakPatternsGo [Inhabited α] (l : List α) (a b : Nat) : List α :=
  let length := b - a
  if 8 ≤ length then
    let modulus := nextPowerOfTwo length
    let idx := a + length / 4 * 2 - 1
    let step := fun (st : Nat × List α) (i : Nat) =>
      let r := xorshiftNext st.1
      let other := r &&& (modulus - 1)
      let other := if length ≤ other then other - length else other
      (r, lswap st.2 (idx - 1 + i) (a + other))
    let st := step (step (step (length, l) 0) 1) 2
    st.2
  else l

/-- `order2_func(data, a, b, &swaps)`. -/
def order2Go [Inhabited α] (less : α → α → Bool) (l : List α) (a b swaps : Nat) :
    Nat × Nat × Nat :=
  if lless less l b a then (b, a, swaps + 1) else (a, b, swaps)

/-- `median_func(data, a, b, c, &swaps)`: the median index of three. -/
def medianGo [Inhabited α] (less : α → α → Bool) (l : List α) (a b c swaps : Nat) :
    Nat × Nat :=
  let (a, b, swaps) := order2Go less l a b swaps
  let (b, _, swaps) := order2Go less l b c swaps
  let (_, b, swaps) := order2Go less l a b swaps
  (b, swaps)

/-- `medianAdjacent_func(data, i, &swaps)`: median of `i-1, i, i+1`. -/
def medianAdjacentGo [Inhabited α] (less : α → α → Bool) (l : List α)
    (i swaps : Nat) : Nat × Nat :=
  medianGo less l (i - 1) i (i + 1) swaps

/-- The `sortedHint` of Go's sort package. -/
inductive SortedHint where
  | increasing
  | decreasing
  | unknown
  deriving DecidableEq

/-- The `switch swaps` at the end of `choosePivot_func`
(`maxSwaps = 4 * 3`). -/
def hintFromSwaps (swaps : Nat) : SortedHint :=
  if swaps = 0 then .increasing
  else if swaps = 12 then .decreasing
  else .unknown

/-- `choosePivot_func(data, a, b)`: candidates at the quartiles,
Tukey ninther for lengths ≥ 50, median of three for lengths ≥ 8. -/
def choosePivotGo [Inhabited α] (less : α → α → Bool) (l : List α) (a b : Nat) :
    Nat × SortedHint :=
  let length := b - a
  let i := a + length / 4 * 1
  let j := a + length / 4 * 2
  let k := a + length / 4 * 3
  if 8 ≤ length then
    if 50 ≤ length then
      let (i, swaps) := medianAdjacentGo less l i 0
      let (j, swaps) := medianAdjacentGo less l j swaps
      let (k, swaps) := medianAdjacentGo less l k swaps
      let (j, swaps) := medianGo less l i j k swaps
      (j, hintFromSwaps swaps)
    else
      let (j, swaps) := medianGo less l i j k 0
      (j, hintFromSwaps swaps)
  else (j, .increasing)

/-- `reverseRange_func(data, a, b)`, counter = `b - a`. -/
def reverseLoop [Inhabited α] : Nat → List α → Nat → Nat → List α
  | 0, l, _, _ => l
  | fuel + 1, l, i, j =>
    if i < j then reverseLoop fuel (lswap l i j) (i + 1) (j - 1) else l

/-- `reverseRange_func(data, a, b)`. -/
def reverseRangeGo [Inhabited α] (l : List α) (a b : Nat) : List α :=
  reverseLoop (b - a) l a (b - 1)

/-- Scan loop of `partialInsertionSort_func`:
`for i < b && !data.Less(i, i-1) { i++ }`. -/
def pisAdvance [Inhabited α] (less : α → α → Bool) (l : List α) (b : Nat) :
    Nat → Nat → Nat
  | 0, i => i
  | fuel + 1, i =>
    if i < b ∧ ¬ lless less l i (i - 1) then pisAdvance less l b fuel (i + 1) else i

/-- Left shift of `partialInsertionSort_func`:
`for j := i-1; j >= 1; j--: if !Less(j, j-1) break; Swap(j, j-1)`. -/
def pisShiftLeft [Inhabited α] (less : α → α → Bool) : Nat → List α → Nat → List α
  | 0, l, _ => l
  | fuel + 1, l, j =>
    if 1 ≤ j ∧ lless less l j (j - 1) then
      pisShiftLeft less fuel (lswap l j (j - 1)) (j - 1)
    else l

/-- Right shift of `partialInsertionSort_func`:
`for j := i+1; j < b; j++: if !Less(j, j-1) break; Swap(j, j-1)`. -/
def pisShiftRight [Inhabited α] (less : α → α → Bool) (b : Nat) :
    Nat → List α → Nat → List α
  | 0, l, _ => l
  | fuel + 1, l, j =>
    if j < b ∧ lless less l j (j - 1) then
      pisShiftRight less b fuel (lswap l j (j - 1)) (j + 1)
    else l

/-- Outer loop of `partialInsertionSort_func` (`maxSteps = 5`,
`shortestShifting = 50`); returns `(sorted, data)`. -/
def pisOuter [Inhabited α] (less : α → α → Bool) (a b : Nat) :
    Nat → List α → Nat → Bool × List α
  | 0, l, _ => (false, l)
  | steps + 1, l, i =>
    let i := pisAdvance less l b (b + 1) i
    if i = b then (true, l)
    else if b - a < 50 then (false, l)
    else
      let l := lswap l i (i - 1)
      let l := if 2 ≤ i - a then pisShiftLeft less i l (i - 1) else l
      let l := if 2 ≤ b - i then pisShiftRight less b b l (i + 1) else l
      pisOuter less a b steps l i

/-- `partialInsertionSort_func(data, a, b)`. -/
def partialInsertionSortGo [Inhabited α] (less : α → α → Bool) (l : List α)
    (a b : Nat) : Bool × List α :=
  pisOuter less a b 5 l (a + 1)

/-- `for i <= j && data.Less(i, a) { i++ }` of `partition_func`. -/
def partSkipI [Inhabited α] (less : α → α → Bool) (l : List α) (a : Nat) :
    Nat → Nat → Nat → Nat
  | 0, i, _ => i
  | fuel + 1, i, j =>
    if i ≤ j ∧ lless less l i a then partSkipI less l a fuel (i + 1) j else i

/-- `for i <= j && !data.Less(j, a) { j-- }` of `partition_func`. -/
def partSkipJ [Inhabited α] (less : α → α → Bool) (l : List α) (a : Nat) :
    Nat → Nat → Nat → Nat
  | 0, _, j => j
  | fuel + 1, i, j =>
    if i ≤ j ∧ ¬ lless less l j a then partSkipJ less l a fuel i (j - 1) else j

/-- Main exchange loop of `partition_func`. -/
def partLoop [Inhabited α] (less : α → α → Bool) (a : Nat) :
    Nat → List α → Nat → Nat → List α × Nat
  | 0, l, _, j => (l, j)
  | fuel + 1, l, i, j =>
    let i := partSkipI less l a (j + 2) i j
    let j := partSkipJ less l a (j + 2) i j
    if j < i then (l, j)
    else partLoop less a fuel (lswap l i j) (i + 1) (j - 1)

/-- `partition_func(data, a, b, pivot)`: Hoare partition around the
pivot moved to position `a`; returns
`(data, newpivot, alreadyPartitioned)`. -/
def partitionGo [Inhabited α] (less : α → α → Bool) (l : List α) (a b pivot : Nat) :
    List α × Nat × Bool :=
  let l := lswap l a pivot
  let i := a + 1
  let j := b - 1
  let i := partSkipI less l a (j + 2) i j
  let j := partSkipJ less l a (j + 2) i j
  if j < i then (lswap l j a, j, true)
  else
    let l := lswap l i j
    let (l, j) := partLoop less a (b + 2) l (i + 1) (j - 1)
    (lswap l j a, j, false)

/-- `for i <= j && !data.Less(a, i) { i++ }` of `partitionEqual_func`. -/
def peSkipI [Inhabited α] (less : α → α → Bool) (l : List α) (a : Nat) :
    Nat → Nat → Nat → Nat
  | 0, i, _ => i
  | fuel + 1, i, j =>
    if i ≤ j ∧ ¬ lless less l a i then peSkipI less l a fuel (i + 1) j else i

/-- `for i <= j && data.Less(a, j) { j-- }` of `partitionEqual_func`. -/
def peSkipJ [Inhabited α] (less : α → α → Bool) (l : List α) (a : Nat) :
    Nat → Nat → Nat → Nat
  | 0, _, j => j
  | fuel + 1, i, j =>
    if i ≤ j ∧ lless less l a j then peSkipJ less l a fuel i (j - 1) else j

/-- Exchange loop of `partitionEqual_func`; returns `(data, i)`. -/
def peLoop [Inhabited α] (less : α → α → Bool) (a : Nat) :
    Nat → List α → Nat → Nat → List α × Nat
  | 0, l, i, _ => (l, i)
  | fuel + 1, l, i, j =>
    let i := peSkipI less l a (j + 2) i j
    let j := peSkipJ less l a (j + 2) i j
    if j < i then (l, i)
    else peLoop less a fuel (lswap l i j) (i + 1) (j - 1)

/-- `partitionEqual_func(data, a, b, pivot)`: moves elements equal to
the pivot to the front; returns `(data, newpivot)`. -/
def partitionEqualGo [Inhabited α] (less : α → α → Bool) (l : List α)
    (a b pivot : Nat) : List α × Nat :=
  let l := lswap l a pivot
  peLoop less a (b + 2) l (a + 1) (b - 1)

/-- `pdqsort_func(data, a, b, limit)` (`maxInsertion = 12`).  The Go
outer `for` loop and the recursive call both consume one unit of the
counter; along any execution path the range length strictly decreases,
so the initial counter `2*length + 64` is never exhausted.  The fresh
recursive call on the shorter side resets `wasBalanced` and
`wasPartitioned` to `true` (they are locals initialised at the top of
`pdqsort_func`); the loop continuation on the longer side keeps the
updated values. -/
def pdqsortLoop [Inhabited α] (less : α → α → Bool) :
    Nat → List α → Nat → Nat → Nat → Bool → Bool → List α
  | 0, l, _, _, _, _, _ => l
  | fuel + 1, l, a, b, limit, wasBalanced, wasPartitioned =>
    let length := b - a
    if length ≤ 12 then insertionSortGo less l a b
    else if limit = 0 then heapSortGo less l a b
    else
      let (l, limit) :=
        if wasBalanced = false then (breakPatternsGo l a b, limit - 1)
        else (l, limit)
      let (pivot, hint) := choosePivotGo less l a b
      let (l, pivot, hint) :=
        if hint = SortedHint.decreasing then
          (reverseRangeGo l a b, b - 1 - (pivot - a), SortedHint.increasing)
        else (l, pivot, hint)
      let (wasSorted, l) :=
        if wasBalanced ∧ wasPartitioned ∧ hint = SortedHint.increasing then
          partialInsertionSortGo less l a b
        else (false, l)
      if wasSorted then l
      else if 0 < a ∧ ¬ lless less l (a - 1) pivot then
        let (l, mid) := partitionEqualGo less l a b pivot
        pdqsortLoop less fuel l mid b limit wasBalanced wasPartitioned
      else
        let (l, mid, alreadyPartitioned) := partitionGo less l a b pivot
        let leftLen := mid - a
        let rightLen := b - mid
        let balanceThreshold := length / 8
        let newBalanced := decide (min leftLen rightLen ≥ balanceThreshold)
        if leftLen < rightLen then
          let l := pdqsortLoop less fuel l a mid limit true true
          pdqsortLoop less fuel l (mid + 1) b limit newBalanced alreadyPartitioned
        else
          let l := pdqsortLoop less fuel l (mid + 1) b limit true true
          pdqsortLoop less fuel l a mid limit newBalanced alreadyPartitioned

/-- `sort.Slice(x, less)`: `limit := bits.Len(uint(length));
pdqsort_func(lessSwap, 0, length, limit)`. -/
def goSortSlice [Inhabited α] (less : α → α → Bool) (l : List α) : List α :=
  pdqsortLoop less (2 * l.length + 64) l 0 l.length (bitsLen l.length) true true

instance : Inhabited BackupRecord := ⟨dummyRecord⟩

/-- The comparison closure of `updateMetadata`'s `sort.Slice` call:
newest first. -/
def recAfter (x y : BackupRecord) : Bool := x.Timestamp.after y.Timestamp

/-- Embedding of `updateMetadata` (cmd/backup.go): load the prior
ledger content (empty when the file is absent — read and parse assumed
to succeed when present), set the project name, append the new record,
re-sort newest-first with `sort.Slice`, and write the file back
(the final `os.WriteFile` is assumed to succeed; the function returns
the written ledger). -/
def updateMetadata (prior : BackupMetadata) (projectName archiveFilename : String)
    (timestamp : GoTime) (files : List String) : BackupMetadata :=
  let backups := prior.Backups ++ [⟨archiveFilename, timestamp, files⟩]
  ⟨projectName, goSortSlice recAfter backups⟩

/-! ## C4: order and stability of the ledger re-sort -/

/-- A reachable prior ledger (sorted newest-first) with twelve
records: six at second 2, six at second 1. -/
def tiePrior : BackupMetadata :=
  ⟨"p", [⟨"a0", ⟨2025, 1, 1, 0, 0, 2, 0⟩, []⟩, ⟨"a1", ⟨2025, 1, 1, 0, 0, 2, 0⟩, []⟩,
         ⟨"a2", ⟨2025, 1, 1, 0, 0, 2, 0⟩, []⟩, ⟨"a3", ⟨2025, 1, 1, 0, 0, 2, 0⟩, []⟩,
         ⟨"a4", ⟨2025, 1, 1, 0, 0, 2, 0⟩, []⟩, ⟨"a5", ⟨2025, 1, 1, 0, 0, 2, 0⟩, []⟩,
         ⟨"o0", ⟨2025, 1, 1, 0, 0, 1, 0⟩, []⟩, ⟨"o1", ⟨2025, 1, 1, 0, 0, 1, 0⟩, []⟩,
         ⟨"o2", ⟨2025, 1, 1, 0, 0, 1, 0⟩, []⟩, ⟨"o3", ⟨2025, 1, 1, 0, 0, 1, 0⟩, []⟩,
         ⟨"o4", ⟨2025, 1, 1, 0, 0, 1, 0⟩, []⟩, ⟨"o5", ⟨2025, 1, 1, 0, 0, 1, 0⟩, []⟩]⟩

/-- C4 counterexample: appending a thirteenth record (timestamp equal
to the six newest) with `updateMetadata` re-sorts with `sort.Slice`,
which is NOT stable: in the result the prior records `a0` and `a1` —
identical timestamps, `a0` before `a1` in the prior ledger — appear in
the opposite relative order (the full result is
`[new, a1, a2, a3, a4, a5, a0, o0, o2, o3, o4, o5, o1]`), refuting the
claim that records with identical timestamps keep their prior
relative order. -/
theorem updateMetadata_not_stable :
    ((updateMetadata tiePrior "p" "new" ⟨2025, 1, 1, 0, 0, 2, 0⟩ []).Backups.map
        (fun r => r.Filename) =
      ["new", "a1", "a2", "a3", "a4", "a5", "a0",
       "o0", "o2", "o3", "o4", "o5", "o1"]) ∧
    tiePrior.Backups.indexOf ⟨"a0", ⟨2025, 1, 1, 0, 0, 2, 0⟩, []⟩ <
      tiePrior.Backups.indexOf ⟨"a1", ⟨2025, 1, 1, 0, 0, 2, 0⟩, []⟩ ∧
    (updateMetadata tiePrior "p" "new" ⟨2025, 1, 1, 0, 0, 2, 0⟩ []).Backups.indexOf
        ⟨"a1", ⟨2025, 1, 1, 0, 0, 2, 0⟩, []⟩ <
      (updateMetadata tiePrior "p" "new" ⟨2025, 1, 1, 0, 0, 2, 0⟩ []).Backups.indexOf
        ⟨"a0", ⟨2025, 1, 1, 0, 0, 2, 0⟩, []⟩ ∧
    (⟨"a0", ⟨2025, 1, 1, 0, 0, 2, 0⟩, []⟩ : BackupRecord) ∈
      (updateMetadata tiePrior "p" "new" ⟨2025, 1, 1, 0, 0, 2, 0⟩ []).Backups ∧
    (⟨"a1", ⟨2025, 1, 1, 0, 0, 2, 0⟩, []⟩ : BackupRecord) ∈
      (updateMetadata tiePrior "p" "new" ⟨2025, 1, 1, 0, 0, 2, 0⟩ []).Backups := by
  refine ⟨by rfl, by decide, by decide, by decide, by decide⟩

/-! ## Permutation facts about the sort

Every mutation `sort.Slice` performs is a swap, so its result is a
permutation of its input.  These lemmas chain that fact through each
loop of the embedding. -/

theorem getD_cons_set_perm [Inhabited α] :
    ∀ (t : List α) (k : Nat) (x : α), k < t.length →
      List.Perm (t.getD k default :: t.set k x) (x :: t)
  | y :: t, 0, x, _ => by simpa using List.Perm.swap x y t
  | y :: t, k + 1, x, h => by
    have ih := getD_cons_set_perm t k x (by simpa using h)
    exact ((List.Perm.swap _ _ _).symm.trans ((ih.cons y).trans
      (List.Perm.swap _ _ _)))

theorem set_set_swap_perm [Inhabited α] :
    ∀ (l : List α) (i j : Nat), i < l.length → j < l.length →
      List.Perm ((l.set i (l.getD j default)).set j (l.getD i default)) l
  | x :: t, 0, 0, _, _ => by simp
  | x :: t, 0, k + 1, _, hj => by
    simpa using getD_cons_set_perm t k x (by simpa using hj)
  | x :: t, m + 1, 0, hi, _ => by
    simpa using getD_cons_set_perm t m x (by simpa using hi)
  | x :: t, m + 1, k + 1, hi, hj => by
    simpa using (set_set_swap_perm t m k (by simpa using hi) (by simpa using hj)).cons x

theorem lswap_perm [Inhabited α] (l : List α) (i j : Nat) : List.Perm (lswap l i j) l := by
  unfold lswap
  split
  · next h => exact set_set_swap_perm l i j h.1 h.2
  · exact List.Perm.refl l

theorem insertionSortInner_perm [Inhabited α] (less : α → α → Bool) (a : Nat) :
    ∀ (l : List α) (j : Nat), List.Perm (insertionSortInner less a l j) l := by
  intro l j
  induction j generalizing l with
  | zero => exact List.Perm.refl l
  | succ j ih =>
    rw [insertionSortInner]
    split
    · exact (ih _).trans (lswap_perm l (j + 1) j)
    · exact List.Perm.refl l

theorem insertionSortOuter_perm [Inhabited α] (less : α → α → Bool) (a b : Nat) :
    ∀ (cnt : Nat) (l : List α) (i : Nat), List.Perm (insertionSortOuter less a b cnt l i) l := by
  intro cnt
  induction cnt with
  | zero => intro l i; exact List.Perm.refl l
  | succ cnt ih =>
    intro l i
    rw [insertionSortOuter]
    split
    · exact (ih _ _).trans (insertionSortInner_perm less a l i)
    · exact List.Perm.refl l

theorem insertionSortGo_perm [Inhabited α] (less : α → α → Bool) (l : List α)
    (a b : Nat) : List.Perm (insertionSortGo less l a b) l :=
  insertionSortOuter_perm less a b (b - a) l (a + 1)

theorem siftDownGo_perm [Inhabited α] (less : α → α → Bool) (first hi : Nat) :
    ∀ (fuel : Nat) (l : List α) (root : Nat), List.Perm (siftDownGo less first hi fuel l root) l := by
  intro fuel
  induction fuel with
  | zero => intro l root; exact List.Perm.refl l
  | succ fuel ih =>
    intro l root
    rw [siftDownGo]
    dsimp only
    split
    · exact List.Perm.refl l
    · split <;> split <;>
        first
          | exact List.Perm.refl l
          | exact (ih _ _).trans (lswap_perm l _ _)

theorem heapBuildLoop_perm [Inhabited α] (less : α → α → Bool) (first hi : Nat) :
    ∀ (cnt : Nat) (l : List α), List.Perm (heapBuildLoop less first hi cnt l) l := by
  intro cnt
  induction cnt with
  | zero => intro l; exact List.Perm.refl l
  | succ i ih =>
    intro l
    exact (ih _).trans (siftDownGo_perm less first hi hi l i)

theorem heapPopLoop_perm [Inhabited α] (less : α → α → Bool) (first : Nat) :
    ∀ (cnt : Nat) (l : List α), List.Perm (heapPopLoop less first cnt l) l := by
  intro cnt
  induction cnt with
  | zero => intro l; exact List.Perm.refl l
  | succ i ih =>
    intro l
    exact (ih _).trans ((siftDownGo_perm less first i i _ 0).trans
      (lswap_perm l first (first + i)))

theorem heapSortGo_perm [Inhabited α] (less : α → α → Bool) (l : List α) (a b : Nat) :
    List.Perm (heapSortGo less l a b) l :=
  (heapPopLoop_perm less a (b - a) _).trans
    (heapBuildLoop_perm less a (b - a) ((b - a - 1) / 2 + 1) l)

theorem breakPatternsGo_perm [Inhabited α] (l : List α) (a b : Nat) :
    List.Perm (breakPatternsGo l a b) l := by
  rw [breakPatternsGo]
  split
  · exact ((lswap_perm _ _ _).trans ((lswap_perm _ _ _).trans (lswap_perm _ _ _)))
  · exact List.Perm.refl l

theorem reverseLoop_perm [Inhabited α] :
    ∀ (fuel : Nat) (l : List α) (i j : Nat), List.Perm (reverseLoop fuel l i j) l := by
  intro fuel
  induction fuel with
  | zero => intro l i j; exact List.Perm.refl l
  | succ fuel ih =>
    intro l i j
    rw [reverseLoop]
    split
    · exact (ih _ _ _).trans (lswap_perm l i j)
    · exact List.Perm.refl l

theorem reverseRangeGo_perm [Inhabited α] (l : List α) (a b : Nat) :
    List.Perm (reverseRangeGo l a b) l :=
  reverseLoop_perm (b - a) l a (b - 1)

theorem pisShiftLeft_perm [Inhabited α] (less : α → α → Bool) :
    ∀ (fuel : Nat) (l : List α) (j : Nat), List.Perm (pisShiftLeft less fuel l j) l := by
  intro fuel
  induction fuel with
  | zero => intro l j; exact List.Perm.refl l
  | succ fuel ih =>
    intro l j
    rw [pisShiftLeft]
    split
    · exact (ih _ _).trans (lswap_perm l j (j - 1))
    · exact List.Perm.refl l

theorem pisShiftRight_perm [Inhabited α] (less : α → α → Bool) (b : Nat) :
    ∀ (fuel : Nat) (l : List α) (j : Nat), List.Perm (pisShiftRight less b fuel l j) l := by
  intro fuel
  induction fuel with
  | zero => intro l j; exact List.Perm.refl l
  | succ fuel ih =>
    intro l j
    rw [pisShiftRight]
    split
    · exact (ih _ _).trans (lswap_perm l j (j - 1))
    · exact List.Perm.refl l

theorem pisOuter_perm [Inhabited α] (less : α → α → Bool) (a b : Nat) :
    ∀ (steps : Nat) (l : List α) (i : Nat), List.Perm (pisOuter less a b steps l i).2 l := by
  intro steps
  induction steps with
  | zero => intro l i; exact List.Perm.refl l
  | succ steps ih =>
    intro l i
    rw [pisOuter]
    dsimp only
    split
    · exact List.Perm.refl l
    · split
      · exact List.Perm.refl l
      · refine (ih _ _).trans ?_
        split <;> split <;>
          first
            | exact (pisShiftRight_perm less b b _ _).trans
                ((pisShiftLeft_perm less _ _ _).trans (lswap_perm l _ _))
            | exact (pisShiftLeft_perm less _ _ _).trans (lswap_perm l _ _)
            | exact (pisShiftRight_perm less b b _ _).trans (lswap_perm l _ _)
            | exact lswap_perm l _ _

theorem partialInsertionSortGo_perm [Inhabited α] (less : α → α → Bool)
    (l : List α) (a b : Nat) : List.Perm (partialInsertionSortGo less l a b).2 l :=
  pisOuter_perm less a b 5 l (a + 1)

theorem partLoop_perm [Inhabited α] (less : α → α → Bool) (a : Nat) :
    ∀ (fuel : Nat) (l : List α) (i j : Nat), List.Perm (partLoop less a fuel l i j).1 l := by
  intro fuel
  induction fuel with
  | zero => intro l i j; exact List.Perm.refl l
  | succ fuel ih =>
    intro l i j
    rw [partLoop]
    split
    · exact List.Perm.refl l
    · exact (ih _ _ _).trans (lswap_perm l _ _)

theorem partitionGo_perm [Inhabited α] (less : α → α → Bool) (l : List α)
    (a b pivot : Nat) : List.Perm (partitionGo less l a b pivot).1 l := by
  rw [partitionGo]
  split
  · exact (lswap_perm _ _ _).trans (lswap_perm l a pivot)
  · exact (lswap_perm _ _ _).trans ((partLoop_perm less a _ _ _ _).trans
      ((lswap_perm _ _ _).trans (lswap_perm l a pivot)))

theorem peLoop_perm [Inhabited α] (less : α → α → Bool) (a : Nat) :
    ∀ (fuel : Nat) (l : List α) (i j : Nat), List.Perm (peLoop less a fuel l i j).1 l := by
  intro fuel
  induction fuel with
  | zero => intro l i j; exact List.Perm.refl l
  | succ fuel ih =>
    intro l i j
    rw [peLoop]
    split
    · exact List.Perm.refl l
    · exact (ih _ _ _).trans (lswap_perm l _ _)

theorem partitionEqualGo_perm [Inhabited α] (less : α → α → Bool) (l : List α)
    (a b pivot : Nat) : List.Perm (partitionEqualGo less l a b pivot).1 l :=
  (peLoop_perm less a _ _ _ _).trans (lswap_perm l a pivot)

/-- One-step unfolding of `pdqsortLoop` on a positive counter (stated
explicitly because automatic equation generation for the large body is
prohibitively slow). -/
theorem pdqsortLoop_succ [Inhabited α] (less : α → α → Bool) (fuel : Nat)
    (l : List α) (a b limit : Nat) (wasBalanced wasPartitioned : Bool) :
    pdqsortLoop less (fuel + 1) l a b limit wasBalanced wasPartitioned =
      (if b - a ≤ 12 then insertionSortGo less l a b
      else if limit = 0 then heapSortGo less l a b
      else
        let (l, limit) :=
          if wasBalanced = false then (breakPatternsGo l a b, limit - 1)
          else (l, limit)
        let (pivot, hint) := choosePivotGo less l a b
        let (l, pivot, hint) :=
          if hint = SortedHint.decreasing then
            (reverseRangeGo l a b, b - 1 - (pivot - a), SortedHint.increasing)
          else (l, pivot, hint)
        let (wasSorted, l) :=
          if wasBalanced ∧ wasPartitioned ∧ hint = SortedHint.increasing then
            partialInsertionSortGo less l a b
          else (false, l)
        if wasSorted then l
        else if 0 < a ∧ ¬ lless less l (a - 1) pivot then
          let (l, mid) := partitionEqualGo less l a b pivot
          pdqsortLoop less fuel l mid b limit wasBalanced wasPartitioned
        else
          let (l, mid, alreadyPartitioned) := partitionGo less l a b pivot
          let leftLen := mid - a
          let rightLen := b - mid
          let balanceThreshold := (b - a) / 8
          let newBalanced := decide (min leftLen rightLen ≥ balanceThreshold)
          if leftLen < rightLen then
            let l := pdqsortLoop less fuel l a mid limit true true
            pdqsortLoop less fuel l (mid + 1) b limit newBalanced alreadyPartitioned
          else
            let l := pdqsortLoop less fuel l (mid + 1) b limit true true
            pdqsortLoop less fuel l a mid limit newBalanced alreadyPartitioned) := rfl

theorem pdqsortLoop_perm [Inhabited α] (less : α → α → Bool) :
    ∀ (fuel : Nat) (l : List α) (a b limit : Nat) (wb wp : Bool),
      List.Perm (pdqsortLoop less fuel l a b limit wb wp) l := by
  intro fuel
  induction fuel with
  | zero => intro l a b limit wb wp; exact List.Perm.refl l
  | succ fuel ih =>
    intro l a b limit wb wp
    rw [pdqsortLoop_succ]
    split
    · exact insertionSortGo_perm less l a b
    · split
      · exact heapSortGo_perm less l a b
      · rcases hp : (if wb = false then (breakPatternsGo l a b, limit - 1)
          else (l, limit)) with ⟨l1, limit1⟩
        have hl1 : List.Perm l1 l := by
          split at hp
          · cases hp; exact breakPatternsGo_perm l a b
          · cases hp; exact List.Perm.refl l
        dsimp only
        rcases hcp : choosePivotGo less l1 a b with ⟨pivot1, hint1⟩
        dsimp only
        rcases hq : (if hint1 = SortedHint.decreasing then
            (reverseRangeGo l1 a b, b - 1 - (pivot1 - a), SortedHint.increasing)
          else (l1, pivot1, hint1)) with ⟨l2, pivot2, hint2⟩
        have hl2 : List.Perm l2 l1 := by
          split at hq
          · cases hq; exact reverseRangeGo_perm l1 a b
          · cases hq; exact List.Perm.refl l1
        dsimp only
        rcases hr : (if wb ∧ wp ∧ hint2 = SortedHint.increasing then
            partialInsertionSortGo less l2 a b
          else (false, l2)) with ⟨sorted2, l3⟩
        have hl3 : List.Perm l3 l2 := by
          split at hr
          · have := partialInsertionSortGo_perm less l2 a b
            rw [hr] at this
            exact this
          · cases hr; exact List.Perm.refl l2
        dsimp only
        split
        · exact hl3.trans (hl2.trans hl1)
        · split
          · rcases hpe : partitionEqualGo less l3 a b pivot2 with ⟨l4, mid⟩
            have hl4 : List.Perm l4 l3 := by
              have := partitionEqualGo_perm less l3 a b pivot2
              rw [hpe] at this
              exact this
            dsimp only
            exact (ih _ _ _ _ _ _).trans (hl4.trans (hl3.trans (hl2.trans hl1)))
          · rcases hpt : partitionGo less l3 a b pivot2 with ⟨l4, mid, ap⟩
            have hl4 : List.Perm l4 l3 := by
              have := partitionGo_perm less l3 a b pivot2
              rw [hpt] at this
              exact this
            have hrest : List.Perm l4 l := hl4.trans (hl3.trans (hl2.trans hl1))
            dsimp only
            split
            · exact (ih _ _ _ _ _ _).trans ((ih _ _ _ _ _ _).trans hrest)
            · exact (ih _ _ _ _ _ _).trans ((ih _ _ _ _ _ _).trans hrest)

theorem goSortSlice_perm [Inhabited α] (less : α → α → Bool) (l : List α) :
    List.Perm (goSortSlice less l) l :=
  pdqsortLoop_perm less _ l 0 l.length (bitsLen l.length) true true

/-- `updateMetadata` neither loses nor duplicates records: the new
ledger is a permutation of the prior records plus the appended one. -/
theorem updateMetadata_perm (prior : BackupMetadata) (projectName archiveFilename : String)
    (timestamp : GoTime) (files : List String) :
    List.Perm (updateMetadata prior projectName archiveFilename timestamp files).Backups
      (prior.Backups ++ [⟨archiveFilename, timestamp, files⟩]) :=
  goSortSlice_perm recAfter _

/-! ## The `backup` command tail (`runBackup`, `pruneOldBackups`,
cmd/backup.go)

We model `runBackup` from the point where the project has been
resolved (flag/config checks are plain propagation): create the backup
directory, pack the configured paths into
`backup_<timestamp>.tar.gz`, update `backups.yaml`, and if the project
configures `backup_retention > 0` prune old backups, where a pruning
error is only printed as a warning. -/

/-- Embedding of `pruneOldBackups` (cmd/backup.go): re-reads
`backups.yaml` (whose parsed content is `metadataOnDisk`), and if the
record count exceeds `retention`, removes the archive of every record
beyond index `retention` (tolerating `os.IsNotExist`, aborting on any
other error with the ledger unwritten) and persists the truncated
ledger.  Returns (ledger content on disk afterwards, removed archives,
error). -/
def pruneOldBackups (metadataOnDisk : BackupMetadata)
    (removeOutcome : String → RemoveOutcome) (retention : Int) :
    BackupMetadata × List String × Option String :=
  if retention < (metadataOnDisk.Backups.length : Int) then
    if retention < 0 then (metadataOnDisk, [], some "slice bounds out of range")
    else
      match removeArchives removeOutcome
          (metadataOnDisk.Backups.drop retention.toNat) [] with
      | Sum.inr (removedSoFar, filename) =>
        (metadataOnDisk, removedSoFar, some ("remove " ++ filename))
      | Sum.inl removed =>
        ({ metadataOnDisk with Backups := metadataOnDisk.Backups.take retention.toNat },
         removed, none)
  else (metadataOnDisk, [], none)

/-- Environment of one `runBackup` invocation (after project
resolution): the prior `backups.yaml` content (empty metadata when the
file does not exist), whether the archive pack succeeds, the top-level
paths it captures, and the `os.Remove` oracle used by the retention
pruning. -/
structure BackupEnv where
  priorLedger : BackupMetadata
  packOk : Bool
  packedFiles : List String
  removeOutcome : String → RemoveOutcome

/-- Observable result of `runBackup`: the returned error (`none` =
`nil`), whether the archive file was produced, the final
`backups.yaml` content on disk, the archives deleted by the retention
pruning, and whether a pruning warning was printed to stderr. -/
structure BackupReport where
  result : Option String
  archiveCreated : Bool
  ledgerOnDisk : BackupMetadata
  removedArchives : List String
  pruneWarned : Bool
  deriving DecidableEq

/-- Embedding of `runBackup` (cmd/backup.go) after project
resolution: fails with no ledger change when the project has no
`backup_paths` or the pack fails; otherwise appends the record via
`updateMetadata` and, when `backup_retention > 0`, calls
`pruneOldBackups`, whose error is reported as a warning only — the
command still returns `nil`.  Directory creation and the metadata
write are assumed to succeed (plain error propagation otherwise). -/
def runBackup (project : Project) (timestamp : GoTime) (env : BackupEnv) :
    BackupReport :=
  if project.BackupPaths.length = 0 then
    ⟨some "backup.noBackupPaths", false, env.priorLedger, [], false⟩
  else if env.packOk = false then
    ⟨some "backup.archiveError", false, env.priorLedger, [], false⟩
  else
    let afterMeta := updateMetadata env.priorLedger project.Name
      (archiveFilename timestamp) timestamp env.packedFiles
    if 0 < project.BackupRetention then
      match pruneOldBackups afterMeta env.removeOutcome project.BackupRetention with
      | (ledger, removed, some _) => ⟨none, true, ledger, removed, true⟩
      | (ledger, removed, none) => ⟨none, true, ledger, removed, false⟩
    else ⟨none, true, afterMeta, [], false⟩

/-- Every file reported removed by a failing `removeArchives` run is
the archive of some record in the processed list (or was already in
the accumulator). -/
theorem removeArchives_inr_sub (outcome : String → RemoveOutcome) :
    ∀ (l : List BackupRecord) (acc removedSoFar : List String) (fname : String),
      removeArchives outcome l acc = Sum.inr (removedSoFar, fname) →
      ∀ f ∈ removedSoFar, f ∈ acc ∨ ∃ r ∈ l, r.Filename = f := by
  intro l
  induction l with
  | nil => intro acc rs fn h; cases h
  | cons r rest ih =>
    intro acc rs fn h f hf
    rw [removeArchives] at h
    cases hro : outcome r.Filename with
    | removed =>
      rw [hro] at h
      rcases ih _ _ _ h f hf with hacc | ⟨q, hq, hqf⟩
      · rcases List.mem_append.mp hacc with h1 | h1
        · exact Or.inl h1
        · refine Or.inr ⟨r, by simp, ?_⟩
          simp at h1
          exact h1.symm
      · exact Or.inr ⟨q, by simp [hq], hqf⟩
    | notExist =>
      rw [hro] at h
      rcases ih _ _ _ h f hf with hacc | ⟨q, hq, hqf⟩
      · exact Or.inl hacc
      · exact Or.inr ⟨q, by simp [hq], hqf⟩
    | hardError =>
      rw [hro] at h
      cases h
      exact Or.inl hf

/-- C8 (amended): when the pack and the ledger append succeed but the
retention pruning fails, `runBackup` still returns success (`nil`),
only warns, the archive of this invocation is on disk, its record is
still present in the on-disk ledger, and — provided the new record
sorted to the head of the ledger (the case whenever its timestamp is
strictly newest) and its filename does not collide with a prior
record's — its archive file is not among the files the failing prune
removed.  The filename proviso is necessary: archive names have only
second resolution, so a same-second prior record shares the name and
the failing prune can delete the just-created archive (see the
counterexample below). -/
theorem runBackup_prune_warning (project : Project) (timestamp : GoTime)
    (env : BackupEnv)
    (hpaths : project.BackupPaths.length ≠ 0)
    (hpack : env.packOk = true)
    (hret : 0 < project.BackupRetention)
    (herr : (pruneOldBackups
        (updateMetadata env.priorLedger project.Name (archiveFilename timestamp)
          timestamp env.packedFiles)
        env.removeOutcome project.BackupRetention).2.2 ≠ none) :
    (runBackup project timestamp env).result = none ∧
    (runBackup project timestamp env).archiveCreated = true ∧
    (runBackup project timestamp env).pruneWarned = true ∧
    ((⟨archiveFilename timestamp, timestamp, env.packedFiles⟩ : BackupRecord) ∈
      (runBackup project timestamp env).ledgerOnDisk.Backups) ∧
    ((updateMetadata env.priorLedger project.Name (archiveFilename timestamp)
        timestamp env.packedFiles).Backups.head? =
      some ⟨archiveFilename timestamp, timestamp, env.packedFiles⟩ →
      (∀ r ∈ env.priorLedger.Backups, r.Filename ≠ archiveFilename timestamp) →
      archiveFilename timestamp ∉ (runBackup project timestamp env).removedArchives) := by
  have hne : ¬ project.BackupPaths.length = 0 := hpaths
  have hpack' : ¬ env.packOk = false := by rw [hpack]; simp
  rcases hpo : pruneOldBackups
      (updateMetadata env.priorLedger project.Name (archiveFilename timestamp)
        timestamp env.packedFiles)
      env.removeOutcome project.BackupRetention with ⟨ledger, removed, err⟩
  rcases err with _ | msg
  · rw [hpo] at herr; simp at herr
  · have hrun : runBackup project timestamp env =
        ⟨none, true, ledger, removed, true⟩ := by
      rw [runBackup, if_neg hne, if_neg hpack', if_pos hret, hpo]
    have hmain : ledger = updateMetadata env.priorLedger project.Name
        (archiveFilename timestamp) timestamp env.packedFiles ∧
        ∀ f ∈ removed, ∃ r ∈ (updateMetadata env.priorLedger project.Name
          (archiveFilename timestamp) timestamp env.packedFiles).Backups.drop
            project.BackupRetention.toNat, r.Filename = f := by
      rw [pruneOldBackups] at hpo
      split at hpo
      · split at hpo
        · cases hpo
          exact ⟨rfl, by intro f hf; cases hf⟩
        · rcases hrm : removeArchives env.removeOutcome
              ((updateMetadata env.priorLedger project.Name (archiveFilename timestamp)
                timestamp env.packedFiles).Backups.drop
                project.BackupRetention.toNat) [] with rl | ⟨rs, fn⟩
          · rw [hrm] at hpo; cases hpo
          · rw [hrm] at hpo
            cases hpo
            refine ⟨rfl, ?_⟩
            intro f hf
            rcases removeArchives_inr_sub env.removeOutcome _ _ _ _ hrm f hf with
              hnil | hex
            · cases hnil
            · exact hex
      · cases hpo
    obtain ⟨hledger, hremoved⟩ := hmain
    refine ⟨by rw [hrun], by rw [hrun], by rw [hrun], ?_, ?_⟩
    · rw [hrun]
      have hperm := updateMetadata_perm env.priorLedger project.Name
        (archiveFilename timestamp) timestamp env.packedFiles
      have hmem : (⟨archiveFilename timestamp, timestamp, env.packedFiles⟩ :
          BackupRecord) ∈ (updateMetadata env.priorLedger project.Name
            (archiveFilename timestamp) timestamp env.packedFiles).Backups :=
        hperm.mem_iff.mpr (by simp)
      rw [hledger]
      exact hmem
    · intro hhead hfresh hmem
      rw [hrun] at hmem
      obtain ⟨r, hr, hrf⟩ := hremoved _ hmem
      rcases hcons : (updateMetadata env.priorLedger project.Name
          (archiveFilename timestamp) timestamp env.packedFiles).Backups with
        _ | ⟨hd, tl⟩
      · rw [hcons] at hr; simp at hr
      · have hhd : hd = ⟨archiveFilename timestamp, timestamp, env.packedFiles⟩ := by
          rw [hcons] at hhead; simpa using hhead
        have h1 : 1 ≤ project.BackupRetention.toNat := by omega
        have hrtl : r ∈ tl := by
          rw [hcons] at hr
          rcases Nat.exists_eq_add_of_le h1 with ⟨k, hk⟩
          rw [hk] at hr
          rw [show 1 + k = k + 1 from Nat.add_comm 1 k] at hr
          simp only [List.drop_succ_cons] at hr
          exact List.drop_subset _ _ hr
        have hperm := updateMetadata_perm env.priorLedger project.Name
          (archiveFilename timestamp) timestamp env.packedFiles
        rw [hcons, hhd] at hperm
        have htl : List.Perm tl env.priorLedger.Backups :=
          (hperm.trans (List.perm_append_singleton _ _)).cons_inv
        exact hfresh r (htl.subset hrtl) hrf

/-- Witness fixture for C8: one prior record whose archive removal
fails with a hard error during retention pruning. -/
def c8Env : BackupEnv :=
  ⟨⟨"p", [⟨"old", ⟨2025, 3, 20, 15, 30, 44, 0⟩, [".env"]⟩]⟩, true, [".env"],
   fun f => if f = "old" then .hardError else .removed⟩

/-- Witness for `runBackup_prune_warning`: with retention 1 and a
hard error deleting the old archive, `runBackup` still returns `nil`
and the fresh archive is untouched. -/
theorem runBackup_prune_warning_witness :
    (runBackup ⟨"p", "r", "m", [".env"], 1⟩ ⟨2025, 3, 20, 15, 30, 45, 0⟩ c8Env).result =
      none ∧
    archiveFilename ⟨2025, 3, 20, 15, 30, 45, 0⟩ ∉
      (runBackup ⟨"p", "r", "m", [".env"], 1⟩ ⟨2025, 3, 20, 15, 30, 45, 0⟩
        c8Env).removedArchives :=
  ⟨(runBackup_prune_warning ⟨"p", "r", "m", [".env"], 1⟩ ⟨2025, 3, 20, 15, 30, 45, 0⟩
      c8Env (by decide) rfl (by decide) (by decide)).1,
   (runBackup_prune_warning ⟨"p", "r", "m", [".env"], 1⟩ ⟨2025, 3, 20, 15, 30, 45, 0⟩
      c8Env (by decide) rfl (by decide) (by decide)).2.2.2.2 (by decide) (by decide)⟩

/-- C8 counterexample fixture: the prior ledger holds a record from
the SAME second as the new backup (archive names have only second
resolution, so the two records share the filename
`backup_20250320_153045.tar.gz`) and an older record whose removal
fails with a hard error. -/
def c8CollideEnv : BackupEnv :=
  ⟨⟨"p", [⟨"backup_20250320_153045.tar.gz", ⟨2025, 3, 20, 15, 30, 45, 0⟩, [".env"]⟩,
          ⟨"backup_20250320_153044.tar.gz", ⟨2025, 3, 20, 15, 30, 44, 0⟩, [".env"]⟩]⟩,
   true, [".env"],
   fun f => if f = "backup_20250320_153044.tar.gz" then .hardError else .removed⟩

/-- C8 counterexample: with retention 1 and a prior record from the
same second, `runBackup` succeeds and the prune failure is only
warned — but the prune loop, before hitting its hard error, removed
the file named `backup_20250320_153045.tar.gz`, which IS the archive
this very invocation just created.  The new record survives in the
ledger, yet its archive file does not remain in place, refuting the
unconditional claim. -/
theorem runBackup_collision_removes_new_archive :
    (runBackup ⟨"p", "r", "m", [".env"], 1⟩ ⟨2025, 3, 20, 15, 30, 45, 500⟩
        c8CollideEnv).result = none ∧
    (runBackup ⟨"p", "r", "m", [".env"], 1⟩ ⟨2025, 3, 20, 15, 30, 45, 500⟩
        c8CollideEnv).pruneWarned = true ∧
    ((⟨archiveFilename ⟨2025, 3, 20, 15, 30, 45, 500⟩,
        ⟨2025, 3, 20, 15, 30, 45, 500⟩, [".env"]⟩ : BackupRecord) ∈
      (runBackup ⟨"p", "r", "m", [".env"], 1⟩ ⟨2025, 3, 20, 15, 30, 45, 500⟩
        c8CollideEnv).ledgerOnDisk.Backups) ∧
    archiveFilename ⟨2025, 3, 20, 15, 30, 45, 500⟩ ∈
      (runBackup ⟨"p", "r", "m", [".env"], 1⟩ ⟨2025, 3, 20, 15, 30, 45, 500⟩
        c8CollideEnv).removedArchives := by
  refine ⟨by decide, by decide, by decide, by decide⟩

/-! ## C4 (amended): the insertion-sort regime of `sort.Slice`

For ledgers of at most 12 records `pdqsort` immediately runs its
insertion sort, which IS stable.  We relate the loop embedding to a
list-level insertion sort and prove sortedness and stability there.
First, order facts about the timestamp comparison. -/

theorem natListLt_irrefl : ∀ a : List Nat, natListLt a a = false := by
  intro a
  induction a with
  | nil => rfl
  | cons x rest ih => simp [natListLt, ih]

theorem natListLt_asymm :
    ∀ a b : List Nat, natListLt a b = true → natListLt b a = false := by
  intro a
  induction a with
  | nil =>
    intro b h
    cases b with
    | nil => cases h
    | cons y bs => rfl
  | cons x as ih =>
    intro b h
    cases b with
    | nil => cases h
    | cons y bs =>
      rw [natListLt] at h ⊢
      by_cases hxy : x < y
      · have hyx : ¬ y < x := by omega
        simp [hxy, hyx]
      · by_cases hyx : y < x
        · simp [hxy, hyx] at h
        · simp [hxy, hyx] at h ⊢
          exact ih bs h

theorem natListLt_neg_trans :
    ∀ a b c : List Nat, natListLt a b = false → natListLt b c = false →
      natListLt a c = false := by
  intro a
  induction a with
  | nil =>
    intro b c hab hbc
    cases c with
    | nil => rfl
    | cons z cs =>
      cases b with
      | nil => cases hbc
      | cons y bs => cases hab
  | cons x as ih =>
    intro b c hab hbc
    cases c with
    | nil => rfl
    | cons z cs =>
      cases b with
      | nil => cases hbc
      | cons y bs =>
        rw [natListLt] at hab hbc ⊢
        by_cases hxy : x < y
        · simp [hxy] at hab
        · by_cases hyz : y < z
          · simp [hyz] at hbc
          · by_cases hxz : x < z
            · omega
            · by_cases hzx : z < x
              · simp [hxz, hzx]
              · have hyx : ¬ y < x := by omega
                have hzy : ¬ z < y := by omega
                simp [hxy, hyx] at hab
                simp [hyz, hzy] at hbc
                simp [hxz, hzx]
                exact ih bs cs hab hbc

theorem GoTime.fields_inj {t u : GoTime} (h : t.fields = u.fields) : t = u := by
  cases t; cases u
  simp [GoTime.fields] at h
  obtain ⟨h1, h2, h3, h4, h5, h6, h7⟩ := h
  simp [h1, h2, h3, h4, h5, h6, h7]

theorem recAfter_asymm (a b : BackupRecord) :
    recAfter a b = true → recAfter b a = false := by
  intro h
  exact natListLt_asymm _ _ h

theorem recAfter_neg_trans (a b c : BackupRecord) :
    recAfter a b = false → recAfter b c = false → recAfter a c = false := by
  intro hab hbc
  exact natListLt_neg_trans _ _ _ hbc hab

theorem recAfter_tie_of_eq {a b : BackupRecord}
    (h : a.Timestamp = b.Timestamp) : recAfter a b = false := by
  rw [recAfter, GoTime.after, h]
  exact natListLt_irrefl _

/-! ### A list-level view of Go's insertion sort

`insertionSort_func` inserts element `i` into the sorted prefix by
adjacent swaps, walking left while `Less`.  On lists this is: insert
`x` into the prefix `P`, scanning `P` from its right end, passing over
every element `p` with `less x p`. -/

/-- Insertion into a REVERSED prefix: pass over `p` while `less x p`. -/
def insRev (less : α → α → Bool) (x : α) : List α → List α
  | [] => [x]
  | p :: rest => if less x p then p :: insRev less x rest else x :: p :: rest

/-- Insert `x` into the prefix `P` the way one bubbling pass of Go's
insertion sort does. -/
def insertList (less : α → α → Bool) (x : α) (P : List α) : List α :=
  (insRev less x P.reverse).reverse

/-- Left-to-right insertion sort on lists (the list-level equivalent
of `insertionSort_func` over the whole slice). -/
def isortList (less : α → α → Bool) (l : List α) : List α :=
  l.foldl (fun acc x => insertList less x acc) []

theorem insRev_length (less : α → α → Bool) (x : α) :
    ∀ Q : List α, (insRev less x Q).length = Q.length + 1 := by
  intro Q
  induction Q with
  | nil => rfl
  | cons p rest ih =>
    rw [insRev]
    split
    · simp [ih]
    · simp

theorem insertList_length (less : α → α → Bool) (x : α) (P : List α) :
    (insertList less x P).length = P.length + 1 := by
  simp [insertList, insRev_length]

theorem mem_insRev (less : α → α → Bool) (x : α) :
    ∀ (Q : List α) (y : α), y ∈ insRev less x Q → y = x ∨ y ∈ Q := by
  intro Q
  induction Q with
  | nil => intro y h; rw [insRev] at h; simpa using h
  | cons p rest ih =>
    intro y h
    rw [insRev] at h
    split at h
    · rcases List.mem_cons.mp h with h1 | h1
      · exact Or.inr (by simp [h1])
      · rcases ih y h1 with h2 | h2
        · exact Or.inl h2
        · exact Or.inr (by simp [h2])
    · rcases List.mem_cons.mp h with h1 | h1
      · exact Or.inl h1
      · exact Or.inr h1

theorem getD_append_length : ∀ (A : List α) (y : α) (R : List α) (d : α),
    (A ++ y :: R).getD A.length d = y := by
  intro A
  induction A with
  | nil => intro y R d; rfl
  | cons a as ih => intro y R d; simpa using ih y R d

theorem set_append_length : ∀ (A : List α) (y v : α) (R : List α),
    (A ++ y :: R).set A.length v = A ++ v :: R := by
  intro A
  induction A with
  | nil => intro y v R; rfl
  | cons a as ih =>
    intro y v R
    simp only [List.cons_append, List.length_cons, List.set_cons_succ]
    rw [ih y v R]

theorem lget_append_length [Inhabited α] (A : List α) (y : α) (R : List α) :
    lget (A ++ y :: R) A.length = y :=
  getD_append_length A y R default

theorem lget_append_length_succ [Inhabited α] (A : List α) (y z : α) (R : List α) :
    lget (A ++ y :: z :: R) (A.length + 1) = z := by
  have h := getD_append_length (A ++ [y]) z R default
  rw [List.append_assoc] at h
  simp only [List.singleton_append, List.length_append, List.length_singleton] at h
  exact h

theorem lswap_adjacent [Inhabited α] (A : List α) (p x : α) (S : List α) :
    lswap (A ++ p :: x :: S) (A.length + 1) A.length = A ++ x :: p :: S := by
  rw [lswap]
  have hlen : (A ++ p :: x :: S).length = A.length + (S.length + 2) := by
    simp
  have hb : A.length + 1 < (A ++ p :: x :: S).length ∧
      A.length < (A ++ p :: x :: S).length := by
    rw [hlen]
    omega
  rw [if_pos hb]
  dsimp only
  have hget1 : lget (A ++ p :: x :: S) (A.length + 1) = x :=
    lget_append_length_succ A p x S
  have hget0 : lget (A ++ p :: x :: S) A.length = p :=
    lget_append_length A p (x :: S)
  rw [hget1, hget0]
  have hset1 : (A ++ p :: x :: S).set (A.length + 1) p = A ++ p :: p :: S := by
    have h := set_append_length (A ++ [p]) x p S
    simp only [List.append_assoc, List.singleton_append, List.length_append,
      List.length_singleton] at h
    exact h
  rw [hset1]
  exact set_append_length A p x (p :: S)

/-- One bubbling pass of the Go inner loop equals `insRev` on the
reversed prefix. -/
theorem insertionSortInner_eq_insRev [Inhabited α] (less : α → α → Bool) :
    ∀ (Q : List α) (x : α) (S : List α),
      insertionSortInner less 0 (Q.reverse ++ x :: S) Q.length =
        (insRev less x Q).reverse ++ S := by
  intro Q
  induction Q with
  | nil => intro x S; simp [insertionSortInner, insRev]
  | cons p rest ih =>
    intro x S
    have hshape : (p :: rest).reverse ++ x :: S = rest.reverse ++ p :: x :: S := by
      simp
    have hlen : (p :: rest).length = rest.length + 1 := rfl
    rw [hshape, hlen, insertionSortInner]
    have hl1 : lless less (rest.reverse ++ p :: x :: S) (rest.length + 1) rest.length =
        less x p := by
      rw [lless]
      have h1 : lget (rest.reverse ++ p :: x :: S) (rest.length + 1) = x := by
        have := lget_append_length_succ rest.reverse p x S
        simpa using this
      have h0 : lget (rest.reverse ++ p :: x :: S) rest.length = p := by
        have := lget_append_length rest.reverse p (x :: S)
        simpa using this
      rw [h1, h0]
    rw [hl1]
    by_cases hxp : less x p = true
    · have hcond : 0 < rest.length + 1 ∧ less x p = true := ⟨Nat.succ_pos _, hxp⟩
      rw [if_pos hcond]
      have hswap : lswap (rest.reverse ++ p :: x :: S) (rest.length + 1) rest.length =
          rest.reverse ++ x :: p :: S := by
        have := lswap_adjacent rest.reverse p x S
        simpa using this
      rw [hswap, ih x (p :: S)]
      rw [insRev, if_pos hxp]
      simp
    · have hxp' : less x p = false := by
        cases h : less x p
        · rfl
        · exact absurd h hxp
      have hcond : ¬ (0 < rest.length + 1 ∧ less x p = true) := by
        intro hc
        exact hxp hc.2
      rw [if_neg hcond, insRev, if_neg (by rw [hxp']; simp)]
      simp

/-- The Go outer loop equals a left fold of the insertion pass. -/
theorem insertionSortOuter_eq_foldl [Inhabited α] (less : α → α → Bool) :
    ∀ (todo : List α) (cnt : Nat) (done : List α), todo.length ≤ cnt →
      insertionSortOuter less 0 (done.length + todo.length) cnt (done ++ todo)
          done.length =
        todo.foldl (fun acc x => insertList less x acc) done := by
  intro todo
  induction todo with
  | nil =>
    intro cnt done _
    cases cnt with
    | zero => simp [insertionSortOuter]
    | succ c =>
      rw [insertionSortOuter]
      have hnot : ¬ done.length < done.length + ([] : List α).length := by simp
      rw [if_neg hnot]
      simp
  | cons x rest ih =>
    intro cnt done hcnt
    cases cnt with
    | zero => simp at hcnt
    | succ c =>
      rw [insertionSortOuter]
      have hlt : done.length < done.length + (x :: rest).length := by
        simp
      rw [if_pos hlt]
      have hbubble : insertionSortInner less 0 (done ++ x :: rest) done.length =
          insertList less x done ++ rest := by
        have h := insertionSortInner_eq_insRev less done.reverse x rest
        simpa [insertList] using h
      rw [hbubble]
      have hlen2 : done.length + (x :: rest).length =
          (insertList less x done).length + rest.length := by
        rw [insertList_length]
        simp
        omega
      have hidx : done.length + 1 = (insertList less x done).length := by
        rw [insertList_length]
      rw [hlen2, hidx, ih c (insertList less x done) (by simpa using Nat.le_of_succ_le_succ hcnt)]
      rfl

/-- `insertionSort_func` over the whole slice is the list-level
insertion sort. -/
theorem insertionSortGo_eq_isortList [Inhabited α] (less : α → α → Bool)
    (l : List α) : insertionSortGo less l 0 l.length = isortList less l := by
  cases l with
  | nil => rfl
  | cons y rest =>
    rw [insertionSortGo]
    have h := insertionSortOuter_eq_foldl less rest (rest.length + 1) [y]
      (by omega)
    simp only [List.singleton_append, List.length_singleton] at h
    rw [Nat.add_comm 1 rest.length] at h
    simp only [List.length_cons, Nat.sub_zero, Nat.zero_add]
    rw [h]
    rfl

/-- `sort.Slice` on at most 12 elements is exactly the insertion
sort. -/
theorem goSortSlice_small [Inhabited α] (less : α → α → Bool) (l : List α)
    (h : l.length ≤ 12) : goSortSlice less l = isortList less l := by
  rw [goSortSlice]
  have hfuel : 2 * l.length + 64 = (2 * l.length + 63) + 1 := by omega
  rw [hfuel, pdqsortLoop_succ]
  have hle : l.length - 0 ≤ 12 := by omega
  rw [if_pos hle]
  exact insertionSortGo_eq_isortList less l

theorem pairwise_insRev (less : α → α → Bool)
    (hasymm : ∀ a b, less a b = true → less b a = false)
    (hng : ∀ a b c, less a b = false → less b c = false → less a c = false)
    (x : α) :
    ∀ Q : List α, Q.Pairwise (fun a b => less a b = false) →
      (insRev less x Q).Pairwise (fun a b => less a b = false) := by
  intro Q
  induction Q with
  | nil => intro _; rw [insRev]; simp
  | cons p rest ih =>
    intro hQ
    rw [List.pairwise_cons] at hQ
    obtain ⟨hp, hrest⟩ := hQ
    rw [insRev]
    split
    · next hxp =>
      rw [List.pairwise_cons]
      constructor
      · intro y hy
        rcases mem_insRev less x rest y hy with rfl | hyr
        · exact hasymm y p hxp
        · exact hp y hyr
      · exact ih hrest
    · next hfalse =>
      have hxp : less x p = false := by
        cases h : less x p
        · rfl
        · exact absurd h hfalse
      rw [List.pairwise_cons]
      constructor
      · intro y hy
        rcases List.mem_cons.mp hy with rfl | hyr
        · exact hxp
        · exact hng x p y hxp (hp y hyr)
      · exact List.pairwise_cons.mpr ⟨hp, hrest⟩

theorem pairwise_insertList (less : α → α → Bool)
    (hasymm : ∀ a b, less a b = true → less b a = false)
    (hng : ∀ a b c, less a b = false → less b c = false → less a c = false)
    (x : α) (P : List α)
    (hP : P.Pairwise (fun a b => less b a = false)) :
    (insertList less x P).Pairwise (fun a b => less b a = false) := by
  rw [insertList]
  rw [List.pairwise_reverse]
  exact pairwise_insRev less hasymm hng x P.reverse
    (List.pairwise_reverse.mpr hP)

theorem pairwise_isortFold (less : α → α → Bool)
    (hasymm : ∀ a b, less a b = true → less b a = false)
    (hng : ∀ a b c, less a b = false → less b c = false → less a c = false) :
    ∀ (todo acc : List α), acc.Pairwise (fun a b => less b a = false) →
      (todo.foldl (fun acc x => insertList less x acc) acc).Pairwise
        (fun a b => less b a = false) := by
  intro todo
  induction todo with
  | nil => intro acc h; exact h
  | cons x rest ih =>
    intro acc h
    exact ih _ (pairwise_insertList less hasymm hng x acc h)

theorem pairwise_isortList (less : α → α → Bool)
    (hasymm : ∀ a b, less a b = true → less b a = false)
    (hng : ∀ a b c, less a b = false → less b c = false → less a c = false)
    (l : List α) :
    (isortList less l).Pairwise (fun a b => less b a = false) :=
  pairwise_isortFold less hasymm hng l [] List.Pairwise.nil

theorem filter_insRev (less : α → α → Bool) (p : α → Bool)
    (htie : ∀ a b, p a = true → p b = true → less a b = false) (x : α) :
    ∀ Q : List α, (insRev less x Q).filter p =
      if p x then x :: Q.filter p else Q.filter p := by
  intro Q
  induction Q with
  | nil =>
    rw [insRev]
    cases hpx : p x <;> simp [List.filter, hpx]
  | cons q rest ih =>
    rw [insRev]
    split
    · next hxq =>
      cases hpx : p x
      · simp only [List.filter_cons, ih, hpx, if_false, Bool.false_eq_true]
      · have hpq : p q = false := by
          cases h : p q
          · rfl
          · have := htie x q hpx h
            rw [hxq] at this
            cases this
        simp only [List.filter_cons, ih, hpx, hpq, if_true, Bool.false_eq_true,
          if_false]
    · next hfalse =>
      cases hpx : p x <;> simp [List.filter_cons, hpx]

theorem filter_insertList (less : α → α → Bool) (p : α → Bool)
    (htie : ∀ a b, p a = true → p b = true → less a b = false) (x : α)
    (P : List α) :
    (insertList less x P).filter p =
      if p x then P.filter p ++ [x] else P.filter p := by
  rw [insertList, List.filter_reverse, filter_insRev less p htie x P.reverse]
  cases hpx : p x
  · simp [List.filter_reverse]
  · simp [List.filter_reverse]

theorem filter_isortFold (less : α → α → Bool) (p : α → Bool)
    (htie : ∀ a b, p a = true → p b = true → less a b = false) :
    ∀ (todo acc : List α),
      (todo.foldl (fun acc x => insertList less x acc) acc).filter p =
        acc.filter p ++ todo.filter p := by
  intro todo
  induction todo with
  | nil => intro acc; simp
  | cons x rest ih =>
    intro acc
    rw [List.foldl_cons, ih, filter_insertList less p htie x acc,
      List.filter_cons]
    cases hpx : p x
    · simp
    · simp

theorem filter_isortList (less : α → α → Bool) (p : α → Bool)
    (htie : ∀ a b, p a = true → p b = true → less a b = false) (l : List α) :
    (isortList less l).filter p = l.filter p := by
  rw [isortList, filter_isortFold less p htie l []]
  simp

/-! ### Sortedness of the full `pdqsort` embedding

`sort.Slice` sorts every input whose comparator is a strict weak
order (asymmetric and transitive, with transitive incomparability),
which the ledger comparator is.  We prove it for the embedding: after
`pdqsortLoop` the index range `[a, b)` is sorted and every position
outside it is untouched.  All reasoning goes through `lget`, `lswap`
and the length. -/

theorem lswap_length [Inhabited α] (l : List α) (i j : Nat) :
    (lswap l i j).length = l.length := by
  rw [lswap]
  split
  · simp
  · rfl

theorem lget_eq_getElem [Inhabited α] (l : List α) (i : Nat) (h : i < l.length) :
    lget l i = l[i] :=
  List.getD_eq_getElem l default h

theorem lget_default [Inhabited α] (l : List α) (i : Nat) (h : l.length ≤ i) :
    lget l i = default :=
  List.getD_eq_default l default h

theorem lget_lswap [Inhabited α] (l : List α) (i j k : Nat)
    (hi : i < l.length) (hj : j < l.length) :
    lget (lswap l i j) k =
      if k = i then lget l j else if k = j then lget l i else lget l k := by
  rw [lswap, if_pos ⟨hi, hj⟩]
  dsimp only
  by_cases hk : k < l.length
  · have hk2 : k < ((l.set i (lget l j)).set j (lget l i)).length := by
      simpa using hk
    rw [lget, List.getD_eq_getElem _ _ hk2, List.getElem_set, List.getElem_set]
    by_cases hki : k = i <;> by_cases hkj : k = j
    · rw [if_pos hkj.symm, if_pos hki, show i = j by omega]
    · rw [if_neg (fun h => hkj h.symm), if_pos hki.symm, if_pos hki]
    · rw [if_pos hkj.symm, if_neg hki, if_pos hkj]
    · rw [if_neg (fun h => hkj h.symm), if_neg (fun h => hki h.symm),
        if_neg hki, if_neg hkj, lget_eq_getElem l k hk]
  · have hk' : l.length ≤ k := by omega
    have h1 : ((l.set i (lget l j)).set j (lget l i)).length ≤ k := by
      simpa using hk'
    rw [lget, List.getD_eq_default _ _ h1, if_neg (by omega), if_neg (by omega),
      lget_default l k hk']

/-- `r` has the length of `l` and agrees with it at every position
outside `[a, b)`. -/
def FrameOn [Inhabited α] (l r : List α) (a b : Nat) : Prop :=
  r.length = l.length ∧ (∀ k, k < a → lget r k = lget l k) ∧
    (∀ k, b ≤ k → lget r k = lget l k)

theorem frameOn_refl [Inhabited α] (l : List α) (a b : Nat) : FrameOn l l a b :=
  ⟨rfl, fun _ _ => rfl, fun _ _ => rfl⟩

theorem frameOn_trans [Inhabited α] {l m r : List α} {a b : Nat}
    (h1 : FrameOn l m a b) (h2 : FrameOn m r a b) : FrameOn l r a b :=
  ⟨h2.1.trans h1.1, fun k hk => (h2.2.1 k hk).trans (h1.2.1 k hk),
   fun k hk => (h2.2.2 k hk).trans (h1.2.2 k hk)⟩

theorem frameOn_mono [Inhabited α] {l r : List α} {a b a' b' : Nat}
    (h : FrameOn l r a b) (ha : a' ≤ a) (hb : b ≤ b') : FrameOn l r a' b' :=
  ⟨h.1, fun k hk => h.2.1 k (by omega), fun k hk => h.2.2 k (by omega)⟩

theorem lswap_frameOn [Inhabited α] (l : List α) {i j a b : Nat}
    (hai : a ≤ i) (hib : i < b) (haj : a ≤ j) (hjb : j < b)
    (hi : i < l.length) (hj : j < l.length) :
    FrameOn l (lswap l i j) a b := by
  refine ⟨lswap_length l i j, ?_, ?_⟩
  · intro k hk
    rw [lget_lswap l i j k hi hj, if_neg (by omega), if_neg (by omega)]
  · intro k hk
    rw [lget_lswap l i j k hi hj, if_neg (by omega), if_neg (by omega)]

/-- The segment `[a, b)` of a list. -/
def seg (l : List α) (a b : Nat) : List α := (l.drop a).take (b - a)

theorem length_seg (l : List α) (a b : Nat) (hb : b ≤ l.length) :
    (seg l a b).length = b - a := by
  rw [seg]
  simp
  omega

theorem lget_seg [Inhabited α] (l : List α) (a b i : Nat)
    (hb : b ≤ l.length) (hi : i < b - a) : lget (seg l a b) i = lget l (a + i) := by
  have h1 : i < (seg l a b).length := by rw [length_seg l a b hb]; exact hi
  rw [lget, lget, List.getD_eq_getElem _ _ h1,
    List.getD_eq_getElem _ _ (show a + i < l.length by omega)]
  simp only [seg]
  rw [List.getElem_take, List.getElem_drop]

theorem lget_mem_seg [Inhabited α] {l : List α} {a b k : Nat} (h1 : a ≤ k)
    (h2 : k < b) (hb : b ≤ l.length) : lget l k ∈ seg l a b := by
  have heq : lget (seg l a b) (k - a) = lget l k := by
    rw [lget_seg l a b (k - a) hb (by omega)]
    congr 1
    omega
  rw [← heq, lget, List.getD_eq_getElem _ _ (by rw [length_seg l a b hb]; omega)]
  exact List.getElem_mem _

theorem mem_seg_lget [Inhabited α] {l : List α} {a b : Nat}
    (hb : b ≤ l.length) {x : α} (hx : x ∈ seg l a b) :
    ∃ k, a ≤ k ∧ k < b ∧ lget l k = x := by
  obtain ⟨i, hi, hget⟩ := List.getElem_of_mem hx
  have hlen : i < b - a := by rw [length_seg l a b hb] at hi; exact hi
  refine ⟨a + i, by omega, by omega, ?_⟩
  rw [← lget_seg l a b i hb hlen, lget, List.getD_eq_getElem _ _ hi, hget]

theorem seg_perm_of_frame [Inhabited α] {l r : List α} {a b : Nat}
    (hperm : List.Perm r l) (hf : FrameOn l r a b) (hab : a ≤ b)
    (hb : b ≤ l.length) : List.Perm (seg r a b) (seg l a b) := by
  have hlen : r.length = l.length := hf.1
  have htake : r.take a = l.take a := by
    apply List.ext_getElem (by simp [hlen])
    intro i h1 h2
    have hia : i < a := by simp at h1; omega
    have hil : i < l.length := by simp at h2; omega
    have hirl : i < r.length := by omega
    rw [List.getElem_take, List.getElem_take, ← lget_eq_getElem r i hirl,
      ← lget_eq_getElem l i hil]
    exact hf.2.1 i hia
  have hdrop : r.drop b = l.drop b := by
    apply List.ext_getElem (by simp [hlen])
    intro i h1 h2
    have hil : b + i < l.length := by simp at h2; omega
    have hirl : b + i < r.length := by omega
    rw [List.getElem_drop, List.getElem_drop, ← lget_eq_getElem r (b + i) hirl,
      ← lget_eq_getElem l (b + i) hil]
    exact hf.2.2 (b + i) (by omega)
  have hsplit : ∀ m : List α, b ≤ m.length →
      m.take a ++ (seg m a b ++ m.drop b) = m := by
    intro m hm
    have hdd : m.drop b = (m.drop a).drop (b - a) := by
      rw [List.drop_drop]
      congr 1
      omega
    rw [seg, hdd, List.take_append_drop, List.take_append_drop]
  have h2 : List.Perm (l.take a ++ (seg r a b ++ l.drop b))
      (l.take a ++ (seg l a b ++ l.drop b)) := by
    rw [show l.take a ++ (seg r a b ++ l.drop b) = r by
      rw [← htake, ← hdrop]; exact hsplit r (by omega)]
    rw [hsplit l hb]
    exact hperm
  have h3 := (List.perm_append_left_iff _).mp h2
  exact (List.perm_append_right_iff _).mp h3

/-- Transfer a pointwise property of the segment values along a
segment permutation. -/
theorem forall_lget_of_segPerm [Inhabited α] {l r : List α} {a b : Nat}
    (P : α → Prop)
    (hperm : List.Perm (seg r a b) (seg l a b))
    (hbl : b ≤ l.length) (hbr : b ≤ r.length)
    (h : ∀ k, a ≤ k → k < b → P (lget l k)) :
    ∀ k, a ≤ k → k < b → P (lget r k) := by
  intro k h1 h2
  have hmem : lget r k ∈ seg l a b := hperm.subset (lget_mem_seg h1 h2 hbr)
  obtain ⟨k', h1', h2', heq⟩ := mem_seg_lget hbl hmem
  rw [← heq]
  exact h k' h1' h2'

/-- Transfer the predecessor lower bound along a frame-respecting
permutation. -/
theorem predInv_transfer [Inhabited α] {less : α → α → Bool} {l r : List α}
    {a b : Nat} (hperm : List.Perm r l) (hf : FrameOn l r a b) (hab : a ≤ b)
    (hb : b ≤ l.length)
    (hinv : 0 < a → ∀ k, a ≤ k → k < b → less (lget l k) (lget l (a - 1)) = false) :
    0 < a → ∀ k, a ≤ k → k < b → less (lget r k) (lget r (a - 1)) = false := by
  intro ha k h1 h2
  rw [hf.2.1 (a - 1) (by omega)]
  exact forall_lget_of_segPerm (fun x => less x (lget l (a - 1)) = false)
    (seg_perm_of_frame hperm hf hab hb) hb (by rw [hf.1]; omega) (hinv ha) k h1 h2

/-- Every element of the index range `(a, b)` is not below its left
neighbour. -/
def AdjSorted [Inhabited α] (less : α → α → Bool) (l : List α) (a b : Nat) : Prop :=
  ∀ k, a < k → k < b → less (lget l k) (lget l (k - 1)) = false

/-- One bubbling pass of the inner insertion loop: starting from a
list whose pairs in `(a, i]` are all in order except possibly at the
moving position `m` (with the bridging fact that the element above the
hole is not below the one under it), it restores every pair, touching
only `[a, i + 1)`. -/
theorem insertionSortInner_spec [Inhabited α] (less : α → α → Bool)
    (hasym : ∀ x y, less x y = true → less y x = false) (a i : Nat) :
    ∀ (m : Nat) (l : List α), m ≤ i → i < l.length →
      (∀ k, a < k → k ≤ i → k ≠ m → less (lget l k) (lget l (k - 1)) = false) →
      (m < i → a < m → less (lget l (m + 1)) (lget l (m - 1)) = false) →
      FrameOn l (insertionSortInner less a l m) a (i + 1) ∧
      (∀ k, a < k → k ≤ i →
        less (lget (insertionSortInner less a l m) k)
          (lget (insertionSortInner less a l m) (k - 1)) = false) := by
  intro m
  induction m with
  | zero =>
    intro l hmi hil hadj hbr
    refine ⟨frameOn_refl l a (i + 1), fun k h1 h2 => hadj k h1 h2 (by omega)⟩
  | succ m ih =>
    intro l hmi hil hadj hbr
    rw [insertionSortInner]
    by_cases hc : a < m + 1 ∧ lless less l (m + 1) m = true
    · rw [if_pos hc]
      have hm1l : m + 1 < l.length := by omega
      have hml : m < l.length := by omega
      have hv1 : lget (lswap l (m + 1) m) (m + 1) = lget l m := by
        rw [lget_lswap l (m + 1) m (m + 1) hm1l hml, if_pos rfl]
      have hv0 : lget (lswap l (m + 1) m) m = lget l (m + 1) := by
        rw [lget_lswap l (m + 1) m m hm1l hml, if_neg (by omega), if_pos rfl]
      have hval : ∀ k, k ≠ m + 1 → k ≠ m → lget (lswap l (m + 1) m) k = lget l k := by
        intro k h1 h2
        rw [lget_lswap l (m + 1) m k hm1l hml, if_neg h1, if_neg h2]
      have hadj' : ∀ k, a < k → k ≤ i → k ≠ m →
          less (lget (lswap l (m + 1) m) k)
            (lget (lswap l (m + 1) m) (k - 1)) = false := by
        intro k h1 h2 h3
        by_cases hk1 : k = m + 1
        · subst hk1
          rw [hv1, show m + 1 - 1 = m from rfl, hv0]
          exact hasym _ _ (by simpa [lless] using hc.2)
        · by_cases hk2 : k = m + 2
          · subst hk2
            rw [hval (m + 2) (by omega) (by omega),
              show m + 2 - 1 = m + 1 from rfl, hv1]
            exact hbr (by omega) (by omega)
          · rw [hval k hk1 h3, hval (k - 1) (by omega) (by omega)]
            exact hadj k h1 h2 hk1
      have hbr' : m < i → a < m →
          less (lget (lswap l (m + 1) m) (m + 1))
            (lget (lswap l (m + 1) m) (m - 1)) = false := by
        intro h1 h2
        rw [hv1, hval (m - 1) (by omega) (by omega)]
        exact hadj m h2 (by omega) (by omega)
      obtain ⟨hfr, hsort⟩ := ih (lswap l (m + 1) m) (by omega)
        (by rw [lswap_length]; exact hil) hadj' hbr'
      exact ⟨frameOn_trans
        (lswap_frameOn l (by omega) (by omega) (by omega) (by omega) hm1l hml) hfr,
        hsort⟩
    · rw [if_neg hc]
      refine ⟨frameOn_refl l a (i + 1), ?_⟩
      intro k h1 h2
      by_cases hkm : k = m + 1
      · rcases Decidable.not_and_iff_or_not.mp hc with h | h
        · omega
        · have hfalse : lless less l (m + 1) m = false := by
            cases hx : lless less l (m + 1) m
            · rfl
            · exact absurd hx h
          subst hkm
          simpa [lless, Nat.add_sub_cancel] using hfalse
      · exact hadj k h1 h2 hkm

/-- The outer insertion loop grows the sorted prefix one position per
iteration. -/
theorem insertionSortOuter_spec [Inhabited α] (less : α → α → Bool)
    (hasym : ∀ x y, less x y = true → less y x = false) (a b : Nat) :
    ∀ (cnt : Nat) (l : List α) (i : Nat), b ≤ l.length → a < i → b ≤ i + cnt →
      (∀ k, a < k → k < i → less (lget l k) (lget l (k - 1)) = false) →
      FrameOn l (insertionSortOuter less a b cnt l i) a b ∧
      AdjSorted less (insertionSortOuter less a b cnt l i) a b := by
  intro cnt
  induction cnt with
  | zero =>
    intro l i hbl hai hbi hpre
    exact ⟨frameOn_refl l a b, fun k h1 h2 => hpre k h1 (by omega)⟩
  | succ cnt ih =>
    intro l i hbl hai hbi hpre
    rw [insertionSortOuter]
    by_cases hib : i < b
    · rw [if_pos hib]
      obtain ⟨hfr1, hsort1⟩ := insertionSortInner_spec less hasym a i i l
        (le_refl i) (by omega) (fun k h1 h2 h3 => hpre k h1 (by omega))
        (fun h1 _ => absurd h1 (by omega))
      obtain ⟨hfr2, hsort2⟩ := ih (insertionSortInner less a l i) (i + 1)
        (by rw [hfr1.1]; exact hbl) (by omega) (by omega)
        (fun k h1 h2 => hsort1 k h1 (by omega))
      exact ⟨frameOn_trans (frameOn_mono hfr1 (le_refl a) (by omega)) hfr2, hsort2⟩
    · rw [if_neg hib]
      exact ⟨frameOn_refl l a b, fun k h1 h2 => hpre k h1 (by omega)⟩

/-- `insertionSort_func` sorts the range `[a, b)` and touches nothing
outside it. -/
theorem insertionSortGo_spec [Inhabited α] (less : α → α → Bool)
    (hasym : ∀ x y, less x y = true → less y x = false)
    (l : List α) (a b : Nat) (hb : b ≤ l.length) :
    FrameOn l (insertionSortGo less l a b) a b ∧
    AdjSorted less (insertionSortGo less l a b) a b := by
  rw [insertionSortGo]
  by_cases hab : a < b
  · exact insertionSortOuter_spec less hasym a b (b - a) l (a + 1) hb (by omega)
      (by omega) (fun k h1 h2 => by omega)
  · have h0 : b - a = 0 := by omega
    rw [h0, insertionSortOuter]
    exact ⟨frameOn_refl l a b, fun k h1 h2 => by omega⟩

theorem less_irrefl {α : Type _} {less : α → α → Bool}
    (hasym : ∀ x y, less x y = true → less y x = false) (x : α) :
    less x x = false := by
  cases hx : less x x
  · rfl
  · have h2 := hasym x x hx
    rw [hx] at h2
    simp at h2

/-- Position `r` of the implicit max-heap on `[first, first + hi)`
dominates its children. -/
def HeapAt [Inhabited α] (less : α → α → Bool) (l : List α) (first hi r : Nat) : Prop :=
  (2 * r + 1 < hi → less (lget l (first + r)) (lget l (first + (2 * r + 1))) = false) ∧
  (2 * r + 2 < hi → less (lget l (first + r)) (lget l (first + (2 * r + 2))) = false)

/-- Reassembly step of the `siftDown_func` correctness proof: after
swapping the root with its dominant child `c` and sifting the subtree
at `c`, the whole range `[root, hi)` satisfies the heap property. -/
theorem siftDown_assemble [Inhabited α] (less : α → α → Bool)
    (hasym : ∀ x y, less x y = true → less y x = false)
    (first hi root c : Nat) (l res : List α)
    (hlen : first + hi ≤ l.length)
    (hc : c = 2 * root + 1 ∨ c = 2 * root + 2) (hchi : c < hi)
    (hsib : ∀ s, (s = 2 * root + 1 ∨ s = 2 * root + 2) → s < hi →
      less (lget l (first + c)) (lget l (first + s)) = false)
    (hswap : less (lget l (first + root)) (lget l (first + c)) = true)
    (hpre : ∀ r, root < r → r < hi → HeapAt less l first hi r)
    (hpost : ∀ r, c ≤ r → r < hi → HeapAt less res first hi r)
    (hrlen : res.length = (lswap l (first + root) (first + c)).length)
    (hrframe : ∀ k, k ≠ first + c → (k < first + (2 * c + 1) ∨ first + hi ≤ k) →
      lget res k = lget (lswap l (first + root) (first + c)) k)
    (hrP3 : lget res (first + c) =
        lget (lswap l (first + root) (first + c)) (first + c) ∨
      ∃ d, (d = 2 * c + 1 ∨ d = 2 * c + 2) ∧ d < hi ∧
        lget res (first + c) = lget (lswap l (first + root) (first + c)) (first + d)) :
    (∀ r, root ≤ r → r < hi → HeapAt less res first hi r) ∧
    res.length = l.length ∧
    (∀ k, k ≠ first + root → (k < first + (2 * root + 1) ∨ first + hi ≤ k) →
      lget res k = lget l k) ∧
    (lget res (first + root) = lget l (first + root) ∨
      ∃ d, (d = 2 * root + 1 ∨ d = 2 * root + 2) ∧ d < hi ∧
        lget res (first + root) = lget l (first + d)) := by
  have hfr : first + root < l.length := by omega
  have hfc : first + c < l.length := by omega
  have hvroot : lget (lswap l (first + root) (first + c)) (first + root) =
      lget l (first + c) := by
    rw [lget_lswap l _ _ _ hfr hfc, if_pos rfl]
  have hvc : lget (lswap l (first + root) (first + c)) (first + c) =
      lget l (first + root) := by
    rw [lget_lswap l _ _ _ hfr hfc, if_neg (by omega), if_pos rfl]
  have hvo : ∀ k, k ≠ first + root → k ≠ first + c →
      lget (lswap l (first + root) (first + c)) k = lget l k := by
    intro k h1 h2
    rw [lget_lswap l _ _ _ hfr hfc, if_neg h1, if_neg h2]
  have hres_root : lget res (first + root) = lget l (first + c) :=
    (hrframe (first + root) (by omega) (Or.inl (by omega))).trans hvroot
  have hres_c : lget res (first + c) = lget l (first + root) ∨
      ∃ d, (d = 2 * c + 1 ∨ d = 2 * c + 2) ∧ d < hi ∧
        lget res (first + c) = lget l (first + d) := by
    rcases hrP3 with h | ⟨d, hd, hdhi, h⟩
    · exact Or.inl (h.trans hvc)
    · exact Or.inr ⟨d, hd, hdhi, h.trans (hvo _ (by omega) (by omega))⟩
  have hres_sib : ∀ s, (s = 2 * root + 1 ∨ s = 2 * root + 2) → s ≠ c →
      lget res (first + s) = lget l (first + s) := by
    intro s hs hsc
    exact (hrframe (first + s) (by omega) (Or.inl (by omega))).trans
      (hvo _ (by omega) (by omega))
  have hroot_vs_c : less (lget res (first + root)) (lget res (first + c)) = false := by
    rw [hres_root]
    rcases hres_c with h | ⟨d, hd, hdhi, h⟩
    · rw [h]
      exact hasym _ _ hswap
    · rw [h]
      rcases hd with hd | hd
      · subst hd
        exact (hpre c (by omega) hchi).1 hdhi
      · subst hd
        exact (hpre c (by omega) hchi).2 hdhi
  have hroot_vs_sib : ∀ s, (s = 2 * root + 1 ∨ s = 2 * root + 2) → s < hi →
      less (lget res (first + root)) (lget res (first + s)) = false := by
    intro s hs hshi
    by_cases hsc : s = c
    · rw [hsc]
      exact hroot_vs_c
    · rw [hres_root, hres_sib s hs hsc]
      exact hsib s hs hshi
  refine ⟨?_, hrlen.trans (lswap_length l _ _), ?_, ?_⟩
  · intro r h1 h2
    rcases Nat.lt_or_ge r c with hrc | hrc
    · rcases Nat.eq_or_lt_of_le h1 with hre | hre
      · refine ⟨fun h => ?_, fun h => ?_⟩
        · rw [← hre]
          exact hroot_vs_sib (2 * root + 1) (Or.inl rfl) (by omega)
        · rw [← hre]
          exact hroot_vs_sib (2 * root + 2) (Or.inr rfl) (by omega)
      · have hv1 : lget res (first + r) = lget l (first + r) :=
          (hrframe _ (by omega) (Or.inl (by omega))).trans
            (hvo _ (by omega) (by omega))
        have hv2 : lget res (first + (2 * r + 1)) = lget l (first + (2 * r + 1)) :=
          (hrframe _ (by omega) (Or.inl (by omega))).trans
            (hvo _ (by omega) (by omega))
        have hv3 : lget res (first + (2 * r + 2)) = lget l (first + (2 * r + 2)) :=
          (hrframe _ (by omega) (Or.inl (by omega))).trans
            (hvo _ (by omega) (by omega))
        refine ⟨fun h => ?_, fun h => ?_⟩
        · rw [hv1, hv2]
          exact (hpre r hre h2).1 h
        · rw [hv1, hv3]
          exact (hpre r hre h2).2 h
    · exact hpost r hrc h2
  · intro k h1 h2
    have hkc : k ≠ first + c := by omega
    exact (hrframe k hkc (by omega)).trans (hvo k h1 hkc)
  · exact Or.inr ⟨c, hc, hchi, hres_root⟩

/-- The `siftDown_func` specification: given heaps strictly below the
root, sifting restores the heap property on `[root, hi)`, touches only
the root position and indices from the first child on, and ends with
the root position holding its original value or one of its children's
original values. -/
theorem siftDownGo_spec [Inhabited α] (less : α → α → Bool)
    (hasym : ∀ x y, less x y = true → less y x = false)
    (hneg : ∀ x y z, less x y = false → less y z = false → less x z = false)
    (first hi : Nat) :
    ∀ (fuel root : Nat) (l : List α), first + hi ≤ l.length → hi ≤ fuel + root →
      (∀ r, root < r → r < hi → HeapAt less l first hi r) →
      (∀ r, root ≤ r → r < hi →
        HeapAt less (siftDownGo less first hi fuel l root) first hi r) ∧
      (siftDownGo less first hi fuel l root).length = l.length ∧
      (∀ k, k ≠ first + root → (k < first + (2 * root + 1) ∨ first + hi ≤ k) →
        lget (siftDownGo less first hi fuel l root) k = lget l k) ∧
      (lget (siftDownGo less first hi fuel l root) (first + root) =
          lget l (first + root) ∨
        ∃ d, (d = 2 * root + 1 ∨ d = 2 * root + 2) ∧ d < hi ∧
          lget (siftDownGo less first hi fuel l root) (first + root) =
            lget l (first + d)) := by
  intro fuel
  induction fuel with
  | zero =>
    intro root l hlen hfuel hpre
    refine ⟨?_, rfl, fun k _ _ => rfl, Or.inl rfl⟩
    intro r h1 h2
    omega
  | succ fuel ih =>
    intro root l hlen hfuel hpre
    rw [siftDownGo]
    dsimp only
    by_cases hc0 : hi ≤ 2 * root + 1
    · rw [if_pos hc0]
      refine ⟨?_, rfl, fun k _ _ => rfl, Or.inl rfl⟩
      intro r h1 h2
      exact ⟨fun h => absurd h (by omega), fun h => absurd h (by omega)⟩
    · rw [if_neg hc0]
      by_cases hsel : 2 * root + 1 + 1 < hi ∧
          lless less l (first + (2 * root + 1)) (first + (2 * root + 1) + 1) = true
      · rw [if_pos hsel]
        have hsel2 : less (lget l (first + (2 * root + 1)))
            (lget l (first + (2 * root + 1) + 1)) = true := by
          simpa [lless] using hsel.2
        have hsib : ∀ s, (s = 2 * root + 1 ∨ s = 2 * root + 2) → s < hi →
            less (lget l (first + (2 * root + 1 + 1))) (lget l (first + s)) = false := by
          intro s hs hshi
          rcases hs with hs | hs
          · subst hs
            have := hasym _ _ hsel2
            rw [show first + (2 * root + 1) + 1 = first + (2 * root + 1 + 1) by omega]
              at this
            exact this
          · subst hs
            rw [show (2 * root + 1 + 1 : Nat) = 2 * root + 2 by omega]
            exact less_irrefl hasym _
        by_cases hstop : ¬ lless less l (first + root) (first + (2 * root + 1 + 1)) = true
        · rw [if_pos hstop]
          have hstopf : less (lget l (first + root))
              (lget l (first + (2 * root + 1 + 1))) = false := by
            cases hx : lless less l (first + root) (first + (2 * root + 1 + 1))
            · simpa [lless] using hx
            · exact absurd hx hstop
          refine ⟨?_, rfl, fun k _ _ => rfl, Or.inl rfl⟩
          intro r h1 h2
          rcases Nat.eq_or_lt_of_le h1 with hre | hre
          · subst hre
            refine ⟨fun h => ?_, fun h => ?_⟩
            · have h2d : less (lget l (first + (2 * root + 1 + 1)))
                  (lget l (first + (2 * root + 1))) = false := hasym _ _ hsel2
              have h2d' : less (lget l (first + root))
                  (lget l (first + (2 * root + 1))) = false := hneg _ _ _
                (by rw [show first + (2 * root + 1 + 1) =
                    first + (2 * root + 1) + 1 by omega] at hstopf; exact hstopf)
                (by rw [show first + (2 * root + 1 + 1) =
                    first + (2 * root + 1) + 1 by omega] at h2d; exact h2d)
              exact h2d'
            · rw [show first + (2 * root + 2) = first + (2 * root + 1 + 1) by omega]
              exact hstopf
          · exact hpre r hre h2
        · rw [if_neg hstop]
          have hswap : less (lget l (first + root))
              (lget l (first + (2 * root + 1 + 1))) = true := by
            rcases hx : lless less l (first + root) (first + (2 * root + 1 + 1)) with h | h
            · exact absurd (by intro hy; rw [hx] at hy; cases hy) hstop
            · simpa [lless] using hx
          have hpre' : ∀ r, 2 * root + 1 + 1 < r → r < hi →
              HeapAt less (lswap l (first + root) (first + (2 * root + 1 + 1)))
                first hi r := by
            intro r h1 h2
            have hfr : first + root < l.length := by omega
            have hfc : first + (2 * root + 1 + 1) < l.length := by omega
            have hvo : ∀ x, x ≠ root → x ≠ 2 * root + 1 + 1 →
                lget (lswap l (first + root) (first + (2 * root + 1 + 1))) (first + x) =
                  lget l (first + x) := by
              intro x hx1 hx2
              rw [lget_lswap l _ _ _ hfr hfc, if_neg (by omega), if_neg (by omega)]
            refine ⟨fun h => ?_, fun h => ?_⟩
            · rw [hvo r (by omega) (by omega), hvo (2 * r + 1) (by omega) (by omega)]
              exact (hpre r (by omega) h2).1 h
            · rw [hvo r (by omega) (by omega), hvo (2 * r + 2) (by omega) (by omega)]
              exact (hpre r (by omega) h2).2 h
          obtain ⟨hp1, hp2, hp3, hp4⟩ := ih (2 * root + 1 + 1)
            (lswap l (first + root) (first + (2 * root + 1 + 1)))
            (by rw [lswap_length]; exact hlen) (by omega) hpre'
          exact siftDown_assemble less hasym first hi root (2 * root + 1 + 1) l _
            hlen (Or.inr (by omega)) hsel.1 hsib hswap hpre hp1 hp2 hp3 hp4
      · rw [if_neg hsel]
        have hc1 : 2 * root + 1 < hi := by omega
        have hsibB : ∀ s, (s = 2 * root + 1 ∨ s = 2 * root + 2) → s < hi →
            less (lget l (first + (2 * root + 1))) (lget l (first + s)) = false := by
          intro s hs hshi
          rcases hs with hs | hs
          · subst hs
            exact less_irrefl hasym _
          · subst hs
            have hns : ¬ (2 * root + 1 + 1 < hi ∧ lless less l (first + (2 * root + 1))
                (first + (2 * root + 1) + 1) = true) := hsel
            have hx : lless less l (first + (2 * root + 1))
                (first + (2 * root + 1) + 1) = false := by
              cases hy : lless less l (first + (2 * root + 1))
                  (first + (2 * root + 1) + 1)
              · rfl
              · exact absurd ⟨by omega, hy⟩ hns
            have hx' : less (lget l (first + (2 * root + 1)))
                (lget l (first + (2 * root + 1) + 1)) = false := by
              simpa [lless] using hx
            rw [show first + (2 * root + 2) = first + (2 * root + 1) + 1 by omega]
            exact hx'
        by_cases hstop : ¬ lless less l (first + root) (first + (2 * root + 1)) = true
        · rw [if_pos hstop]
          have hstopf : less (lget l (first + root))
              (lget l (first + (2 * root + 1))) = false := by
            cases hx : lless less l (first + root) (first + (2 * root + 1))
            · simpa [lless] using hx
            · exact absurd hx hstop
          refine ⟨?_, rfl, fun k _ _ => rfl, Or.inl rfl⟩
          intro r h1 h2
          rcases Nat.eq_or_lt_of_le h1 with hre | hre
          · subst hre
            refine ⟨fun h => hstopf, fun h => ?_⟩
            exact hneg _ _ _ hstopf (hsibB (2 * root + 2) (Or.inr rfl) h)
          · exact hpre r hre h2
        · rw [if_neg hstop]
          have hswap : less (lget l (first + root))
              (lget l (first + (2 * root + 1))) = true := by
            rcases hx : lless less l (first + root) (first + (2 * root + 1)) with h | h
            · exact absurd (by intro hy; rw [hx] at hy; cases hy) hstop
            · simpa [lless] using hx
          have hpre' : ∀ r, 2 * root + 1 < r → r < hi →
              HeapAt less (lswap l (first + root) (first + (2 * root + 1)))
                first hi r := by
            intro r h1 h2
            have hfr : first + root < l.length := by omega
            have hfc : first + (2 * root + 1) < l.length := by omega
            have hvo : ∀ x, x ≠ root → x ≠ 2 * root + 1 →
                lget (lswap l (first + root) (first + (2 * root + 1))) (first + x) =
                  lget l (first + x) := by
              intro x hx1 hx2
              rw [lget_lswap l _ _ _ hfr hfc, if_neg (by omega), if_neg (by omega)]
            refine ⟨fun h => ?_, fun h => ?_⟩
            · rw [hvo r (by omega) (by omega), hvo (2 * r + 1) (by omega) (by omega)]
              exact (hpre r (by omega) h2).1 h
            · rw [hvo r (by omega) (by omega), hvo (2 * r + 2) (by omega) (by omega)]
              exact (hpre r (by omega) h2).2 h
          obtain ⟨hp1, hp2, hp3, hp4⟩ := ih (2 * root + 1)
            (lswap l (first + root) (first + (2 * root + 1)))
            (by rw [lswap_length]; exact hlen) (by omega) hpre'
          exact siftDown_assemble less hasym first hi root (2 * root + 1) l _
            hlen (Or.inl rfl) hc1 hsibB hswap hpre hp1 hp2 hp3 hp4

/-- In a max-heap the root dominates every position (walking the
parent chain). -/
theorem heap_root_max [Inhabited α] (less : α → α → Bool)
    (hasym : ∀ x y, less x y = true → less y x = false)
    (hneg : ∀ x y z, less x y = false → less y z = false → less x z = false)
    (l : List α) (first n : Nat)
    (hheap : ∀ r, r < n → HeapAt less l first n r) :
    ∀ p, p < n → less (lget l first) (lget l (first + p)) = false := by
  intro p
  induction p using Nat.strong_induction_on with
  | _ p ih =>
    intro hp
    cases p with
    | zero =>
      rw [Nat.add_zero]
      exact less_irrefl hasym _
    | succ q =>
      by_cases hq : q % 2 = 0
      · have h1 : 2 * (q / 2) + 1 = q + 1 := by omega
        have h2 := (hheap (q / 2) (by omega)).1 (by omega)
        rw [h1] at h2
        exact hneg _ _ _ (ih (q / 2) (by omega) (by omega)) h2
      · have h1 : 2 * (q / 2) + 2 = q + 1 := by omega
        have h2 := (hheap (q / 2) (by omega)).2 (by omega)
        rw [h1] at h2
        exact hneg _ _ _ (ih (q / 2) (by omega) (by omega)) h2

/-- The heap construction phase of `heapSort_func` builds a full heap
on `[0, hi)`, touching only `[first, first + hi)`. -/
theorem heapBuildLoop_spec [Inhabited α] (less : α → α → Bool)
    (hasym : ∀ x y, less x y = true → less y x = false)
    (hneg : ∀ x y z, less x y = false → less y z = false → less x z = false)
    (first hi : Nat) :
    ∀ (cnt : Nat) (l : List α), first + hi ≤ l.length → cnt ≤ hi →
      (∀ r, cnt ≤ r → r < hi → HeapAt less l first hi r) →
      (∀ r, r < hi → HeapAt less (heapBuildLoop less first hi cnt l) first hi r) ∧
      (heapBuildLoop less first hi cnt l).length = l.length ∧
      (∀ k, k < first ∨ first + hi ≤ k →
        lget (heapBuildLoop less first hi cnt l) k = lget l k) := by
  intro cnt
  induction cnt with
  | zero =>
    intro l hlen hcnt hpre
    exact ⟨fun r hr => hpre r (by omega) hr, rfl, fun k _ => rfl⟩
  | succ i ih =>
    intro l hlen hcnt hpre
    rw [heapBuildLoop]
    obtain ⟨h1, h2, h3, _⟩ := siftDownGo_spec less hasym hneg first hi hi i l hlen
      (by omega) (fun r hr1 hr2 => hpre r (by omega) hr2)
    obtain ⟨g1, g2, g3⟩ := ih (siftDownGo less first hi hi l i)
      (by rw [h2]; exact hlen) (by omega) (fun r hr1 hr2 => h1 r (by omega) hr2)
    refine ⟨g1, g2.trans h2, fun k hk => (g3 k hk).trans ?_⟩
    rcases hk with hk | hk
    · exact h3 k (by omega) (Or.inl (by omega))
    · exact h3 k (by omega) (Or.inr (by omega))

/-- The pop phase of `heapSort_func`: a heap of size `cnt` with a
sorted dominated suffix ends as a fully sorted range. -/
theorem heapPopLoop_spec [Inhabited α] (less : α → α → Bool)
    (hasym : ∀ x y, less x y = true → less y x = false)
    (hneg : ∀ x y z, less x y = false → less y z = false → less x z = false)
    (first hi0 : Nat) :
    ∀ (cnt : Nat) (l : List α), first + hi0 ≤ l.length → cnt ≤ hi0 →
      (∀ r, r < cnt → HeapAt less l first cnt r) →
      (∀ k, first + cnt < k → k < first + hi0 →
        less (lget l k) (lget l (k - 1)) = false) →
      (∀ q k, q < cnt → cnt ≤ k → k < hi0 →
        less (lget l (first + k)) (lget l (first + q)) = false) →
      (∀ k, first < k → k < first + hi0 →
        less (lget (heapPopLoop less first cnt l) k)
          (lget (heapPopLoop less first cnt l) (k - 1)) = false) ∧
      (heapPopLoop less first cnt l).length = l.length ∧
      (∀ k, k < first ∨ first + hi0 ≤ k →
        lget (heapPopLoop less first cnt l) k = lget l k) := by
  intro cnt
  induction cnt with
  | zero =>
    intro l hlen hcnt hheap hsorted hbound
    exact ⟨fun k h1 h2 => hsorted k (by omega) h2, rfl, fun k _ => rfl⟩
  | succ i ih =>
    intro l hlen hcnt hheap hsorted hbound
    rw [heapPopLoop]
    have hfl : first < l.length := by omega
    have hfil : first + i < l.length := by omega
    have hmax := heap_root_max less hasym hneg l first (i + 1) hheap
    by_cases hizero : i = 0
    · subst hizero
      rw [heapPopLoop]
      rw [show siftDownGo less first 0 0 (lswap l first (first + 0)) 0 =
        lswap l first (first + 0) from rfl]
      have hvv : ∀ k, lget (lswap l first (first + 0)) k = lget l k := by
        intro k
        rw [lget_lswap l first (first + 0) k hfl (by omega), Nat.add_zero]
        by_cases hk : k = first
        · rw [if_pos hk, hk]
        · rw [if_neg hk, if_neg hk]
      refine ⟨?_, lswap_length l _ _, fun k _ => hvv k⟩
      intro k h1 h2
      rw [hvv k, hvv (k - 1)]
      by_cases hk1 : k = first + 1
      · have hb1 := hbound 0 1 (by omega) (by omega) (by omega)
        rw [Nat.add_zero] at hb1
        rw [hk1, show first + 1 - 1 = first from by omega]
        exact hb1
      · exact hsorted k (by omega) h2
    · have hv1 : lget (lswap l first (first + i)) first = lget l (first + i) := by
        rw [lget_lswap l first (first + i) first hfl hfil, if_pos rfl]
      have hv0 : lget (lswap l first (first + i)) (first + i) = lget l first := by
        rw [lget_lswap l first (first + i) (first + i) hfl hfil,
          if_neg (by omega), if_pos rfl]
      have hvo : ∀ k, k ≠ first → k ≠ first + i →
          lget (lswap l first (first + i)) k = lget l k := by
        intro k hk1 hk2
        rw [lget_lswap l first (first + i) k hfl hfil, if_neg hk1, if_neg hk2]
      have hpre' : ∀ r, 0 < r → r < i →
          HeapAt less (lswap l first (first + i)) first i r := by
        intro r h1 h2
        have hh := hheap r (by omega)
        refine ⟨fun h => ?_, fun h => ?_⟩
        · rw [hvo (first + r) (by omega) (by omega),
            hvo (first + (2 * r + 1)) (by omega) (by omega)]
          exact hh.1 (by omega)
        · rw [hvo (first + r) (by omega) (by omega),
            hvo (first + (2 * r + 2)) (by omega) (by omega)]
          exact hh.2 (by omega)
      obtain ⟨hs1, hs2, hs3, _⟩ := siftDownGo_spec less hasym hneg first i i 0
        (lswap l first (first + i)) (by rw [lswap_length]; omega) (by omega) hpre'
      have hval_i : lget (siftDownGo less first i i (lswap l first (first + i)) 0)
          (first + i) = lget l first := by
        rw [hs3 (first + i) (by omega) (Or.inr (by omega))]
        exact hv0
      have hval_gt : ∀ k, first + i < k →
          lget (siftDownGo less first i i (lswap l first (first + i)) 0) k =
            lget l k := by
        intro k hk
        rw [hs3 k (by omega) (Or.inr (by omega))]
        exact hvo k (by omega) (by omega)
      have hframe12 : FrameOn (lswap l first (first + i))
          (siftDownGo less first i i (lswap l first (first + i)) 0) first (first + i) := by
        refine ⟨hs2, ?_, ?_⟩
        · intro k hk
          exact hs3 k (by omega) (Or.inl (by omega))
        · intro k hk
          exact hs3 k (by omega) (Or.inr (by omega))
      have hsegperm := seg_perm_of_frame
        (siftDownGo_perm less first i i (lswap l first (first + i)) 0) hframe12
        (by omega) (by rw [lswap_length]; omega)
      have hq_val : ∀ q, q < i → ∃ p, p < i + 1 ∧
          lget (siftDownGo less first i i (lswap l first (first + i)) 0) (first + q) =
            lget l (first + p) := by
        intro q hq
        have hmem : lget (siftDownGo less first i i (lswap l first (first + i)) 0)
            (first + q) ∈ seg (lswap l first (first + i)) first (first + i) := by
          refine hsegperm.subset (lget_mem_seg (by omega) (by omega) ?_)
          rw [hs2, lswap_length]
          omega
        obtain ⟨k', hk1', hk2', heq⟩ := mem_seg_lget (by rw [lswap_length]; omega) hmem
        by_cases hk0 : k' = first
        · refine ⟨i, by omega, ?_⟩
          rw [← heq, hk0]
          exact hv1
        · refine ⟨k' - first, by omega, ?_⟩
          rw [← heq, show first + (k' - first) = k' from by omega]
          exact hvo k' hk0 (by omega)
      have hsorted' : ∀ k, first + i < k → k < first + hi0 →
          less (lget (siftDownGo less first i i (lswap l first (first + i)) 0) k)
            (lget (siftDownGo less first i i (lswap l first (first + i)) 0) (k - 1)) =
            false := by
        intro k h1 h2
        by_cases hk1 : k = first + i + 1
        · rw [hval_gt k (by omega), hk1, show first + i + 1 - 1 = first + i from by omega,
            hval_i]
          have hb1 := hbound 0 (i + 1) (by omega) (by omega) (by omega)
          rw [Nat.add_zero] at hb1
          rw [show (first + (i + 1) : Nat) = first + i + 1 from by omega] at hb1
          exact hb1
        · rw [hval_gt k (by omega), hval_gt (k - 1) (by omega)]
          exact hsorted k (by omega) h2
      have hbound' : ∀ q k, q < i → i ≤ k → k < hi0 →
          less (lget (siftDownGo less first i i (lswap l first (first + i)) 0) (first + k))
            (lget (siftDownGo less first i i (lswap l first (first + i)) 0) (first + q)) =
            false := by
        intro q k hq hik hk
        obtain ⟨p, hp, hpv⟩ := hq_val q hq
        rw [hpv]
        rcases Nat.eq_or_lt_of_le hik with hke | hke
        · rw [← hke, hval_i]
          exact hmax p hp
        · rw [hval_gt (first + k) (by omega)]
          exact hbound p k hp (by omega) hk
      obtain ⟨g1, g2, g3⟩ := ih (siftDownGo less first i i (lswap l first (first + i)) 0)
        (by rw [hs2, lswap_length]; exact hlen) (by omega) (fun r hr => hs1 r (by omega) hr)
        hsorted' hbound'
      refine ⟨g1, by rw [g2, hs2, lswap_length], ?_⟩
      intro k hk
      rw [g3 k hk]
      rcases hk with hk | hk
      · rw [hs3 k (by omega) (Or.inl (by omega))]
        exact hvo k (by omega) (by omega)
      · rw [hs3 k (by omega) (Or.inr (by omega))]
        exact hvo k (by omega) (by omega)

/-- `heapSort_func` sorts the range `[a, b)` and touches nothing
outside it. -/
theorem heapSortGo_spec [Inhabited α] (less : α → α → Bool)
    (hasym : ∀ x y, less x y = true → less y x = false)
    (hneg : ∀ x y z, less x y = false → less y z = false → less x z = false)
    (l : List α) (a b : Nat) (hb : b ≤ l.length) :
    FrameOn l (heapSortGo less l a b) a b ∧
    AdjSorted less (heapSortGo less l a b) a b := by
  rw [heapSortGo]
  by_cases hab : a < b
  · obtain ⟨b1, b2, b3⟩ := heapBuildLoop_spec less hasym hneg a (b - a)
      ((b - a - 1) / 2 + 1) l (by omega) (by omega)
      (fun r h1 h2 => ⟨fun h => absurd h (by omega), fun h => absurd h (by omega)⟩)
    obtain ⟨p1, p2, p3⟩ := heapPopLoop_spec less hasym hneg a (b - a) (b - a)
      (heapBuildLoop less a (b - a) ((b - a - 1) / 2 + 1) l)
      (by rw [b2]; omega) (le_refl _) (fun r hr => b1 r hr)
      (fun k h1 h2 => by omega) (fun q k h1 h2 h3 => by omega)
    refine ⟨⟨p2.trans b2, ?_, ?_⟩, ?_⟩
    · intro k hk
      rw [p3 k (Or.inl hk)]
      exact b3 k (Or.inl hk)
    · intro k hk
      rw [p3 k (Or.inr (by omega))]
      exact b3 k (Or.inr (by omega))
    · intro k h1 h2
      exact p1 k h1 (by omega)
  · have h0 : b - a = 0 := by omega
    rw [h0]
    rw [show ((0 : Nat) - 1) / 2 + 1 = 1 from rfl]
    rw [show heapBuildLoop less a 0 1 l = l from rfl]
    rw [show heapPopLoop less a 0 l = l from rfl]
    exact ⟨frameOn_refl l a b, fun k h1 h2 => by omega⟩

/-- The scan loop of `partialInsertionSort_func` checks adjacent
order up to its stopping point. -/
theorem pisAdvance_spec [Inhabited α] (less : α → α → Bool) (l : List α) (b : Nat) :
    ∀ (fuel i : Nat), i ≤ b → b ≤ fuel + i →
      i ≤ pisAdvance less l b fuel i ∧
      pisAdvance less l b fuel i ≤ b ∧
      (∀ k, i ≤ k → k < pisAdvance less l b fuel i →
        less (lget l k) (lget l (k - 1)) = false) ∧
      (pisAdvance less l b fuel i = b ∨
        less (lget l (pisAdvance less l b fuel i))
          (lget l (pisAdvance less l b fuel i - 1)) = true) := by
  intro fuel
  induction fuel with
  | zero =>
    intro i hib hfuel
    rw [pisAdvance]
    exact ⟨le_refl i, hib, fun k h1 h2 => by omega, Or.inl (by omega)⟩
  | succ fuel ih =>
    intro i hib hfuel
    rw [pisAdvance]
    by_cases hc : i < b ∧ ¬ lless less l i (i - 1) = true
    · rw [if_pos hc]
      obtain ⟨g1, g2, g3, g4⟩ := ih (i + 1) (by omega) (by omega)
      refine ⟨by omega, g2, ?_, g4⟩
      intro k h1 h2
      by_cases hk : k = i
      · subst hk
        have hfalse : lless less l k (k - 1) = false := by
          cases hx : lless less l k (k - 1)
          · rfl
          · exact absurd hx hc.2
        simpa [lless] using hfalse
      · exact g3 k (by omega) h2
    · rw [if_neg hc]
      refine ⟨le_refl i, hib, fun k h1 h2 => by omega, ?_⟩
      rcases Decidable.not_and_iff_or_not.mp hc with h | h
      · exact Or.inl (by omega)
      · right
        have hx := not_not.mp h
        simpa [lless] using hx

/-- The left-shifting loop of `partialInsertionSort_func`: under the
predecessor lower bound it cannot cross `a`, and it restores every
adjacent pair of `(a, i]`. -/
theorem pisShiftLeft_spec [Inhabited α] (less : α → α → Bool)
    (hasym : ∀ x y, less x y = true → less y x = false) (a i : Nat) :
    ∀ (fuel j : Nat) (l : List α), a ≤ j → j ≤ i → i < l.length → j ≤ fuel →
      (0 < a → less (lget l j) (lget l (a - 1)) = false) →
      (∀ k, a < k → k ≤ i → k ≠ j → less (lget l k) (lget l (k - 1)) = false) →
      (j < i → a < j → less (lget l (j + 1)) (lget l (j - 1)) = false) →
      FrameOn l (pisShiftLeft less fuel l j) a (i + 1) ∧
      (∀ k, a < k → k ≤ i →
        less (lget (pisShiftLeft less fuel l j) k)
          (lget (pisShiftLeft less fuel l j) (k - 1)) = false) := by
  intro fuel
  induction fuel with
  | zero =>
    intro j l haj hji hil hjf hpred hadj hbr
    rw [pisShiftLeft]
    exact ⟨frameOn_refl l a (i + 1), fun k h1 h2 => hadj k h1 h2 (by omega)⟩
  | succ fuel ih =>
    intro j l haj hji hil hjf hpred hadj hbr
    rw [pisShiftLeft]
    by_cases hc : 1 ≤ j ∧ lless less l j (j - 1) = true
    · rw [if_pos hc]
      have hcl : less (lget l j) (lget l (j - 1)) = true := by
        simpa [lless] using hc.2
      have hja : a < j := by
        rcases Nat.lt_or_ge a j with h | h
        · exact h
        · have hje : j = a := by omega
          have ha0 : 0 < a := by omega
          have h2 := hpred ha0
          rw [hje] at hcl
          rw [show (a - 1 : Nat) = j - 1 from by omega] at h2
          rw [hje] at h2
          rw [h2] at hcl
          simp at hcl
      have hjl : j < l.length := by omega
      have hj1l : j - 1 < l.length := by omega
      have hv1 : lget (lswap l j (j - 1)) j = lget l (j - 1) := by
        rw [lget_lswap l j (j - 1) j hjl hj1l, if_pos rfl]
      have hv0 : lget (lswap l j (j - 1)) (j - 1) = lget l j := by
        rw [lget_lswap l j (j - 1) (j - 1) hjl hj1l, if_neg (by omega), if_pos rfl]
      have hvo : ∀ k, k ≠ j → k ≠ j - 1 → lget (lswap l j (j - 1)) k = lget l k := by
        intro k h1 h2
        rw [lget_lswap l j (j - 1) k hjl hj1l, if_neg h1, if_neg h2]
      have hpred' : 0 < a → less (lget (lswap l j (j - 1)) (j - 1))
          (lget (lswap l j (j - 1)) (a - 1)) = false := by
        intro ha
        rw [hv0, hvo (a - 1) (by omega) (by omega)]
        exact hpred ha
      have hadj' : ∀ k, a < k → k ≤ i → k ≠ j - 1 →
          less (lget (lswap l j (j - 1)) k)
            (lget (lswap l j (j - 1)) (k - 1)) = false := by
        intro k h1 h2 h3
        by_cases hk1 : k = j
        · subst hk1
          rw [hv1, hv0]
          exact hasym _ _ hcl
        · by_cases hk2 : k = j + 1
          · subst hk2
            rw [hvo (j + 1) (by omega) (by omega), show (j + 1 - 1 : Nat) = j from rfl,
              hv1]
            exact hbr (by omega) hja
          · rw [hvo k hk1 (by omega), hvo (k - 1) (by omega) (by omega)]
            exact hadj k h1 h2 hk1
      have hbr' : j - 1 < i → a < j - 1 →
          less (lget (lswap l j (j - 1)) (j - 1 + 1))
            (lget (lswap l j (j - 1)) (j - 1 - 1)) = false := by
        intro h1 h2
        rw [show (j - 1 + 1 : Nat) = j from by omega, hv1,
          hvo (j - 1 - 1) (by omega) (by omega)]
        exact hadj (j - 1) (by omega) (by omega) (by omega)
      obtain ⟨g1, g2⟩ := ih (j - 1) (lswap l j (j - 1)) (by omega) (by omega)
        (by rw [lswap_length]; exact hil) (by omega) hpred' hadj' hbr'
      exact ⟨frameOn_trans
        (lswap_frameOn l (by omega) (by omega) (by omega) (by omega) hjl hj1l) g1, g2⟩
    · rw [if_neg hc]
      refine ⟨frameOn_refl l a (i + 1), ?_⟩
      intro k h1 h2
      by_cases hkj : k = j
      · rcases Decidable.not_and_iff_or_not.mp hc with h | h
        · omega
        · have hx : lless less l j (j - 1) = false := by
            cases hy : lless less l j (j - 1)
            · rfl
            · exact absurd hy h
          subst hkj
          simpa [lless] using hx
      · exact hadj k h1 h2 hkj

/-- The right-shifting loop of `partialInsertionSort_func` touches no
position below its starting point minus one. -/
theorem pisShiftRight_frame [Inhabited α] (less : α → α → Bool) (b c : Nat) :
    ∀ (fuel j : Nat) (l : List α), c + 1 ≤ j → b ≤ l.length →
      FrameOn l (pisShiftRight less b fuel l j) c b := by
  intro fuel
  induction fuel with
  | zero =>
    intro j l hj hbl
    rw [pisShiftRight]
    exact frameOn_refl l c b
  | succ fuel ih =>
    intro j l hj hbl
    rw [pisShiftRight]
    by_cases hc : j < b ∧ lless less l j (j - 1) = true
    · rw [if_pos hc]
      obtain ⟨hc1, hc2⟩ := hc
      exact frameOn_trans
        (lswap_frameOn l (by omega) (by omega) (by omega) (by omega)
          (by omega) (by omega))
        (ih (j + 1) _ (by omega) (by rw [lswap_length]; exact hbl))
    · rw [if_neg hc]
      exact frameOn_refl l c b

/-- The outer loop of `partialInsertionSort_func`: it only permutes
`[a, b)`, and a `true` result means the range is sorted. -/
theorem pisOuter_spec [Inhabited α] (less : α → α → Bool)
    (hasym : ∀ x y, less x y = true → less y x = false) (a b : Nat) :
    ∀ (steps : Nat) (l : List α) (i : Nat), b ≤ l.length → a < i → i ≤ b →
      (0 < a → ∀ k, a ≤ k → k < b → less (lget l k) (lget l (a - 1)) = false) →
      (∀ k, a < k → k < i → less (lget l k) (lget l (k - 1)) = false) →
      FrameOn l (pisOuter less a b steps l i).2 a b ∧
      ((pisOuter less a b steps l i).1 = true →
        AdjSorted less (pisOuter less a b steps l i).2 a b) := by
  intro steps
  induction steps with
  | zero =>
    intro l i hbl hai hib hpredinv hpre
    rw [pisOuter]
    exact ⟨frameOn_refl l a b, fun h => by cases h⟩
  | succ steps ih =>
    intro l i hbl hai hib hpredinv hpre
    rw [pisOuter]
    dsimp only
    obtain ⟨a1, a2, a3, a4⟩ := pisAdvance_spec less l b (b + 1) i hib (by omega)
    by_cases hadv : pisAdvance less l b (b + 1) i = b
    · rw [if_pos hadv]
      refine ⟨frameOn_refl l a b, fun _ => ?_⟩
      intro k h1 h2
      by_cases hk : k < i
      · exact hpre k h1 hk
      · exact a3 k (by omega) (by omega)
    · rw [if_neg hadv]
      by_cases hshort : b - a < 50
      · rw [if_pos hshort]
        exact ⟨frameOn_refl l a b, fun h => by cases h⟩
      · rw [if_neg hshort]
        generalize hI : pisAdvance less l b (b + 1) i = I
        rw [hI] at a1 a2 a3 a4 hadv
        have hIb : I < b := by omega
        have haI : a < I := by omega
        have hstep : less (lget l I) (lget l (I - 1)) = true := by
          rcases a4 with h | h
          · exact absurd h hadv
          · exact h
        have hpre2 : ∀ k, a < k → k < I → less (lget l k) (lget l (k - 1)) = false := by
          intro k h1 h2
          by_cases hk : k < i
          · exact hpre k h1 hk
          · exact a3 k (by omega) h2
        have hIl : I < l.length := by omega
        have hI1l : I - 1 < l.length := by omega
        have hv1 : lget (lswap l I (I - 1)) I = lget l (I - 1) := by
          rw [lget_lswap l I (I - 1) I hIl hI1l, if_pos rfl]
        have hv0 : lget (lswap l I (I - 1)) (I - 1) = lget l I := by
          rw [lget_lswap l I (I - 1) (I - 1) hIl hI1l, if_neg (by omega), if_pos rfl]
        have hvo : ∀ k, k ≠ I → k ≠ I - 1 →
            lget (lswap l I (I - 1)) k = lget l k := by
          intro k h1 h2
          rw [lget_lswap l I (I - 1) k hIl hI1l, if_neg h1, if_neg h2]
        have hswf : FrameOn l (lswap l I (I - 1)) a b :=
          lswap_frameOn l (by omega) (by omega) (by omega) (by omega) hIl hI1l
        have h2 : FrameOn (lswap l I (I - 1))
            (if 2 ≤ I - a then pisShiftLeft less I (lswap l I (I - 1)) (I - 1)
              else lswap l I (I - 1)) a b ∧
            List.Perm
              (if 2 ≤ I - a then pisShiftLeft less I (lswap l I (I - 1)) (I - 1)
                else lswap l I (I - 1)) (lswap l I (I - 1)) ∧
            (∀ k, a < k → k < I →
              less (lget (if 2 ≤ I - a then pisShiftLeft less I (lswap l I (I - 1)) (I - 1)
                  else lswap l I (I - 1)) k)
                (lget (if 2 ≤ I - a then pisShiftLeft less I (lswap l I (I - 1)) (I - 1)
                  else lswap l I (I - 1)) (k - 1)) = false) := by
          by_cases hsl : 2 ≤ I - a
          · rw [if_pos hsl]
            obtain ⟨g1, g2⟩ := pisShiftLeft_spec less hasym a (I - 1) I (I - 1)
              (lswap l I (I - 1)) (by omega) (by omega)
              (by rw [lswap_length]; omega) (by omega)
              (by
                intro ha
                rw [hv0, hvo (a - 1) (by omega) (by omega)]
                exact hpredinv ha I (by omega) (by omega))
              (by
                intro k h1 h2 h3
                rw [hvo k (by omega) h3, hvo (k - 1) (by omega) (by omega)]
                exact hpre2 k h1 (by omega))
              (fun h1 _ => absurd h1 (by omega))
            refine ⟨frameOn_mono g1 (le_refl a) (by omega), pisShiftLeft_perm less I _ _, ?_⟩
            intro k h1 h2
            exact g2 k h1 (by omega)
          · rw [if_neg hsl]
            refine ⟨frameOn_refl _ a b, List.Perm.refl _, ?_⟩
            intro k h1 h2
            omega
        have h3 : FrameOn
            (if 2 ≤ I - a then pisShiftLeft less I (lswap l I (I - 1)) (I - 1)
              else lswap l I (I - 1))
            (if 2 ≤ b - I then pisShiftRight less b b
                (if 2 ≤ I - a then pisShiftLeft less I (lswap l I (I - 1)) (I - 1)
                  else lswap l I (I - 1)) (I + 1)
              else if 2 ≤ I - a then pisShiftLeft less I (lswap l I (I - 1)) (I - 1)
                else lswap l I (I - 1)) I b ∧
            List.Perm
              (if 2 ≤ b - I then pisShiftRight less b b
                  (if 2 ≤ I - a then pisShiftLeft less I (lswap l I (I - 1)) (I - 1)
                    else lswap l I (I - 1)) (I + 1)
                else if 2 ≤ I - a then pisShiftLeft less I (lswap l I (I - 1)) (I - 1)
                  else lswap l I (I - 1))
              (if 2 ≤ I - a then pisShiftLeft less I (lswap l I (I - 1)) (I - 1)
                else lswap l I (I - 1)) := by
          by_cases hsr : 2 ≤ b - I
          · rw [if_pos hsr]
            refine ⟨pisShiftRight_frame less b I b (I + 1) _ (by omega)
              (by rw [h2.1.1, lswap_length]; exact hbl),
              pisShiftRight_perm less b b _ _⟩
          · rw [if_neg hsr]
            exact ⟨frameOn_refl _ I b, List.Perm.refl _⟩
        have hframe : FrameOn l
            (if 2 ≤ b - I then pisShiftRight less b b
                (if 2 ≤ I - a then pisShiftLeft less I (lswap l I (I - 1)) (I - 1)
                  else lswap l I (I - 1)) (I + 1)
              else if 2 ≤ I - a then pisShiftLeft less I (lswap l I (I - 1)) (I - 1)
                else lswap l I (I - 1)) a b :=
          frameOn_trans hswf (frameOn_trans h2.1 (frameOn_mono h3.1 (by omega) (le_refl b)))
        have hperm : List.Perm
            (if 2 ≤ b - I then pisShiftRight less b b
                (if 2 ≤ I - a then pisShiftLeft less I (lswap l I (I - 1)) (I - 1)
                  else lswap l I (I - 1)) (I + 1)
              else if 2 ≤ I - a then pisShiftLeft less I (lswap l I (I - 1)) (I - 1)
                else lswap l I (I - 1)) l :=
          h3.2.trans (h2.2.1.trans (lswap_perm l I (I - 1)))
        have hpairs : ∀ k, a < k → k < I →
            less (lget (if 2 ≤ b - I then pisShiftRight less b b
                (if 2 ≤ I - a then pisShiftLeft less I (lswap l I (I - 1)) (I - 1)
                  else lswap l I (I - 1)) (I + 1)
              else if 2 ≤ I - a then pisShiftLeft less I (lswap l I (I - 1)) (I - 1)
                else lswap l I (I - 1)) k)
              (lget (if 2 ≤ b - I then pisShiftRight less b b
                (if 2 ≤ I - a then pisShiftLeft less I (lswap l I (I - 1)) (I - 1)
                  else lswap l I (I - 1)) (I + 1)
              else if 2 ≤ I - a then pisShiftLeft less I (lswap l I (I - 1)) (I - 1)
                else lswap l I (I - 1)) (k - 1)) = false := by
          intro k hk1 hk2
          rw [h3.1.2.1 k (by omega), h3.1.2.1 (k - 1) (by omega)]
          exact h2.2.2 k hk1 hk2
        obtain ⟨g1, g2⟩ := ih _ I (by rw [hframe.1]; exact hbl) haI (by omega)
          (predInv_transfer hperm hframe (by omega) hbl hpredinv) hpairs
        exact ⟨frameOn_trans hframe g1, g2⟩

/-- `partialInsertionSort_func` only permutes `[a, b)`; a `true`
result means the range was left sorted. -/
theorem partialInsertionSortGo_spec [Inhabited α] (less : α → α → Bool)
    (hasym : ∀ x y, less x y = true → less y x = false) (l : List α) (a b : Nat)
    (hab : a < b) (hbl : b ≤ l.length)
    (hpredinv : 0 < a → ∀ k, a ≤ k → k < b →
      less (lget l k) (lget l (a - 1)) = false) :
    FrameOn l (partialInsertionSortGo less l a b).2 a b ∧
    ((partialInsertionSortGo less l a b).1 = true →
      AdjSorted less (partialInsertionSortGo less l a b).2 a b) := by
  rw [partialInsertionSortGo]
  exact pisOuter_spec less hasym a b 5 l (a + 1) hbl (by omega) (by omega) hpredinv
    (fun k h1 h2 => by omega)

theorem partSkipI_spec [Inhabited α] (less : α → α → Bool) (l : List α) (a : Nat) :
    ∀ (fuel i j : Nat), i ≤ j + 1 → j + 2 ≤ fuel + i →
      i ≤ partSkipI less l a fuel i j ∧
      partSkipI less l a fuel i j ≤ j + 1 ∧
      (∀ k, i ≤ k → k < partSkipI less l a fuel i j →
        less (lget l k) (lget l a) = true) ∧
      (j < partSkipI less l a fuel i j ∨
        less (lget l (partSkipI less l a fuel i j)) (lget l a) = false) := by
  intro fuel
  induction fuel with
  | zero =>
    intro i j h1 h2
    exact absurd h1 (by omega)
  | succ fuel ih =>
    intro i j h1 h2
    rw [partSkipI]
    by_cases hc : i ≤ j ∧ lless less l i a = true
    · rw [if_pos hc]
      obtain ⟨g1, g2, g3, g4⟩ := ih (i + 1) j (by omega) (by omega)
      refine ⟨by omega, g2, ?_, g4⟩
      intro k hk1 hk2
      by_cases hk : k = i
      · subst hk
        simpa [lless] using hc.2
      · exact g3 k (by omega) hk2
    · rw [if_neg hc]
      refine ⟨le_refl i, h1, fun k hk1 hk2 => by omega, ?_⟩
      rcases Decidable.not_and_iff_or_not.mp hc with h | h
      · exact Or.inl (by omega)
      · right
        cases hx : lless less l i a
        · simpa [lless] using hx
        · exact absurd hx h

theorem partSkipJ_spec [Inhabited α] (less : α → α → Bool) (l : List α) (a : Nat) :
    ∀ (fuel i j : Nat), 0 < i → i ≤ j + 1 → j + 2 ≤ fuel + i →
      partSkipJ less l a fuel i j ≤ j ∧
      i - 1 ≤ partSkipJ less l a fuel i j ∧
      (∀ k, partSkipJ less l a fuel i j < k → k ≤ j →
        less (lget l k) (lget l a) = false) ∧
      (partSkipJ less l a fuel i j < i ∨
        less (lget l (partSkipJ less l a fuel i j)) (lget l a) = true) := by
  intro fuel
  induction fuel with
  | zero =>
    intro i j h0 h1 h2
    exact absurd h1 (by omega)
  | succ fuel ih =>
    intro i j h0 h1 h2
    rw [partSkipJ]
    by_cases hc : i ≤ j ∧ ¬ lless less l j a = true
    · rw [if_pos hc]
      have hc1 := hc.1
      obtain ⟨g1, g2, g3, g4⟩ := ih i (j - 1) h0 (by omega) (by omega)
      refine ⟨by omega, g2, ?_, g4⟩
      intro k hk1 hk2
      by_cases hk : k = j
      · subst hk
        have hx : lless less l k a = false := by
          cases hy : lless less l k a
          · rfl
          · exact absurd hy hc.2
        simpa [lless] using hx
      · exact g3 k hk1 (by omega)
    · rw [if_neg hc]
      refine ⟨le_refl j, by omega, fun k hk1 hk2 => by omega, ?_⟩
      rcases Decidable.not_and_iff_or_not.mp hc with h | h
      · exact Or.inl (by omega)
      · right
        have hx := not_not.mp h
        simpa [lless] using hx

/-- The main exchange loop of `partition_func`: maintains the
strictly-less zone `(a, i)` and the not-less zone `(j, b)` and returns
the final pivot slot. -/
theorem partLoop_spec [Inhabited α] (less : α → α → Bool) (a b : Nat) (p : α) :
    ∀ (fuel : Nat) (l : List α) (i j : Nat),
      b ≤ l.length → a < i → i ≤ j + 1 → a ≤ j → j < b → j + 2 ≤ fuel + i →
      lget l a = p →
      (∀ k, a < k → k < i → less (lget l k) p = true) →
      (∀ k, j < k → k < b → less (lget l k) p = false) →
      lget (partLoop less a fuel l i j).1 a = p ∧
      a ≤ (partLoop less a fuel l i j).2 ∧ (partLoop less a fuel l i j).2 < b ∧
      (∀ k, a < k → k ≤ (partLoop less a fuel l i j).2 →
        less (lget (partLoop less a fuel l i j).1 k) p = true) ∧
      (∀ k, (partLoop less a fuel l i j).2 < k → k < b →
        less (lget (partLoop less a fuel l i j).1 k) p = false) ∧
      FrameOn l (partLoop less a fuel l i j).1 (a + 1) b := by
  intro fuel
  induction fuel with
  | zero =>
    intro l i j hbl hai hij haj hjb hfuel hp hzl hzr
    exact absurd hij (by omega)
  | succ fuel ih =>
    intro l i j hbl hai hij haj hjb hfuel hp hzl hzr
    rw [partLoop]
    obtain ⟨s1, s2, s3, s4⟩ := partSkipI_spec less l a (j + 2) i j hij (by omega)
    obtain ⟨t1, t2, t3, t4⟩ := partSkipJ_spec less l a (j + 2)
      (partSkipI less l a (j + 2) i j) j (by omega) s2 (by omega)
    rw [hp] at s3 s4 t3 t4
    by_cases hexit : partSkipJ less l a (j + 2) (partSkipI less l a (j + 2) i j) j <
        partSkipI less l a (j + 2) i j
    · rw [if_pos hexit]
      refine ⟨hp, by omega, by omega, ?_, ?_, frameOn_refl l (a + 1) b⟩
      · intro k hk1 hk2
        by_cases hk : k < i
        · exact hzl k hk1 hk
        · exact s3 k (by omega) (by omega)
      · intro k hk1 hk2
        by_cases hk : k ≤ j
        · exact t3 k hk1 hk
        · exact hzr k (by omega) hk2
    · rw [if_neg hexit]
      have hless_i : less (lget l (partSkipI less l a (j + 2) i j)) p = false := by
        rcases s4 with h | h
        · omega
        · exact h
      have hless_j : less (lget l (partSkipJ less l a (j + 2)
          (partSkipI less l a (j + 2) i j) j)) p = true := by
        rcases t4 with h | h
        · omega
        · exact h
      have hne : partSkipI less l a (j + 2) i j <
          partSkipJ less l a (j + 2) (partSkipI less l a (j + 2) i j) j := by
        rcases Nat.lt_or_ge (partSkipI less l a (j + 2) i j)
            (partSkipJ less l a (j + 2) (partSkipI less l a (j + 2) i j) j) with h | h
        · exact h
        · have he : partSkipI less l a (j + 2) i j =
              partSkipJ less l a (j + 2) (partSkipI less l a (j + 2) i j) j := by
            omega
          rw [← he] at hless_j
          rw [hless_i] at hless_j
          cases hless_j
      generalize hI2 : partSkipI less l a (j + 2) i j = i2 at *
      generalize hJ2 : partSkipJ less l a (j + 2) i2 j = j2 at *
      have hi2l : i2 < l.length := by omega
      have hj2l : j2 < l.length := by omega
      have hv1 : lget (lswap l i2 j2) i2 = lget l j2 := by
        rw [lget_lswap l i2 j2 i2 hi2l hj2l, if_pos rfl]
      have hv0 : lget (lswap l i2 j2) j2 = lget l i2 := by
        rw [lget_lswap l i2 j2 j2 hi2l hj2l, if_neg (by omega), if_pos rfl]
      have hvo : ∀ k, k ≠ i2 → k ≠ j2 → lget (lswap l i2 j2) k = lget l k := by
        intro k h1 h2
        rw [lget_lswap l i2 j2 k hi2l hj2l, if_neg h1, if_neg h2]
      obtain ⟨g0, g1, g2, g3, g4, g5⟩ := ih (lswap l i2 j2) (i2 + 1) (j2 - 1)
        (by rw [lswap_length]; exact hbl) (by omega) (by omega) (by omega)
        (by omega) (by omega)
        (by rw [hvo a (by omega) (by omega)]; exact hp)
        (by
          intro k hk1 hk2
          by_cases hk : k = i2
          · subst hk
            rw [hv1]
            exact hless_j
          · rw [hvo k hk (by omega)]
            by_cases hki : k < i
            · exact hzl k hk1 hki
            · exact s3 k (by omega) (by omega))
        (by
          intro k hk1 hk2
          by_cases hk : k = j2
          · subst hk
            rw [hv0]
            exact hless_i
          · rw [hvo k (by omega) hk]
            by_cases hkj : k ≤ j
            · exact t3 k (by omega) hkj
            · exact hzr k (by omega) hk2)
      exact ⟨g0, g1, g2, g3, g4, frameOn_trans
        (lswap_frameOn l (by omega) (by omega) (by omega) (by omega) hi2l hj2l) g5⟩

/-- `partition_func` places the pivot value at the returned slot with
strictly smaller values before it and not-smaller values after it,
touching only `[a, b)`. -/
theorem partitionGo_spec [Inhabited α] (less : α → α → Bool) (l : List α)
    (a b pivot : Nat) (hab : a < b) (hbl : b ≤ l.length)
    (hpa : a ≤ pivot) (hpb : pivot < b) :
    a ≤ (partitionGo less l a b pivot).2.1 ∧
    (partitionGo less l a b pivot).2.1 < b ∧
    lget (partitionGo less l a b pivot).1 ((partitionGo less l a b pivot).2.1) =
      lget l pivot ∧
    (∀ k, a ≤ k → k < (partitionGo less l a b pivot).2.1 →
      less (lget (partitionGo less l a b pivot).1 k) (lget l pivot) = true) ∧
    (∀ k, (partitionGo less l a b pivot).2.1 < k → k < b →
      less (lget (partitionGo less l a b pivot).1 k) (lget l pivot) = false) ∧
    FrameOn l (partitionGo less l a b pivot).1 a b := by
  rw [partitionGo]
  dsimp only
  have hal : a < l.length := by omega
  have hpl : pivot < l.length := by omega
  have hp1 : lget (lswap l a pivot) a = lget l pivot := by
    rw [lget_lswap l a pivot a hal hpl, if_pos rfl]
  have hswf : FrameOn l (lswap l a pivot) a b :=
    lswap_frameOn l (le_refl a) hab hpa hpb hal hpl
  have hlen1 : b ≤ (lswap l a pivot).length := by rw [lswap_length]; exact hbl
  obtain ⟨s1, s2, s3, s4⟩ := partSkipI_spec less (lswap l a pivot) a (b - 1 + 2)
    (a + 1) (b - 1) (by omega) (by omega)
  obtain ⟨t1, t2, t3, t4⟩ := partSkipJ_spec less (lswap l a pivot) a (b - 1 + 2)
    (partSkipI less (lswap l a pivot) a (b - 1 + 2) (a + 1) (b - 1)) (b - 1)
    (by omega) s2 (by omega)
  rw [hp1] at s3 s4 t3 t4
  by_cases hexit : partSkipJ less (lswap l a pivot) a (b - 1 + 2)
      (partSkipI less (lswap l a pivot) a (b - 1 + 2) (a + 1) (b - 1)) (b - 1) <
      partSkipI less (lswap l a pivot) a (b - 1 + 2) (a + 1) (b - 1)
  · rw [if_pos hexit]
    generalize hI2 : partSkipI less (lswap l a pivot) a (b - 1 + 2) (a + 1) (b - 1) =
      i2 at *
    generalize hJ2 : partSkipJ less (lswap l a pivot) a (b - 1 + 2) i2 (b - 1) =
      j2 at *
    have hj2l : j2 < l.length := by omega
    dsimp only
    have hvmid : lget (lswap (lswap l a pivot) j2 a) j2 = lget l pivot := by
      rw [lget_lswap (lswap l a pivot) j2 a j2 (by omega) (by omega), if_pos rfl, hp1]
    refine ⟨by omega, by omega, hvmid, ?_, ?_, ?_⟩
    · intro k hk1 hk2
      by_cases hka : k = a
      · rw [lget_lswap (lswap l a pivot) j2 a k (by omega) (by omega),
          if_neg (by omega), if_pos hka]
        exact s3 j2 (by omega) (by omega)
      · rw [lget_lswap (lswap l a pivot) j2 a k (by omega) (by omega),
          if_neg (by omega), if_neg hka]
        exact s3 k (by omega) (by omega)
    · intro k hk1 hk2
      rw [lget_lswap (lswap l a pivot) j2 a k (by omega) (by omega),
        if_neg (by omega), if_neg (by omega)]
      exact t3 k hk1 (by omega)
    · exact frameOn_trans hswf
        (lswap_frameOn (lswap l a pivot) (by omega) (by omega) (le_refl a) hab
          (by omega) (by omega))
  · rw [if_neg hexit]
    have hless_i : less (lget (lswap l a pivot)
        (partSkipI less (lswap l a pivot) a (b - 1 + 2) (a + 1) (b - 1)))
        (lget l pivot) = false := by
      rcases s4 with h | h
      · omega
      · exact h
    have hless_j : less (lget (lswap l a pivot)
        (partSkipJ less (lswap l a pivot) a (b - 1 + 2)
          (partSkipI less (lswap l a pivot) a (b - 1 + 2) (a + 1) (b - 1)) (b - 1)))
        (lget l pivot) = true := by
      rcases t4 with h | h
      · omega
      · exact h
    have hne : partSkipI less (lswap l a pivot) a (b - 1 + 2) (a + 1) (b - 1) <
        partSkipJ less (lswap l a pivot) a (b - 1 + 2)
          (partSkipI less (lswap l a pivot) a (b - 1 + 2) (a + 1) (b - 1)) (b - 1) := by
      rcases Nat.lt_or_ge (partSkipI less (lswap l a pivot) a (b - 1 + 2) (a + 1)
          (b - 1)) (partSkipJ less (lswap l a pivot) a (b - 1 + 2)
          (partSkipI less (lswap l a pivot) a (b - 1 + 2) (a + 1) (b - 1)) (b - 1))
        with h | h
      · exact h
      · have he : partSkipI less (lswap l a pivot) a (b - 1 + 2) (a + 1) (b - 1) =
            partSkipJ less (lswap l a pivot) a (b - 1 + 2)
              (partSkipI less (lswap l a pivot) a (b - 1 + 2) (a + 1) (b - 1))
              (b - 1) := by
          omega
        rw [← he] at hless_j
        rw [hless_i] at hless_j
        cases hless_j
    generalize hI2 : partSkipI less (lswap l a pivot) a (b - 1 + 2) (a + 1) (b - 1) =
      i2 at *
    generalize hJ2 : partSkipJ less (lswap l a pivot) a (b - 1 + 2) i2 (b - 1) =
      j2 at *
    have hi2l : i2 < l.length := by omega
    have hj2l : j2 < l.length := by omega
    have hlen2 : i2 < (lswap l a pivot).length := by rw [lswap_length]; exact hi2l
    have hlen3 : j2 < (lswap l a pivot).length := by rw [lswap_length]; exact hj2l
    have hv1 : lget (lswap (lswap l a pivot) i2 j2) i2 = lget (lswap l a pivot) j2 := by
      rw [lget_lswap (lswap l a pivot) i2 j2 i2 hlen2 hlen3, if_pos rfl]
    have hv0 : lget (lswap (lswap l a pivot) i2 j2) j2 = lget (lswap l a pivot) i2 := by
      rw [lget_lswap (lswap l a pivot) i2 j2 j2 hlen2 hlen3, if_neg (by omega),
        if_pos rfl]
    have hvo : ∀ k, k ≠ i2 → k ≠ j2 →
        lget (lswap (lswap l a pivot) i2 j2) k = lget (lswap l a pivot) k := by
      intro k h1 h2
      rw [lget_lswap (lswap l a pivot) i2 j2 k hlen2 hlen3, if_neg h1, if_neg h2]
    obtain ⟨g0, g1, g2, g3, g4, g5⟩ := partLoop_spec less a b (lget l pivot) (b + 2)
      (lswap (lswap l a pivot) i2 j2) (i2 + 1) (j2 - 1)
      (by rw [lswap_length, lswap_length]; exact hbl) (by omega) (by omega)
      (by omega) (by omega) (by omega)
      (by rw [hvo a (by omega) (by omega)]; exact hp1)
      (by
        intro k hk1 hk2
        by_cases hk : k = i2
        · subst hk
          rw [hv1]
          exact hless_j
        · rw [hvo k hk (by omega)]
          exact s3 k (by omega) (by omega))
      (by
        intro k hk1 hk2
        by_cases hk : k = j2
        · subst hk
          rw [hv0]
          exact hless_i
        · rw [hvo k (by omega) hk]
          exact t3 k (by omega) (by omega))
    generalize hL : partLoop less a (b + 2) (lswap (lswap l a pivot) i2 j2)
      (i2 + 1) (j2 - 1) = L at *
    obtain ⟨Ldata, jf⟩ := L
    dsimp only at g0 g1 g2 g3 g4 g5 ⊢
    have hLlen : b ≤ Ldata.length := by
      have := g5.1
      rw [this, lswap_length, lswap_length]
      exact hbl
    have hvmid : lget (lswap Ldata jf a) jf = lget l pivot := by
      rw [lget_lswap Ldata jf a jf (by omega) (by omega), if_pos rfl]
      exact g0
    refine ⟨g1, g2, hvmid, ?_, ?_, ?_⟩
    · intro k hk1 hk2
      by_cases hka : k = a
      · rw [lget_lswap Ldata jf a k (by omega) (by omega), if_neg (by omega),
          if_pos hka]
        exact g3 jf (by omega) (le_refl jf)
      · rw [lget_lswap Ldata jf a k (by omega) (by omega), if_neg (by omega),
          if_neg hka]
        exact g3 k (by omega) (by omega)
    · intro k hk1 hk2
      rw [lget_lswap Ldata jf a k (by omega) (by omega), if_neg (by omega),
        if_neg (by omega)]
      exact g4 k hk1 hk2
    · refine frameOn_trans hswf (frameOn_trans
        (lswap_frameOn (lswap l a pivot) (by omega) (by omega) (by omega) (by omega)
          hlen2 hlen3)
        (frameOn_trans (frameOn_mono g5 (by omega) (le_refl b)) ?_))
      exact lswap_frameOn Ldata (by omega) (by omega) (le_refl a) hab
        (by omega) (by omega)

theorem peSkipI_spec [Inhabited α] (less : α → α → Bool) (l : List α) (a : Nat) :
    ∀ (fuel i j : Nat), i ≤ j + 1 → j + 2 ≤ fuel + i →
      i ≤ peSkipI less l a fuel i j ∧
      peSkipI less l a fuel i j ≤ j + 1 ∧
      (∀ k, i ≤ k → k < peSkipI less l a fuel i j →
        less (lget l a) (lget l k) = false) ∧
      (j < peSkipI less l a fuel i j ∨
        less (lget l a) (lget l (peSkipI less l a fuel i j)) = true) := by
  intro fuel
  induction fuel with
  | zero =>
    intro i j h1 h2
    exact absurd h1 (by omega)
  | succ fuel ih =>
    intro i j h1 h2
    rw [peSkipI]
    by_cases hc : i ≤ j ∧ ¬ lless less l a i = true
    · rw [if_pos hc]
      obtain ⟨g1, g2, g3, g4⟩ := ih (i + 1) j (by omega) (by omega)
      refine ⟨by omega, g2, ?_, g4⟩
      intro k hk1 hk2
      by_cases hk : k = i
      · subst hk
        have hx : lless less l a k = false := by
          cases hy : lless less l a k
          · rfl
          · exact absurd hy hc.2
        simpa [lless] using hx
      · exact g3 k (by omega) hk2
    · rw [if_neg hc]
      refine ⟨le_refl i, h1, fun k hk1 hk2 => by omega, ?_⟩
      rcases Decidable.not_and_iff_or_not.mp hc with h | h
      · exact Or.inl (by omega)
      · right
        have hx := not_not.mp h
        simpa [lless] using hx

theorem peSkipJ_spec [Inhabited α] (less : α → α → Bool) (l : List α) (a : Nat) :
    ∀ (fuel i j : Nat), 0 < i → i ≤ j + 1 → j + 2 ≤ fuel + i →
      peSkipJ less l a fuel i j ≤ j ∧
      i - 1 ≤ peSkipJ less l a fuel i j ∧
      (∀ k, peSkipJ less l a fuel i j < k → k ≤ j →
        less (lget l a) (lget l k) = true) ∧
      (peSkipJ less l a fuel i j < i ∨
        less (lget l a) (lget l (peSkipJ less l a fuel i j)) = false) := by
  intro fuel
  induction fuel with
  | zero =>
    intro i j h0 h1 h2
    exact absurd h1 (by omega)
  | succ fuel ih =>
    intro i j h0 h1 h2
    rw [peSkipJ]
    by_cases hc : i ≤ j ∧ lless less l a j = true
    · rw [if_pos hc]
      have hc1 := hc.1
      obtain ⟨g1, g2, g3, g4⟩ := ih i (j - 1) h0 (by omega) (by omega)
      refine ⟨by omega, g2, ?_, g4⟩
      intro k hk1 hk2
      by_cases hk : k = j
      · subst hk
        simpa [lless] using hc.2
      · exact g3 k hk1 (by omega)
    · rw [if_neg hc]
      refine ⟨le_refl j, by omega, fun k hk1 hk2 => by omega, ?_⟩
      rcases Decidable.not_and_iff_or_not.mp hc with h | h
      · exact Or.inl (by omega)
      · right
        cases hx : lless less l a j
        · simpa [lless] using hx
        · exact absurd hx h

/-- The exchange loop of `partitionEqual_func`: grows the
equal-to-pivot zone `[a, i)` and the greater-than zone `(j, b)`. -/
theorem peLoop_spec [Inhabited α] (less : α → α → Bool) (a b : Nat) (p : α) :
    ∀ (fuel : Nat) (l : List α) (i j : Nat),
      b ≤ l.length → a < i → i ≤ j + 1 → a ≤ j → j < b → j + 2 ≤ fuel + i →
      lget l a = p →
      (∀ k, a ≤ k → k < i → less p (lget l k) = false) →
      (∀ k, j < k → k < b → less p (lget l k) = true) →
      lget (peLoop less a fuel l i j).1 a = p ∧
      a < (peLoop less a fuel l i j).2 ∧ (peLoop less a fuel l i j).2 ≤ b ∧
      (∀ k, a ≤ k → k < (peLoop less a fuel l i j).2 →
        less p (lget (peLoop less a fuel l i j).1 k) = false) ∧
      (∀ k, (peLoop less a fuel l i j).2 ≤ k → k < b →
        less p (lget (peLoop less a fuel l i j).1 k) = true) ∧
      FrameOn l (peLoop less a fuel l i j).1 (a + 1) b := by
  intro fuel
  induction fuel with
  | zero =>
    intro l i j hbl hai hij haj hjb hfuel hp hzl hzr
    exact absurd hij (by omega)
  | succ fuel ih =>
    intro l i j hbl hai hij haj hjb hfuel hp hzl hzr
    rw [peLoop]
    obtain ⟨s1, s2, s3, s4⟩ := peSkipI_spec less l a (j + 2) i j hij (by omega)
    obtain ⟨t1, t2, t3, t4⟩ := peSkipJ_spec less l a (j + 2)
      (peSkipI less l a (j + 2) i j) j (by omega) s2 (by omega)
    rw [hp] at s3 s4 t3 t4
    by_cases hexit : peSkipJ less l a (j + 2) (peSkipI less l a (j + 2) i j) j <
        peSkipI less l a (j + 2) i j
    · rw [if_pos hexit]
      refine ⟨hp, by omega, by omega, ?_, ?_, frameOn_refl l (a + 1) b⟩
      · intro k hk1 hk2
        by_cases hk : k < i
        · exact hzl k hk1 hk
        · exact s3 k (by omega) (by omega)
      · intro k hk1 hk2
        by_cases hk : k ≤ j
        · exact t3 k (by omega) hk
        · exact hzr k (by omega) hk2
    · rw [if_neg hexit]
      have hgt_i : less p (lget l (peSkipI less l a (j + 2) i j)) = true := by
        rcases s4 with h | h
        · omega
        · exact h
      have hle_j : less p (lget l (peSkipJ less l a (j + 2)
          (peSkipI less l a (j + 2) i j) j)) = false := by
        rcases t4 with h | h
        · omega
        · exact h
      have hne : peSkipI less l a (j + 2) i j <
          peSkipJ less l a (j + 2) (peSkipI less l a (j + 2) i j) j := by
        rcases Nat.lt_or_ge (peSkipI less l a (j + 2) i j)
            (peSkipJ less l a (j + 2) (peSkipI less l a (j + 2) i j) j) with h | h
        · exact h
        · have he : peSkipI less l a (j + 2) i j =
              peSkipJ less l a (j + 2) (peSkipI less l a (j + 2) i j) j := by
            omega
          rw [← he] at hle_j
          rw [hgt_i] at hle_j
          cases hle_j
      generalize hI2 : peSkipI less l a (j + 2) i j = i2 at *
      generalize hJ2 : peSkipJ less l a (j + 2) i2 j = j2 at *
      have hi2l : i2 < l.length := by omega
      have hj2l : j2 < l.length := by omega
      have hv1 : lget (lswap l i2 j2) i2 = lget l j2 := by
        rw [lget_lswap l i2 j2 i2 hi2l hj2l, if_pos rfl]
      have hv0 : lget (lswap l i2 j2) j2 = lget l i2 := by
        rw [lget_lswap l i2 j2 j2 hi2l hj2l, if_neg (by omega), if_pos rfl]
      have hvo : ∀ k, k ≠ i2 → k ≠ j2 → lget (lswap l i2 j2) k = lget l k := by
        intro k h1 h2
        rw [lget_lswap l i2 j2 k hi2l hj2l, if_neg h1, if_neg h2]
      obtain ⟨g0, g1, g2, g3, g4, g5⟩ := ih (lswap l i2 j2) (i2 + 1) (j2 - 1)
        (by rw [lswap_length]; exact hbl) (by omega) (by omega) (by omega)
        (by omega) (by omega)
        (by rw [hvo a (by omega) (by omega)]; exact hp)
        (by
          intro k hk1 hk2
          by_cases hk : k = i2
          · subst hk
            rw [hv1]
            exact hle_j
          · rw [hvo k hk (by omega)]
            by_cases hki : k < i
            · exact hzl k hk1 hki
            · exact s3 k (by omega) (by omega))
        (by
          intro k hk1 hk2
          by_cases hk : k = j2
          · subst hk
            rw [hv0]
            exact hgt_i
          · rw [hvo k (by omega) hk]
            by_cases hkj : k ≤ j
            · exact t3 k (by omega) hkj
            · exact hzr k (by omega) hk2)
      exact ⟨g0, g1, g2, g3, g4, frameOn_trans
        (lswap_frameOn l (by omega) (by omega) (by omega) (by omega) hi2l hj2l) g5⟩

/-- `partitionEqual_func` moves the values not above the pivot to
`[a, newpivot)` and the values above it to `[newpivot, b)`, touching
only `[a, b)`. -/
theorem partitionEqualGo_spec [Inhabited α] (less : α → α → Bool) (l : List α)
    (a b pivot : Nat) (hab : a < b) (hbl : b ≤ l.length)
    (hpa : a ≤ pivot) (hpb : pivot < b)
    (hirr : ∀ x : α, less x x = false) :
    a < (partitionEqualGo less l a b pivot).2 ∧
    (partitionEqualGo less l a b pivot).2 ≤ b ∧
    (∀ k, a ≤ k → k < (partitionEqualGo less l a b pivot).2 →
      less (lget l pivot) (lget (partitionEqualGo less l a b pivot).1 k) = false) ∧
    (∀ k, (partitionEqualGo less l a b pivot).2 ≤ k → k < b →
      less (lget l pivot) (lget (partitionEqualGo less l a b pivot).1 k) = true) ∧
    FrameOn l (partitionEqualGo less l a b pivot).1 a b := by
  rw [partitionEqualGo]
  have hal : a < l.length := by omega
  have hpl : pivot < l.length := by omega
  have hp1 : lget (lswap l a pivot) a = lget l pivot := by
    rw [lget_lswap l a pivot a hal hpl, if_pos rfl]
  have hswf : FrameOn l (lswap l a pivot) a b :=
    lswap_frameOn l (le_refl a) hab hpa hpb hal hpl
  obtain ⟨g0, g1, g2, g3, g4, g5⟩ := peLoop_spec less a b (lget l pivot) (b + 2)
    (lswap l a pivot) (a + 1) (b - 1)
    (by rw [lswap_length]; exact hbl) (by omega) (by omega) (by omega) (by omega)
    (by omega) hp1
    (by
      intro k hk1 hk2
      have hka : k = a := by omega
      rw [hka, hp1]
      exact hirr _)
    (fun k hk1 hk2 => by omega)
  exact ⟨g1, g2, g3, g4, frameOn_trans hswf
    (frameOn_mono g5 (by omega) (le_refl b))⟩

/-- The randomised offset of `breakPatterns_func` stays inside the
range. -/
theorem bp_other_lt (len r : Nat) (hlen : 1 ≤ len) :
    (if len ≤ r &&& (nextPowerOfTwo len - 1) then
      (r &&& (nextPowerOfTwo len - 1)) - len else r &&& (nextPowerOfTwo len - 1)) <
      len := by
  have h2 : nextPowerOfTwo len ≤ 2 * len := by
    rw [nextPowerOfTwo, bitsLen, if_neg (by omega), pow_succ]
    have h3 := Nat.log2_self_le (by omega : len ≠ 0)
    omega
  have h1 : r &&& (nextPowerOfTwo len - 1) ≤ 2 * len - 1 :=
    le_trans Nat.and_le_right (by omega)
  split <;> omega

theorem breakPatternsGo_frame [Inhabited α] (l : List α) (a b : Nat)
    (hbl : b ≤ l.length) : FrameOn l (breakPatternsGo l a b) a b := by
  rw [breakPatternsGo]
  by_cases hc : 8 ≤ b - a
  · rw [if_pos hc]
    dsimp only
    have ho1 := bp_other_lt (b - a) (xorshiftNext (b - a)) (by omega)
    have ho2 := bp_other_lt (b - a) (xorshiftNext (xorshiftNext (b - a))) (by omega)
    have ho3 := bp_other_lt (b - a)
      (xorshiftNext (xorshiftNext (xorshiftNext (b - a)))) (by omega)
    exact frameOn_trans (frameOn_trans
      (lswap_frameOn l (by omega) (by omega) (by omega) (by omega)
        (by omega) (by omega))
      (lswap_frameOn _ (by omega) (by omega) (by omega) (by omega)
        (by rw [lswap_length]; omega) (by rw [lswap_length]; omega)))
      (lswap_frameOn _ (by omega) (by omega) (by omega) (by omega)
        (by rw [lswap_length, lswap_length]; omega)
        (by rw [lswap_length, lswap_length]; omega))
  · rw [if_neg hc]
    exact frameOn_refl l a b

theorem reverseLoop_frame [Inhabited α] (a b : Nat) :
    ∀ (fuel : Nat) (l : List α) (i j : Nat), a ≤ i → j < b → b ≤ l.length →
      FrameOn l (reverseLoop fuel l i j) a b := by
  intro fuel
  induction fuel with
  | zero =>
    intro l i j h1 h2 h3
    rw [reverseLoop]
    exact frameOn_refl l a b
  | succ fuel ih =>
    intro l i j h1 h2 h3
    rw [reverseLoop]
    by_cases hc : i < j
    · rw [if_pos hc]
      exact frameOn_trans
        (lswap_frameOn l h1 (by omega) (by omega) h2 (by omega) (by omega))
        (ih _ (i + 1) (j - 1) (by omega) (by omega) (by rw [lswap_length]; exact h3))
    · rw [if_neg hc]
      exact frameOn_refl l a b

theorem reverseRangeGo_frame [Inhabited α] (l : List α) (a b : Nat)
    (hab : a < b) (hbl : b ≤ l.length) : FrameOn l (reverseRangeGo l a b) a b := by
  rw [reverseRangeGo]
  exact reverseLoop_frame a b (b - a) l a (b - 1) (le_refl a) (by omega) hbl

theorem order2Go_mem [Inhabited α] (less : α → α → Bool) (l : List α) (x y s : Nat) :
    ((order2Go less l x y s).1 = x ∨ (order2Go less l x y s).1 = y) ∧
    ((order2Go less l x y s).2.1 = x ∨ (order2Go less l x y s).2.1 = y) := by
  rw [order2Go]
  split
  · exact ⟨Or.inr rfl, Or.inl rfl⟩
  · exact ⟨Or.inl rfl, Or.inr rfl⟩

theorem medianGo_mem [Inhabited α] (less : α → α → Bool) (l : List α)
    (x y z s : Nat) :
    (medianGo less l x y z s).1 = x ∨ (medianGo less l x y z s).1 = y ∨
      (medianGo less l x y z s).1 = z := by
  rw [medianGo]
  simp only [order2Go]
  split <;> split <;> (try split) <;> simp

theorem medianAdjacentGo_mem [Inhabited α] (less : α → α → Bool) (l : List α)
    (i s : Nat) :
    (medianAdjacentGo less l i s).1 = i - 1 ∨ (medianAdjacentGo less l i s).1 = i ∨
      (medianAdjacentGo less l i s).1 = i + 1 := by
  rw [medianAdjacentGo]
  exact medianGo_mem less l (i - 1) i (i + 1) s

/-- `choosePivot_func` returns an index inside `[a, b)` whenever the
range is longer than `maxInsertion`. -/
theorem choosePivotGo_range [Inhabited α] (less : α → α → Bool) (l : List α)
    (a b : Nat) (h13 : 12 < b - a) :
    a ≤ (choosePivotGo less l a b).1 ∧ (choosePivotGo less l a b).1 < b := by
  rw [choosePivotGo]
  dsimp only
  rw [if_pos (show 8 ≤ b - a by omega)]
  by_cases h50 : 50 ≤ b - a
  · rw [if_pos h50]
    rcases hA : medianAdjacentGo less l (a + (b - a) / 4 * 1) 0 with ⟨i1, s1⟩
    have hm1 := medianAdjacentGo_mem less l (a + (b - a) / 4 * 1) 0
    rw [hA] at hm1
    dsimp only
    rcases hB : medianAdjacentGo less l (a + (b - a) / 4 * 2) s1 with ⟨i2, s2⟩
    have hm2 := medianAdjacentGo_mem less l (a + (b - a) / 4 * 2) s1
    rw [hB] at hm2
    dsimp only
    rcases hC : medianAdjacentGo less l (a + (b - a) / 4 * 3) s2 with ⟨i3, s3⟩
    have hm3 := medianAdjacentGo_mem less l (a + (b - a) / 4 * 3) s2
    rw [hC] at hm3
    dsimp only
    rcases hM : medianGo less l i1 i2 i3 s3 with ⟨i4, s4⟩
    have hm4 := medianGo_mem less l i1 i2 i3 s3
    rw [hM] at hm4
    dsimp only
    dsimp only at hm1 hm2 hm3 hm4
    rcases hm4 with h | h | h <;>
      [rcases hm1 with h1 | h1 | h1; rcases hm2 with h1 | h1 | h1;
        rcases hm3 with h1 | h1 | h1] <;> omega
  · rw [if_neg h50]
    rcases hM : medianGo less l (a + (b - a) / 4 * 1) (a + (b - a) / 4 * 2)
      (a + (b - a) / 4 * 3) 0 with ⟨i4, s4⟩
    have hm4 := medianGo_mem less l (a + (b - a) / 4 * 1) (a + (b - a) / 4 * 2)
      (a + (b - a) / 4 * 3) 0
    rw [hM] at hm4
    dsimp only
    dsimp only at hm4
    rcases hm4 with h | h | h <;> omega

theorem natListLt_trans :
    ∀ a b c : List Nat, natListLt a b = true → natListLt b c = true →
      natListLt a c = true := by
  intro a
  induction a with
  | nil =>
    intro b c hab hbc
    cases b with
    | nil => cases hab
    | cons y bs =>
      cases c with
      | nil => cases hbc
      | cons z cs => rfl
  | cons x as ih =>
    intro b c hab hbc
    cases b with
    | nil => cases hab
    | cons y bs =>
      cases c with
      | nil => cases hbc
      | cons z cs =>
        rw [natListLt] at hab hbc ⊢
        by_cases hxy : x < y
        · by_cases hyz : y < z
          · simp [show x < z by omega]
          · by_cases hzy : z < y
            · simp [hyz, hzy] at hbc
            · simp [show x < z by omega]
        · by_cases hyx : y < x
          · simp [hxy, hyx] at hab
          · by_cases hyz : y < z
            · simp [show x < z by omega]
            · by_cases hzy : z < y
              · simp [hyz, hzy] at hbc
              · simp [hxy, hyx] at hab
                simp [hyz, hzy] at hbc
                simp [show ¬ x < z by omega, show ¬ z < x by omega]
                exact ih bs cs hab hbc

theorem recAfter_trans (a b c : BackupRecord) :
    recAfter a b = true → recAfter b c = true → recAfter a c = true := by
  intro h1 h2
  exact natListLt_trans _ _ _ h2 h1

/-- Gluing the two recursive ranges of the partition branch of
`pdqsort_func` when the left side `[a, mid)` was sorted first (in
`r1`) and then the right side `[mid + 1, b)` (in `r2`). -/
theorem pdq_glue_left_first [Inhabited α] {less : α → α → Bool}
    (hasym : ∀ x y, less x y = true → less y x = false)
    {l4 r1 r2 : List α} {a mid b : Nat} {p : α}
    (hmidv : lget l4 mid = p)
    (hzl : ∀ k, a ≤ k → k < mid → less (lget l4 k) p = true)
    (hzr : ∀ k, mid < k → k < b → less (lget l4 k) p = false)
    (hmb : mid < b) (hbl4 : b ≤ l4.length)
    (q1f : FrameOn l4 r1 a mid) (q1adj : AdjSorted less r1 a mid)
    (q1perm : List.Perm r1 l4)
    (q2f : FrameOn r1 r2 (mid + 1) b) (q2adj : AdjSorted less r2 (mid + 1) b)
    (q2perm : List.Perm r2 r1) :
    AdjSorted less r2 a b := by
  have hbr1 : b ≤ r1.length := by rw [q1f.1]; exact hbl4
  have hbr2 : b ≤ r2.length := by rw [q2f.1]; exact hbr1
  have hml4 : mid ≤ l4.length := by omega
  have hmr1 : mid ≤ r1.length := by omega
  have hr2mid : lget r2 mid = p := by
    rw [q2f.2.1 mid (by omega), q1f.2.2 mid (le_refl mid), hmidv]
  intro k hk1 hk2
  by_cases hk3 : mid + 1 < k
  · exact q2adj k hk3 hk2
  · by_cases hk4 : k = mid + 1
    · rw [hk4, Nat.add_sub_cancel, hr2mid]
      exact forall_lget_of_segPerm (fun x => less x p = false)
        (seg_perm_of_frame q2perm q2f (by omega) hbr1) hbr1 hbr2
        (fun k' h1 h2 => by
          rw [q1f.2.2 k' (by omega)]
          exact hzr k' (by omega) h2)
        (mid + 1) (le_refl _) (by omega)
    · by_cases hke : k = mid
      · rw [hke, hr2mid, q2f.2.1 (mid - 1) (by omega)]
        exact forall_lget_of_segPerm (fun x => less p x = false)
          (seg_perm_of_frame q1perm q1f (by omega) hml4) hml4 hmr1
          (fun k' h1 h2 => hasym _ _ (hzl k' h1 h2))
          (mid - 1) (by omega) (by omega)
      · have hkm : k < mid := by omega
        rw [q2f.2.1 k (by omega), q2f.2.1 (k - 1) (by omega)]
        exact q1adj k hk1 hkm

/-- Gluing the two recursive ranges of the partition branch of
`pdqsort_func` when the right side `[mid + 1, b)` was sorted first (in
`r1`) and then the left side `[a, mid)` (in `r2`). -/
theorem pdq_glue_right_first [Inhabited α] {less : α → α → Bool}
    (hasym : ∀ x y, less x y = true → less y x = false)
    {l4 r1 r2 : List α} {a mid b : Nat} {p : α}
    (hmidv : lget l4 mid = p)
    (hzl : ∀ k, a ≤ k → k < mid → less (lget l4 k) p = true)
    (hzr : ∀ k, mid < k → k < b → less (lget l4 k) p = false)
    (hmb : mid < b) (hbl4 : b ≤ l4.length)
    (q1f : FrameOn l4 r1 (mid + 1) b) (q1adj : AdjSorted less r1 (mid + 1) b)
    (q1perm : List.Perm r1 l4)
    (q2f : FrameOn r1 r2 a mid) (q2adj : AdjSorted less r2 a mid)
    (q2perm : List.Perm r2 r1) :
    AdjSorted less r2 a b := by
  have hbr1 : b ≤ r1.length := by rw [q1f.1]; exact hbl4
  have hmr1 : mid ≤ r1.length := by omega
  have hmr2 : mid ≤ r2.length := by rw [q2f.1]; exact hmr1
  have hr1mid : lget r1 mid = p := by
    rw [q1f.2.1 mid (by omega), hmidv]
  have hr2mid : lget r2 mid = p := by
    rw [q2f.2.2 mid (le_refl mid), hr1mid]
  intro k hk1 hk2
  by_cases hk3 : k < mid
  · exact q2adj k hk1 hk3
  · by_cases hke : k = mid
    · rw [hke, hr2mid]
      exact forall_lget_of_segPerm (fun x => less p x = false)
        (seg_perm_of_frame q2perm q2f (by omega) hmr1) hmr1 hmr2
        (fun k' h1 h2 => by
          rw [q1f.2.1 k' (by omega)]
          exact hasym _ _ (hzl k' h1 h2))
        (mid - 1) (by omega) (by omega)
    · by_cases hk5 : k = mid + 1
      · rw [hk5, Nat.add_sub_cancel, q2f.2.2 (mid + 1) (by omega), hr2mid]
        exact forall_lget_of_segPerm (fun x => less x p = false)
          (seg_perm_of_frame q1perm q1f (by omega) hbl4) hbl4 hbr1
          (fun k' h1 h2 => hzr k' (by omega) h2)
          (mid + 1) (le_refl _) (by omega)
      · have hk6 : mid + 1 < k := by omega
        rw [q2f.2.2 k (by omega), q2f.2.2 (k - 1) (by omega)]
        exact q1adj k hk6 hk2

/-- The recursive body of `pdqsort_func` establishes adjacent
sortedness on `[a, b)` and leaves the list untouched outside, for
every asymmetric and negatively transitive comparator, whenever the
counter dominates the range length and every element of the range is
not below the element preceding the range (the invariant backing the
`a > 0 && !less(a-1, pivot)` fast path). -/
theorem pdqsortLoop_spec [Inhabited α] (less : α → α → Bool)
    (hasym : ∀ x y, less x y = true → less y x = false)
    (hneg : ∀ x y z, less x y = false → less y z = false → less x z = false) :
    ∀ (fuel : Nat) (l : List α) (a b limit : Nat) (wb wp : Bool),
      b ≤ l.length → b - a ≤ fuel →
      (0 < a → ∀ k, a ≤ k → k < b →
        less (lget l k) (lget l (a - 1)) = false) →
      FrameOn l (pdqsortLoop less fuel l a b limit wb wp) a b ∧
      AdjSorted less (pdqsortLoop less fuel l a b limit wb wp) a b := by
  intro fuel
  induction fuel with
  | zero =>
    intro l a b limit wb wp hbl hfuel hpred
    exact ⟨frameOn_refl l a b, fun k h1 h2 => by omega⟩
  | succ fuel ih =>
    intro l a b limit wb wp hbl hfuel hpred
    rw [pdqsortLoop_succ]
    split
    · exact insertionSortGo_spec less hasym l a b hbl
    · rename_i h12
      split
      · exact heapSortGo_spec less hasym hneg l a b hbl
      · rename_i hlim
        have hab : a < b := by omega
        rcases hp : (if wb = false then (breakPatternsGo l a b, limit - 1)
            else (l, limit)) with ⟨l1, limit1⟩
        have hf1 : FrameOn l l1 a b ∧ List.Perm l1 l := by
          split at hp
          · cases hp
            exact ⟨breakPatternsGo_frame l a b hbl, breakPatternsGo_perm l a b⟩
          · cases hp
            exact ⟨frameOn_refl l a b, List.Perm.refl l⟩
        have hbl1 : b ≤ l1.length := by rw [hf1.1.1]; exact hbl
        have hpred1 := predInv_transfer hf1.2 hf1.1 (by omega) hbl hpred
        dsimp only
        rcases hcp : choosePivotGo less l1 a b with ⟨pivot1, hint1⟩
        have hpiv1 : a ≤ pivot1 ∧ pivot1 < b := by
          have h := choosePivotGo_range less l1 a b (by omega)
          rw [hcp] at h
          exact h
        dsimp only
        rcases hq : (if hint1 = SortedHint.decreasing then
            (reverseRangeGo l1 a b, b - 1 - (pivot1 - a), SortedHint.increasing)
          else (l1, pivot1, hint1)) with ⟨l2, pivot2, hint2⟩
        have hf2 : FrameOn l1 l2 a b ∧ List.Perm l2 l1 ∧
            a ≤ pivot2 ∧ pivot2 < b := by
          split at hq
          · cases hq
            exact ⟨reverseRangeGo_frame l1 a b hab hbl1,
              reverseRangeGo_perm l1 a b, by omega, by omega⟩
          · cases hq
            exact ⟨frameOn_refl l1 a b, List.Perm.refl l1, hpiv1.1, hpiv1.2⟩
        have hbl2 : b ≤ l2.length := by rw [hf2.1.1]; exact hbl1
        have hpred2 := predInv_transfer hf2.2.1 hf2.1 (by omega) hbl1 hpred1
        dsimp only
        rcases hr : (if wb ∧ wp ∧ hint2 = SortedHint.increasing then
            partialInsertionSortGo less l2 a b
          else (false, l2)) with ⟨sorted2, l3⟩
        have hf3 : FrameOn l2 l3 a b ∧ List.Perm l3 l2 ∧
            (sorted2 = true → AdjSorted less l3 a b) := by
          split at hr
          · have hh := partialInsertionSortGo_spec less hasym l2 a b hab hbl2 hpred2
            have hpp := partialInsertionSortGo_perm less l2 a b
            rw [hr] at hh hpp
            exact ⟨hh.1, hpp, hh.2⟩
          · cases hr
            exact ⟨frameOn_refl l2 a b, List.Perm.refl l2,
              fun h => Bool.noConfusion h⟩
        have hbl3 : b ≤ l3.length := by rw [hf3.1.1]; exact hbl2
        have hpred3 := predInv_transfer hf3.2.1 hf3.1 (by omega) hbl2 hpred2
        have hfl3 : FrameOn l l3 a b :=
          frameOn_trans (frameOn_trans hf1.1 hf2.1) hf3.1
        dsimp only
        split
        · rename_i hws
          exact ⟨hfl3, hf3.2.2 hws⟩
        · rename_i hws
          split
          · rename_i hguard
            rcases hpe : partitionEqualGo less l3 a b pivot2 with ⟨l4, mid⟩
            dsimp only
            have hspec := partitionEqualGo_spec less l3 a b pivot2 hab hbl3
              hf2.2.2.1 hf2.2.2.2 (less_irrefl hasym)
            have hperm4 := partitionEqualGo_perm less l3 a b pivot2
            rw [hpe] at hspec hperm4
            obtain ⟨g1, g2, g3, g4, g5⟩ := hspec
            dsimp only at g1 g2 g3 g4 g5 hperm4
            have hbl4 : b ≤ l4.length := by rw [g5.1]; exact hbl3
            have hga : 0 < a := hguard.1
            have hlessf : lless less l3 (a - 1) pivot2 = false := by
              cases hc : lless less l3 (a - 1) pivot2
              · rfl
              · exact absurd hc hguard.2
            rw [lless] at hlessf
            have hbelow : ∀ k, a ≤ k → k < b →
                less (lget l3 k) (lget l3 pivot2) = false := by
              intro k hk1 hk2
              exact hneg _ _ _ (hpred3 hga k hk1 hk2) hlessf
            have hbelow4 : ∀ k, a ≤ k → k < b →
                less (lget l4 k) (lget l3 pivot2) = false :=
              forall_lget_of_segPerm (fun x => less x (lget l3 pivot2) = false)
                (seg_perm_of_frame hperm4 g5 (by omega) hbl3) hbl3 hbl4 hbelow
            have hmidpred : ∀ k, mid ≤ k → k < b →
                less (lget l4 k) (lget l4 (mid - 1)) = false := by
              intro k hk1 hk2
              exact hneg _ _ _ (hbelow4 k (by omega) hk2)
                (g3 (mid - 1) (by omega) (by omega))
            obtain ⟨rf, radj⟩ := ih l4 mid b limit1 wb wp hbl4 (by omega)
              (fun _ k hk1 hk2 => hmidpred k hk1 hk2)
            have rperm := pdqsortLoop_perm less fuel l4 mid b limit1 wb wp
            refine ⟨frameOn_trans (frameOn_trans hfl3 g5)
              (frameOn_mono rf (by omega) (le_refl b)), ?_⟩
            intro k hk1 hk2
            by_cases hkm : mid < k
            · exact radj k hkm hk2
            · by_cases hke : k = mid
              · rw [hke, rf.2.1 (mid - 1) (by omega)]
                exact forall_lget_of_segPerm
                  (fun x => less x (lget l4 (mid - 1)) = false)
                  (seg_perm_of_frame rperm rf g2 hbl4) hbl4
                  (by rw [rf.1]; exact hbl4) hmidpred mid (le_refl mid) (by omega)
              · rw [rf.2.1 k (by omega), rf.2.1 (k - 1) (by omega)]
                exact hneg _ _ _ (hbelow4 k (by omega) (by omega))
                  (g3 (k - 1) (by omega) (by omega))
          · rename_i hguard
            rcases hpt : partitionGo less l3 a b pivot2 with ⟨l4, mid, ap⟩
            dsimp only
            have hspec := partitionGo_spec less l3 a b pivot2 hab hbl3
              hf2.2.2.1 hf2.2.2.2
            have hperm4 := partitionGo_perm less l3 a b pivot2
            rw [hpt] at hspec hperm4
            obtain ⟨g1, g2, g3, g4, g5, g6⟩ := hspec
            dsimp only at g1 g2 g3 g4 g5 g6 hperm4
            have hbl4 : b ≤ l4.length := by rw [g6.1]; exact hbl3
            have hpred4 := predInv_transfer hperm4 g6 (by omega) hbl3 hpred3
            split
            · obtain ⟨q1f, q1adj⟩ := ih l4 a mid limit1 true true (by omega)
                (by omega) (fun ha k hk1 hk2 => hpred4 ha k hk1 (by omega))
              have q1perm := pdqsortLoop_perm less fuel l4 a mid limit1 true true
              have key : ∀ (r1 : List α), FrameOn l4 r1 a mid →
                  AdjSorted less r1 a mid → List.Perm r1 l4 → ∀ (nb np : Bool),
                  FrameOn l (pdqsortLoop less fuel r1 (mid + 1) b limit1 nb np)
                    a b ∧
                  AdjSorted less
                    (pdqsortLoop less fuel r1 (mid + 1) b limit1 nb np) a b := by
                intro r1 p1f p1adj p1perm nb np
                obtain ⟨q2f, q2adj⟩ := ih r1 (mid + 1) b limit1 nb np
                  (by rw [p1f.1]; exact hbl4) (by omega)
                  (fun _ k hk1 hk2 => by
                    rw [p1f.2.2 k (by omega), Nat.add_sub_cancel,
                      p1f.2.2 mid (le_refl mid), g3]
                    exact g5 k (by omega) hk2)
                have q2perm := pdqsortLoop_perm less fuel r1 (mid + 1) b limit1
                  nb np
                refine ⟨frameOn_trans (frameOn_trans hfl3 g6)
                  (frameOn_trans (frameOn_mono p1f (le_refl a) (by omega))
                    (frameOn_mono q2f (by omega) (le_refl b))), ?_⟩
                exact pdq_glue_left_first hasym g3 g4 g5 g2 hbl4
                  p1f p1adj p1perm q2f q2adj q2perm
              exact key (pdqsortLoop less fuel l4 a mid limit1 true true)
                q1f q1adj q1perm _ _
            · obtain ⟨q1f, q1adj⟩ := ih l4 (mid + 1) b limit1 true true hbl4
                (by omega) (fun _ k hk1 hk2 => by
                  rw [Nat.add_sub_cancel, g3]
                  exact g5 k (by omega) hk2)
              have q1perm := pdqsortLoop_perm less fuel l4 (mid + 1) b limit1
                true true
              have key : ∀ (r1 : List α), FrameOn l4 r1 (mid + 1) b →
                  AdjSorted less r1 (mid + 1) b → List.Perm r1 l4 →
                  ∀ (nb np : Bool),
                  FrameOn l (pdqsortLoop less fuel r1 a mid limit1 nb np) a b ∧
                  AdjSorted less (pdqsortLoop less fuel r1 a mid limit1 nb np)
                    a b := by
                intro r1 p1f p1adj p1perm nb np
                obtain ⟨q2f, q2adj⟩ := ih r1 a mid limit1 nb np
                  (by rw [p1f.1]; omega) (by omega)
                  (fun ha k hk1 hk2 => by
                    rw [p1f.2.1 k (by omega), p1f.2.1 (a - 1) (by omega)]
                    exact hpred4 ha k hk1 (by omega))
                have q2perm := pdqsortLoop_perm less fuel r1 a mid limit1 nb np
                refine ⟨frameOn_trans (frameOn_trans hfl3 g6)
                  (frameOn_trans (frameOn_mono p1f (by omega) (le_refl b))
                    (frameOn_mono q2f (le_refl a) (by omega))), ?_⟩
                exact pdq_glue_right_first hasym g3 g4 g5 g2 hbl4
                  p1f p1adj p1perm q2f q2adj q2perm
              exact key (pdqsortLoop less fuel l4 (mid + 1) b limit1 true true)
                q1f q1adj q1perm _ _

/-- Adjacent sortedness over the whole list yields the global
pairwise bound for a negatively transitive comparator. -/
theorem pairwise_of_adjSorted [Inhabited α] (less : α → α → Bool)
    (hneg : ∀ x y z, less x y = false → less y z = false → less x z = false)
    (l : List α) (h : AdjSorted less l 0 l.length) :
    l.Pairwise (fun x y => less y x = false) := by
  have hstep : ∀ (d i : Nat), i + d + 1 < l.length →
      less (lget l (i + d + 1)) (lget l i) = false := by
    intro d
    induction d with
    | zero =>
      intro i hi
      exact h (i + 1) (by omega) (by omega)
    | succ d ih =>
      intro i hi
      have h1 := h (i + d + 2) (by omega) (by omega)
      have h2 : i + d + 2 - 1 = i + d + 1 := by omega
      rw [h2] at h1
      have h3 : i + (d + 1) + 1 = i + d + 2 := by omega
      rw [h3]
      exact hneg _ _ _ h1 (ih i (by omega))
  rw [List.pairwise_iff_getElem]
  intro i j hi hj hij
  rw [← lget_eq_getElem l i hi, ← lget_eq_getElem l j hj]
  have hd : j = i + (j - i - 1) + 1 := by omega
  rw [hd]
  exact hstep (j - i - 1) i (by omega)

/-- `sort.Slice` sorts: the result is pairwise ordered for every
asymmetric, negatively transitive comparator. -/
theorem goSortSlice_sorted [Inhabited α] (less : α → α → Bool)
    (hasym : ∀ x y, less x y = true → less y x = false)
    (hneg : ∀ x y z, less x y = false → less y z = false → less x z = false)
    (l : List α) :
    (goSortSlice less l).Pairwise (fun x y => less y x = false) := by
  obtain ⟨hf, hadj⟩ := pdqsortLoop_spec less hasym hneg (2 * l.length + 64) l 0
    l.length (bitsLen l.length) true true (le_refl _) (by omega)
    (fun h0 => absurd h0 (by omega))
  apply pairwise_of_adjSorted less hneg
  intro k h1 h2
  rw [goSortSlice] at h2 ⊢
  rw [hf.1] at h2
  exact hadj k h1 h2

/-- C4 amended: `updateMetadata` always produces a permutation of the
prior records plus the appended one, and the resulting ledger is
always sorted descending by timestamp (Go `sort.Slice` = pdqsort sorts
at every length); whenever the resulting ledger has at most 12 records
— the regime in which pdqsort runs its stable insertion sort, and the
regime of any retention-bounded ledger with retention < 12 — records
with identical timestamps moreover keep their prior relative order
(the per-timestamp filtrations of the result and of
`prior ++ [new record]` coincide).  Beyond 12 records the re-sort is
not stable (see the counterexample), though it still sorts. -/
theorem updateMetadata_sorted_small_stable (prior : BackupMetadata)
    (projectName archiveFilename : String) (timestamp : GoTime)
    (files : List String) :
    List.Perm (updateMetadata prior projectName archiveFilename timestamp
        files).Backups
      (prior.Backups ++ [(⟨archiveFilename, timestamp, files⟩ : BackupRecord)]) ∧
    sortedDesc (updateMetadata prior projectName archiveFilename timestamp
      files).Backups ∧
    (prior.Backups.length + 1 ≤ 12 →
      ∀ t : GoTime,
        (updateMetadata prior projectName archiveFilename timestamp
            files).Backups.filter (fun r => decide (r.Timestamp = t)) =
          (prior.Backups ++ [(⟨archiveFilename, timestamp, files⟩ : BackupRecord)]).filter
            (fun r => decide (r.Timestamp = t))) := by
  refine ⟨updateMetadata_perm prior projectName archiveFilename timestamp files,
    ?_, ?_⟩
  · exact goSortSlice_sorted recAfter recAfter_asymm recAfter_neg_trans
      (prior.Backups ++ [(⟨archiveFilename, timestamp, files⟩ : BackupRecord)])
  · intro hsmall t
    have hlen : (prior.Backups ++
        [(⟨archiveFilename, timestamp, files⟩ : BackupRecord)]).length ≤ 12 := by
      simp
      omega
    have hs : (updateMetadata prior projectName archiveFilename timestamp
        files).Backups = isortList recAfter (prior.Backups ++
          [(⟨archiveFilename, timestamp, files⟩ : BackupRecord)]) :=
      goSortSlice_small recAfter _ hlen
    rw [hs]
    refine filter_isortList recAfter (fun r => decide (r.Timestamp = t)) ?_ _
    intro a b ha hb
    have ha' : a.Timestamp = t := of_decide_eq_true ha
    have hb' : b.Timestamp = t := of_decide_eq_true hb
    exact recAfter_tie_of_eq (ha'.trans hb'.symm)

/-- Witness for `updateMetadata_sorted_small_stable`: three records,
two of them tied with the appended one; the result is sorted and the
tied block keeps insertion order. -/
theorem updateMetadata_sorted_small_stable_witness :
    sortedDesc (updateMetadata
      ⟨"p", [⟨"a0", ⟨2025, 1, 1, 0, 0, 2, 0⟩, []⟩,
             ⟨"o0", ⟨2025, 1, 1, 0, 0, 1, 0⟩, []⟩]⟩
      "p" "new" ⟨2025, 1, 1, 0, 0, 2, 0⟩ []).Backups ∧
    (updateMetadata
      ⟨"p", [⟨"a0", ⟨2025, 1, 1, 0, 0, 2, 0⟩, []⟩,
             ⟨"o0", ⟨2025, 1, 1, 0, 0, 1, 0⟩, []⟩]⟩
      "p" "new" ⟨2025, 1, 1, 0, 0, 2, 0⟩ []).Backups.filter
        (fun r => decide (r.Timestamp = ⟨2025, 1, 1, 0, 0, 2, 0⟩)) =
      [⟨"a0", ⟨2025, 1, 1, 0, 0, 2, 0⟩, []⟩,
       ⟨"new", ⟨2025, 1, 1, 0, 0, 2, 0⟩, []⟩] :=
  ⟨(updateMetadata_sorted_small_stable _ "p" "new" _ _).2.1,
   (((updateMetadata_sorted_small_stable
      ⟨"p", [⟨"a0", ⟨2025, 1, 1, 0, 0, 2, 0⟩, []⟩,
             ⟨"o0", ⟨2025, 1, 1, 0, 0, 1, 0⟩, []⟩]⟩
      "p" "new" ⟨2025, 1, 1, 0, 0, 2, 0⟩ []).2.2 (by decide))
     ⟨2025, 1, 1, 0, 0, 2, 0⟩).trans (by decide)⟩

end Toske
